import Mathlib

/-!
# argvx: a shallow embedding of the argument parser and its value model

C++ texts (`std::string`, `std::string_view`, the `argv` tokens) are Lean `String`s and every
operation on them is written over the character list `String.data`.  Machine integers are
`Int`/`Nat` with explicit range checks.  Caller-owned variables live in a store indexed by
address; the `shared_ptr<argument>` records live in a heap indexed by pointer.  Where C++
execution has undefined behaviour the model returns `none`.
-/

namespace argvx

deriving instance DecidableEq for Except

/-! ## Texts -/

/-- Text `std::string_view::starts_with`. -/
def starts_with (s pre : String) : Bool := pre.data.isPrefixOf s.data

/-- Index of the first occurrence of `c` in a character list. -/
def find_chars (c : Char) : List Char → Option Nat
  | [] => none
  | x :: xs => if x = c then some 0 else (find_chars c xs).map (· + 1)

/-- Text `std::string_view::find(char)`; `none` stands for `npos`. -/
def find (s : String) (c : Char) : Option Nat := find_chars c s.data

/-- Text `sv.substr(0, n)`. -/
def substr_to (s : String) (n : Nat) : String := ⟨s.data.take n⟩

/-- Text `sv.substr(n)`. -/
def substr_from (s : String) (n : Nat) : String := ⟨s.data.drop n⟩

/-! ## policy.hpp -/

/-- Template `prefix_policy<Long, Short>`: the texts that mark long and short option names. -/
structure prefix_policy where
  long_prefix : String
  short_prefix : String
deriving DecidableEq, Repr

/-- Template `delim_policy<Asgn, Sep>`. -/
structure delim_policy where
  assign_delim : Char
  seperator_delim : Char
deriving DecidableEq, Repr

/-- The `requires(Long != Short)` clause of `prefix_policy`. -/
def prefix_policy.requires_ok (Pp : prefix_policy) : Bool :=
  decide ( Pp.long_prefix ≠ Pp.short_prefix)

/-- The `requires(Asgn != Sep)` clause of `delim_policy`. -/
def delim_policy.requires_ok (Dp : delim_policy) : Bool :=
  decide (Dp.assign_delim ≠ Dp.seperator_delim)

/-- Default first template argument of `parser`: `prefix_policy<"--", "-">`. -/
def default_prefix_policy : prefix_policy := ⟨"--", "-"⟩

/-- Default second template argument of `parser`: `delim_policy<'=', ','>`. -/
def default_delim_policy : delim_policy := ⟨'=', ','⟩

/-! ## value.hpp: the typed value -/

/-- A C++ `double`, kept as its IEEE-754 binary64 bit pattern. -/
structure Double where
  bits : Nat
deriving DecidableEq, Repr

/-- A `std::filesystem::path`, kept as its native text. -/
structure fs_path where
  native : String
deriving DecidableEq, Repr

/-- The variant `argvx::value`:
`std::variant<bool, int64_t, uint64_t, double, std::string, fs::path>`. -/
inductive value where
  | bool (b : Bool)
  | int64 (i : Int)
  | uint64 (n : Nat)
  | double (d : Double)
  | string (s : String)
  | path (p : fs_path)
deriving DecidableEq, Repr

/-- Range invariant of the machine integers held by a value. -/
def value.in_range : value → Prop
  | .int64 i => -(2:Int)^63 ≤ i ∧ i < (2:Int)^63
  | .uint64 n => n < 2^64
  | _ => True

instance (v : value) : Decidable v.in_range := by
  cases v <;> unfold value.in_range <;> infer_instance

/-- The `std::type_info` of the types that satisfy `detail::value_alternative`: the six
alternatives of `value`, every other integral type (`int`, `unsigned`, `char`, ...) and every
other floating-point type (`float`, `long double`).  `name` is what `type_info::name()`
returns. -/
inductive type_info where
  | bool
  | int64_t
  | uint64_t
  | double
  | string
  | path
  | integral (is_signed : Bool) (name : String)
  | floating_point (name : String)
deriving DecidableEq, Repr

/-- The `typeid(underlying)` of the active alternative of a value. -/
def value.type : value → type_info
  | .bool _ => .bool
  | .int64 _ => .int64_t
  | .uint64 _ => .uint64_t
  | .double _ => .double
  | .string _ => .string
  | .path _ => .path

/-- Static member `detail::value_type<T>::name`. -/
def detail.value_type_name : type_info → String
  | .bool => "bool"
  | .int64_t => "int64"
  | .uint64_t => "uint64"
  | .integral is_signed _ => if is_signed then "int64" else "uint64"
  | .double => "double"
  | .floating_point _ => "double"
  | .string => "string"
  | .path => "path"

/-! ## The standard library's number conversions -/

/-- The `std::errc` values that `std::from_chars` reports (`ok` is the value-initialised one). -/
inductive errc where
  | ok
  | invalid_argument
  | result_out_of_range
deriving DecidableEq, Repr

/-- The `std::from_chars_result`; `ptr` is an offset from `sv.begin()`. -/
structure from_chars_result where
  ptr : Nat
  ec : errc
deriving DecidableEq, Repr

/-- A decimal digit character. -/
def is_digit (c : Char) : Bool := decide (48 ≤ c.toNat) && decide (c.toNat ≤ 57)

/-- Numeric value of a decimal digit character. -/
def digit_val (c : Char) : Nat := c.toNat - 48

/-- The digit loop of `std::from_chars` for a 64-bit accumulator: consumes the leading decimal
digits of the input.  `acc` is the accumulator, `valid` is cleared once an accumulation step
would overflow 64 bits (the remaining digits are still consumed), `n` counts the characters
consumed.  -/
def from_chars_digits : List Char → Nat → Bool → Nat → Nat × Bool × Nat
  | [], acc, valid, n => (acc, valid, n)
  | c :: cs, acc, valid, n =>
    if is_digit c then
      if valid && decide (acc * 10 + digit_val c < 2^64) then
        from_chars_digits cs (acc * 10 + digit_val c) true (n + 1)
      else
        from_chars_digits cs acc false (n + 1)
    else (acc, valid, n)

/-- Library `std::from_chars(sv.begin(), sv.end(), v)` for `uint64_t v`, base 10: no sign is
accepted.  Returns the result record and the value of `v` afterwards (unmodified on failure). -/
def from_chars_uint64 (sv : String) (v : Nat) : from_chars_result × Nat :=
  match from_chars_digits sv.data 0 true 0 with
  | (acc, valid, n) =>
    if n = 0 then (⟨0, .invalid_argument⟩, v)
    else if !valid then (⟨n, .result_out_of_range⟩, v)
    else (⟨n, .ok⟩, acc)

/-- Library `std::from_chars(sv.begin(), sv.end(), v)` for `int64_t v`, base 10: a leading
minus sign is accepted (a plus sign is not), the magnitude is accumulated in 64 unsigned bits
and then range-checked against the sign. -/
def from_chars_int64 (sv : String) (v : Int) : from_chars_result × Int :=
  let neg : Bool := sv.data.head? == some '-'
  let body := if neg then sv.data.tail else sv.data
  let sign_len := if neg then 1 else 0
  match from_chars_digits body 0 true 0 with
  | (acc, valid, n) =>
    if n = 0 then (⟨0, .invalid_argument⟩, v)
    else if !valid then (⟨sign_len + n, .result_out_of_range⟩, v)
    else if neg then
      if acc ≤ 2^63 then (⟨sign_len + n, .ok⟩, -(acc : Int))
      else (⟨sign_len + n, .result_out_of_range⟩, v)
    else
      if acc < 2^63 then (⟨sign_len + n, .ok⟩, (acc : Int))
      else (⟨sign_len + n, .result_out_of_range⟩, v)

/-- Library `std::to_string(uint64_t)`: the decimal numeral. -/
def std_to_string_uint64 (n : Nat) : String := Nat.repr n

/-- Library `std::to_string(int64_t)`: the decimal numeral, with a minus sign when negative. -/
def std_to_string_int64 (i : Int) : String :=
  if i < 0 then "-" ++ Nat.repr i.natAbs else Nat.repr i.natAbs

/-- The two standard-library conversions on `double` that the value model calls.  They are
floating-point routines outside this repository and are taken as parameters. -/
structure double_lib where
  from_chars : String → Double → from_chars_result × Double
  to_string : Double → String

/-! ## value.hpp: the default decoder -/

/-- Specialisation `default_value_parser::parse_as<bool>`. -/
def default_value_parser_parse_as_bool (sv : String) : Except String Bool :=
  if sv = "true" ∨ sv = "on" ∨ sv = "yes" then .ok true
  else if sv = "false" ∨ sv = "off" ∨ sv = "no" then .ok false
  else .error "bad value (boolean)"

/-- Specialisation `default_value_parser::parse_as<int64_t>`. -/
def default_value_parser_parse_as_int64 (sv : String) : Except String Int :=
  match from_chars_int64 sv 0 with
  | (r, v) =>
    if r.ec = .invalid_argument then .error "bad value (int64)"
    else if r.ec = .result_out_of_range then .error "bad value (int64 out of range)"
    else if r.ptr ≠ sv.length then .error "bad value (trailing characters in int64)"
    else .ok v

/-- Specialisation `default_value_parser::parse_as<uint64_t>`. -/
def default_value_parser_parse_as_uint64 (sv : String) : Except String Nat :=
  match from_chars_uint64 sv 0 with
  | (r, v) =>
    if r.ec = .invalid_argument then .error "bad value (uint64)"
    else if r.ec = .result_out_of_range then .error "bad value (uint64 out of range)"
    else if r.ptr ≠ sv.length then .error "bad value (trailing characters in uint64)"
    else .ok v

/-- Specialisation `default_value_parser::parse_as<double>`. -/
def default_value_parser_parse_as_double (F : double_lib) (sv : String) : Except String Double :=
  match F.from_chars sv ⟨0⟩ with
  | (r, v) =>
    if r.ec = .invalid_argument then .error "bad value (double)"
    else if r.ec = .result_out_of_range then .error "bad value (double out of range)"
    else if r.ptr ≠ sv.length then .error "bad value (trailing characters in double)"
    else .ok v

/-- Function `default_value_parser::parse`.  The outer `none` is `std::unreachable()`, that is,
undefined behaviour: the type is none of the six alternatives. -/
def default_value_parser_parse (F : double_lib) (sv : String) (type : type_info) :
    Option (Except String value) :=
  if type = .bool then
    match default_value_parser_parse_as_bool sv with
    | .error e => some (.error e)
    | .ok r => some (.ok (.bool r))
  else if type = .int64_t then
    match default_value_parser_parse_as_int64 sv with
    | .error e => some (.error e)
    | .ok r => some (.ok (.int64 r))
  else if type = .uint64_t then
    match default_value_parser_parse_as_uint64 sv with
    | .error e => some (.error e)
    | .ok r => some (.ok (.uint64 r))
  else if type = .double then
    match default_value_parser_parse_as_double F sv with
    | .error e => some (.error e)
    | .ok r => some (.ok (.double r))
  else if type = .string then some (.ok (.string sv))
  else if type = .path then some (.ok (.path ⟨sv⟩))
  else none

/-- Template `detail::type_name<T>()`. -/
def detail.type_name_T (T : type_info) : String := detail.value_type_name T

/-- Overload `detail::type_name(const value&)`. -/
def detail.type_name_value (v : value) : String := detail.type_name_T v.type

/-- Overload `detail::type_name(const std::type_info&)`. -/
def detail.type_name (ti : type_info) : String :=
  if ti = .bool then "boolean"
  else if ti = .int64_t then "int64"
  else if ti = .uint64_t then "uint64"
  else if ti = .double then "double"
  else if ti = .path then "path"
  else if ti = .string then "string"
  else match ti with
    | .integral _ name => name
    | .floating_point name => name
    | _ => ""

/-- Function `detail::to_string(const value&)`. -/
def detail.to_string (F : double_lib) : value → String
  | .bool underlying => if underlying then "true" else "false"
  | .path underlying => underlying.native
  | .string underlying => underlying
  | .int64 underlying => std_to_string_int64 underlying
  | .uint64 underlying => std_to_string_uint64 underlying
  | .double underlying => F.to_string underlying

/-! ## Caller-owned variables -/

/-- The caller's variables, by address.  A variable of a type that is an alternative of `value`
holds a value of that alternative; the code never reads a variable and writes one only through
`detail::binder`. -/
abbrev Store := Nat → value

/-- Assignment `*bind = val`. -/
def Store.write (mem : Store) (bind : Nat) (val : value) : Store :=
  fun a => if a = bind then val else mem a

/-! ## util.hpp -/

/-- Function `detail::require`: on a false condition the process panics (prints the message and
aborts), which the model reports as `Except.error` with what is printed. -/
def detail.require (cond : Bool) (msg : String) : Except String Unit :=
  if cond then .ok () else .error ("argvx::panic() called: " ++ msg)

/-! ## argument.hpp -/

/-- Struct `detail::option_names`. -/
structure detail.option_names where
  long_name : String := ""
  short_name : String := ""
deriving DecidableEq, Repr

/-- Method `option_names::one_defined`. -/
def detail.option_names.one_defined (n : detail.option_names) : Bool :=
  !(n.long_name.data.isEmpty && n.short_name.data.isEmpty)

/-- Struct `detail::binder<T>`: `T` is the type of the bound variable, `bind` its address.  The
write-back closures that `positional` and `option` store in an argument are exactly calls of a
binder through `std::visit`, so the closure is kept as its binder. -/
structure detail.binder where
  T : type_info
  bind : Nat
  name : String
deriving DecidableEq, Repr

/-- Call `std::visit(binder, val)`, i.e. `binder<T>::operator()(const U&)` at the active
alternative `U` of `val`: assigns when `U` is `T`, otherwise returns the error text. -/
def detail.binder.call (b : detail.binder) (val : value) (mem : Store) :
    Option String × Store :=
  if b.T = val.type then (none, mem.write b.bind val)
  else
    (some (b.name ++ ": expected " ++ detail.type_name_T b.T ++ ", got "
      ++ detail.type_name_T val.type), mem)

/-- Class `argument`. -/
structure argument where
  m_type : type_info
  m_names : List String
  m_bind : detail.binder
  m_provided : Bool := false
  m_required : Bool := false
  m_help : String := ""
deriving DecidableEq, Repr

/-- Method `argument::name`: `m_names.front()`, undefined (`none`) on an empty vector. -/
def argument.name (a : argument) : Option String := a.m_names.head?

/-- Method `argument::required`. -/
def argument.required (a : argument) : argument := { a with m_required := true }

/-- Method `argument::help`. -/
def argument.help (a : argument) (help : String) : argument := { a with m_help := help }

/-! ## parser.hpp -/

/-- Class `parser`.  `heap` holds the argument records owned through `shared_ptr`; a pointer is
an index into it.  `m_options` is the `unordered_map` as a list of entries with distinct keys;
the list order stands for the (unspecified) iteration order. -/
structure parser where
  m_argv : List String
  heap : List argument := []
  m_positionals : List Nat := []
  m_options : List (String × Nat) := []
deriving DecidableEq, Repr

/-- Lookup `unordered_map::find`. -/
def map_find : List (String × Nat) → String → Option Nat
  | [], _ => none
  | (k, v) :: m, key => if k = key then some v else map_find m key

/-- Assignment `map[key] = v`. -/
def map_assign : List (String × Nat) → String → Nat → List (String × Nat)
  | [], key, v => [(key, v)]
  | (k, w) :: m, key, v => if k = key then (k, v) :: m else (k, w) :: map_assign m key v

/-- Constructor `parser(argc, argv)`. -/
def parser.new (argv : List String) : parser := { m_argv := argv }

/-- Method `parser::positional(name, bind)` with `T` the type of `bind`.  Returns the engine
and the pointer to the new record (the returned `argument&`). -/
def parser.positional (p : parser) (name : String) (T : type_info) (bind : Nat) :
    Except String (parser × Nat) := do
  detail.require (!name.data.isEmpty) "positional must have non-empty name"
  let ptr := p.heap.length
  let rec_ : argument := { m_type := T, m_names := [name], m_bind := ⟨T, bind, name⟩ }
  pure ({ p with heap := p.heap ++ [rec_], m_positionals := p.m_positionals ++ [ptr] }, ptr)

/-- Method `parser::option(option_names, bind)` with `T` the type of `bind`.  `names.front()` is
read after `one_defined` and the two pushes, so `names` is not empty there. -/
def parser.option (Pp : prefix_policy) (p : parser) (option_names : detail.option_names)
    (T : type_info) (bind : Nat) : Except String (parser × Nat) := do
  detail.require option_names.one_defined "option must have at least one name"
  let lname := option_names.long_name
  let sname := option_names.short_name
  let names : List String := []
  let names ← if !lname.data.isEmpty then do
      detail.require (starts_with lname Pp.long_prefix)
        "long option name must start with long prefix"
      pure (names ++ [lname])
    else pure names
  let names ← if !sname.data.isEmpty then do
      detail.require (starts_with sname Pp.short_prefix)
        "short option name must start with short prefix"
      pure (names ++ [sname])
    else pure names
  let name := names.headD ""
  let ptr := p.heap.length
  let rec_ : argument := { m_type := T, m_names := names, m_bind := ⟨T, bind, name⟩ }
  let m := p.m_options
  let m := if !lname.data.isEmpty then map_assign m lname ptr else m
  let m := if !sname.data.isEmpty then map_assign m sname ptr else m
  pure ({ p with heap := p.heap ++ [rec_], m_options := m }, ptr)

/-- Update of the record behind a pointer (a method called on the returned `argument&`, or a
member assignment through the `shared_ptr`). -/
def parser.update (p : parser) (ptr : Nat) (f : argument → argument) : parser :=
  { p with heap := p.heap.modify f ptr }

/-- Call `.required()` on the record behind `ptr`. -/
def parser.required (p : parser) (ptr : Nat) : parser := p.update ptr argument.required

/-- The type of a value decoder `Vp::parse` (concept `detail::value_parser`); the outer `none`
is undefined behaviour inside the decoder. -/
abbrev value_decoder := String → type_info → Option (Except String value)

/-- What a private parsing method leaves behind: the returned `optional<string>`, the engine and
the store. -/
abbrev Outcome := Option String × parser × Store

/-- Method `parser::m_type_check`. -/
def parser.m_type_check (F : double_lib) (name : String) (val : value) (arg : argument) :
    Option String :=
  let type := val.type
  if type ≠ arg.m_type then
    some (name ++ ": expected " ++ detail.type_name arg.m_type ++ ", got "
      ++ detail.type_name type ++ " '" ++ detail.to_string F val ++ "'")
  else none

/-- Method `parser::m_check_required`, the sweep over `m_positionals`. -/
def parser.m_check_required_positionals (p : parser) : List Nat → Option (Option String)
  | [] => some none
  | ptr :: rest =>
    match p.heap[ptr]? with
    | none => none
    | some a =>
      if a.m_required && !a.m_provided then
        a.name.map (fun n => some ("missing required positional: " ++ n))
      else p.m_check_required_positionals rest

/-- Method `parser::m_check_required`, the sweep over `m_options`. -/
def parser.m_check_required_options (p : parser) : List (String × Nat) → Option (Option String)
  | [] => some none
  | it :: rest =>
    match p.heap[it.2]? with
    | none => none
    | some a =>
      if a.m_required && !a.m_provided then
        a.name.map (fun n => some ("missing required option: " ++ n))
      else p.m_check_required_options rest

/-- Method `parser::m_check_required`. -/
def parser.m_check_required (p : parser) : Option (Option String) :=
  match p.m_check_required_positionals p.m_positionals with
  | none => none
  | some (some error) => some (some error)
  | some none => p.m_check_required_options p.m_options

/-- Assignment `ptr->m_provided = true`. -/
def parser.set_provided (p : parser) (ptr : Nat) : parser :=
  p.update ptr (fun a => { a with m_provided := true })

/-- The split at the head of `m_parse_long_opt`: the name part `option` and the inline value
part `raw` of a token (the whole token and the empty text when it has no delimiter). -/
def parser.long_opt_split (Dp : delim_policy) (token : String) : String × String :=
  let delim := find token Dp.assign_delim
  match delim with
  | some d => (substr_to token d, substr_from token (d + 1))
  | none => (token, "")

/-- Method `parser::m_parse_long_opt<Vp>`. -/
def parser.m_parse_long_opt (Dp : delim_policy) (F : double_lib) (Vp : value_decoder)
    (p : parser) (mem : Store) (token : String) : Option Outcome :=
  let (option, raw) := parser.long_opt_split Dp token
  match map_find p.m_options option with
  | none => some (some ("unknown option: " ++ option), p, mem)
  | some it =>
    match p.heap[it]? with
    | none => none
    | some opt0 =>
      let p := p.set_provided it
      let opt : argument := { opt0 with m_provided := true }
      match Vp raw opt.m_type with
      | none => none
      | some (.error e) =>
        if opt.m_type = .bool then
          match opt.m_bind.call (.bool true) mem with
          | (some error, mem) => some (some error, p, mem)
          | (none, mem) => some (none, p, mem)
        else some (some (token ++ ": " ++ e), p, mem)
      | some (.ok val) =>
        match parser.m_type_check F token val opt with
        | some error => some (some error, p, mem)
        | none =>
          match opt.m_bind.call val mem with
          | (some error, mem) => some (some error, p, mem)
          | (none, mem) => some (none, p, mem)

/-- Method `parser::m_parse_short_opt<Vp>`; the last component of the result is `index`
afterwards.  Reading `*value` when the decoder returned an error is undefined behaviour. -/
def parser.m_parse_short_opt (F : double_lib) (Vp : value_decoder)
    (p : parser) (mem : Store) (token : String) (index : Nat) : Option (Outcome × Nat) :=
  match map_find p.m_options token with
  | none => some ((some ("unknown option: " ++ token), p, mem), index)
  | some it =>
    match p.heap[it]? with
    | none => none
    | some opt0 =>
      let p := p.set_provided it
      let opt : argument := { opt0 with m_provided := true }
      if opt.m_type = .bool then
        match opt.m_bind.call (.bool true) mem with
        | (some error, mem) => some ((some error, p, mem), index)
        | (none, mem) => some ((none, p, mem), index)
      else
        if index = p.m_argv.length - 1 then
          some ((some (token ++ ": missing value"), p, mem), index)
        else
          let index := index + 1
          match p.m_argv[index]? with
          | none => none
          | some next =>
            match Vp next opt.m_type with
            | none => none
            | some (.error _) => none
            | some (.ok val) =>
              match parser.m_type_check F token val opt with
              | some error => some ((some error, p, mem), index)
              | none =>
                match opt.m_bind.call val mem with
                | (some error, mem) => some ((some error, p, mem), index)
                | (none, mem) => some ((none, p, mem), index)

/-- Method `parser::m_parse_positional<Vp>`; the last component of the result is `position`
afterwards. -/
def parser.m_parse_positional (F : double_lib) (Vp : value_decoder)
    (p : parser) (mem : Store) (token : String) (position : Nat) : Option (Outcome × Nat) :=
  if position ≥ p.m_positionals.length then
    some ((some ("unexpected positional argument #" ++ Nat.repr position), p, mem), position)
  else
    match p.m_positionals[position]? with
    | none => none
    | some ptr =>
      match p.heap[ptr]? with
      | none => none
      | some positional0 =>
        let p := p.set_provided ptr
        let positional : argument := { positional0 with m_provided := true }
        match Vp token positional.m_type with
        | none => none
        | some (.error e) => some ((some e, p, mem), position)
        | some (.ok val) =>
          match parser.m_type_check F token val positional with
          | some error => some ((some error, p, mem), position)
          | none =>
            match positional.m_bind.call val mem with
            | (some error, mem) => some ((some error, p, mem), position)
            | (none, mem) => some ((none, p, mem), position + 1)

/-- The body of the `for` loop of `parser::parse` on one token: the classification by prefix and
the call of the matching private method.  Returns the method's outcome with `index` and
`position` as the method leaves them. -/
def parser.dispatch (Pp : prefix_policy) (Dp : delim_policy) (F : double_lib)
    (Vp : value_decoder) (p : parser) (mem : Store) (token : String) (index position : Nat) :
    Option (Outcome × Nat × Nat) :=
  if starts_with token Pp.long_prefix then
    match parser.m_parse_long_opt Dp F Vp p mem token with
    | none => none
    | some o => some (o, index, position)
  else if starts_with token Pp.short_prefix then
    match parser.m_parse_short_opt F Vp p mem token index with
    | none => none
    | some (o, index) => some (o, index, position)
  else
    match parser.m_parse_positional F Vp p mem token position with
    | none => none
    | some (o, position) => some (o, index, position)

/-- The `for` loop of `parser::parse` followed by the required sweep, started at `index` with
the running `position`.  The first argument bounds the number of iterations; `parse` supplies
`m_argv.size()`, which always suffices because every iteration advances `index`. -/
def parser.parse_loop (Pp : prefix_policy) (Dp : delim_policy) (F : double_lib)
    (Vp : value_decoder) : Nat → parser → Store → Nat → Nat → Option Outcome
  | fuel, p, mem, index, position =>
    if index < p.m_argv.length then
      match fuel with
      | 0 => none
      | fuel + 1 =>
        match p.m_argv[index]? with
        | none => none
        | some token =>
          match parser.dispatch Pp Dp F Vp p mem token index position with
          | none => none
          | some ((some error, p, mem), _, _) => some (some error, p, mem)
          | some ((none, p, mem), index, position) =>
            parser.parse_loop Pp Dp F Vp fuel p mem (index + 1) position
    else
      match p.m_check_required with
      | none => none
      | some r => some (r, p, mem)

/-- Method `parser::parse<Vp>`. -/
def parser.parse (Pp : prefix_policy) (Dp : delim_policy) (F : double_lib)
    (Vp : value_decoder) (p : parser) (mem : Store) : Option Outcome :=
  parser.parse_loop Pp Dp F Vp p.m_argv.length p mem 1 0

/-- The returned `optional<string>` of `parse`, without the final state. -/
def parser.parse_result (Pp : prefix_policy) (Dp : delim_policy) (F : double_lib)
    (Vp : value_decoder) (p : parser) (mem : Store) : Option (Option String) :=
  (parser.parse Pp Dp F Vp p mem).map (fun o => o.1)

/-- The content of the variable at `addr` after `parse`. -/
def parser.parse_var (Pp : prefix_policy) (Dp : delim_policy) (F : double_lib)
    (Vp : value_decoder) (p : parser) (mem : Store) (addr : Nat) : Option value :=
  (parser.parse Pp Dp F Vp p mem).map (fun o => o.2.2 addr)

/-! ## Well-formed engines and walks -/

/-- What `positional` and `option` establish for every record they create: the binder writes a
variable of the record's type, and the record has a name. -/
def argument.wf (a : argument) : Prop := a.m_bind.T = a.m_type ∧ a.m_names ≠ []

/-- The shape of an engine that registration produces: every pointer is live, the positional
pointers are distinct, and no record is both a positional and an option. -/
def parser.wf (p : parser) : Prop :=
  (∀ a ∈ p.heap, a.wf)
  ∧ (∀ ptr ∈ p.m_positionals, ptr < p.heap.length)
  ∧ (∀ e ∈ p.m_options, e.2 < p.heap.length)
  ∧ p.m_positionals.Nodup
  ∧ (∀ e ∈ p.m_options, e.2 ∉ p.m_positionals)

instance (a : argument) : Decidable a.wf := by
  unfold argument.wf; infer_instance

instance (p : parser) : Decidable p.wf := by
  unfold parser.wf; infer_instance

/-- An engine on which `parse` has not run: no record is marked provided. -/
def parser.fresh (p : parser) : Prop := ∀ a ∈ p.heap, a.m_provided = false

instance (p : parser) : Decidable p.fresh := by
  unfold parser.fresh; infer_instance

/-- The walk of `parse` from the engine `p0` and store `mem0` arrives, without an error, at the
head of the loop with engine `p`, store `mem`, and the given `index` and `position`. -/
inductive parser.Reaches (Pp : prefix_policy) (Dp : delim_policy) (F : double_lib)
    (Vp : value_decoder) (p0 : parser) (mem0 : Store) : parser → Store → Nat → Nat → Prop
  | start : parser.Reaches Pp Dp F Vp p0 mem0 p0 mem0 1 0
  | step {p : parser} {mem : Store} {index position : Nat} {token : String}
      {p1 : parser} {mem1 : Store} {index1 position1 : Nat} :
      parser.Reaches Pp Dp F Vp p0 mem0 p mem index position →
      p.m_argv[index]? = some token →
      parser.dispatch Pp Dp F Vp p mem token index position
        = some ((none, p1, mem1), index1, position1) →
      parser.Reaches Pp Dp F Vp p0 mem0 p1 mem1 (index1 + 1) position1

/-! ## Well-formed token streams -/

/-- The token stream `tokens`, read with the position counter at `position`, is well formed for
the engine `p`: every option token names a registered option, every value text decodes against
the type of its argument, every value-taking short option is followed by a token, and no
positional token comes after the registered positionals are used up.  The last index lists, in
token order, the record that each argument token binds and the value decoded for it. -/
inductive parser.Accepts (Pp : prefix_policy) (Dp : delim_policy) (F : double_lib)
    (p : parser) : List String → Nat → List (Nat × value) → Prop
  | done (position : Nat) : parser.Accepts Pp Dp F p [] position []
  | long_value {token : String} {rest : List String} {position it : Nat} {a : argument}
      {val : value} {ws : List (Nat × value)} :
      starts_with token Pp.long_prefix = true →
      map_find p.m_options (parser.long_opt_split Dp token).1 = some it →
      p.heap[it]? = some a →
      default_value_parser_parse F (parser.long_opt_split Dp token).2 a.m_type
        = some (.ok val) →
      parser.Accepts Pp Dp F p rest position ws →
      parser.Accepts Pp Dp F p (token :: rest) position ((it, val) :: ws)
  | long_flag {token : String} {rest : List String} {position it : Nat} {a : argument}
      {ws : List (Nat × value)} :
      starts_with token Pp.long_prefix = true →
      find token Dp.assign_delim = none →
      map_find p.m_options token = some it →
      p.heap[it]? = some a →
      a.m_type = .bool →
      parser.Accepts Pp Dp F p rest position ws →
      parser.Accepts Pp Dp F p (token :: rest) position ((it, .bool true) :: ws)
  | short_flag {token : String} {rest : List String} {position it : Nat} {a : argument}
      {ws : List (Nat × value)} :
      starts_with token Pp.long_prefix = false →
      starts_with token Pp.short_prefix = true →
      map_find p.m_options token = some it →
      p.heap[it]? = some a →
      a.m_type = .bool →
      parser.Accepts Pp Dp F p rest position ws →
      parser.Accepts Pp Dp F p (token :: rest) position ((it, .bool true) :: ws)
  | short_value {token next : String} {rest : List String} {position it : Nat} {a : argument}
      {val : value} {ws : List (Nat × value)} :
      starts_with token Pp.long_prefix = false →
      starts_with token Pp.short_prefix = true →
      map_find p.m_options token = some it →
      p.heap[it]? = some a →
      a.m_type ≠ .bool →
      default_value_parser_parse F next a.m_type = some (.ok val) →
      parser.Accepts Pp Dp F p rest position ws →
      parser.Accepts Pp Dp F p (token :: next :: rest) position ((it, val) :: ws)
  | positional {token : String} {rest : List String} {position ptr : Nat} {a : argument}
      {val : value} {ws : List (Nat × value)} :
      starts_with token Pp.long_prefix = false →
      starts_with token Pp.short_prefix = false →
      p.m_positionals[position]? = some ptr →
      p.heap[ptr]? = some a →
      default_value_parser_parse F token a.m_type = some (.ok val) →
      parser.Accepts Pp Dp F p rest (position + 1) ws →
      parser.Accepts Pp Dp F p (token :: rest) position ((ptr, val) :: ws)

/-- The engine after every record of `ws` has been marked provided. -/
def parser.mark_all (p : parser) (ws : List (Nat × value)) : parser :=
  ws.foldl (fun q w => q.set_provided w.1) p

/-- The store after every value of `ws` has been written, in order, to the variable bound to
its record in `p`. -/
def parser.apply_binds (p : parser) (ws : List (Nat × value)) (mem : Store) : Store :=
  ws.foldl (fun m w =>
    match p.heap[w.1]? with
    | some a => m.write a.m_bind.bind w.2
    | none => m) mem

/-! ## Reference definitions for the integer decoder -/

/-- Value of a run of decimal digits read left to right, starting from `acc`. -/
def decimal_from (acc : Nat) (ds : List Char) : Nat :=
  ds.foldl (fun a c => a * 10 + digit_val c) acc

/-- The longest prefix of the token of the shape: an optional minus sign (when the target is
signed) followed by one or more decimal digits.  Empty when there is no such prefix. -/
def spec_longest_numeral (is_signed : Bool) (token : List Char) : List Char :=
  match token with
  | '-' :: rest =>
    if is_signed && !(rest.takeWhile is_digit).isEmpty then '-' :: rest.takeWhile is_digit
    else []
  | _ => token.takeWhile is_digit

/-- The integer that a text of that shape denotes. -/
def spec_denoted : List Char → Int
  | '-' :: ds => -(decimal_from 0 ds : Int)
  | ds => (decimal_from 0 ds : Int)

/-- Reference decoding of an `int64` token, following the specification. -/
def spec_decode_int64 (token : String) : Except String Int :=
  let p := spec_longest_numeral true token.data
  if p = [] then .error "bad value (int64)"
  else if spec_denoted p < -(2:Int)^63 ∨ (2:Int)^63 - 1 < spec_denoted p then
    .error "bad value (int64 out of range)"
  else if p ≠ token.data then .error "bad value (trailing characters in int64)"
  else .ok (spec_denoted p)

/-- Reference decoding of a `uint64` token, following the specification. -/
def spec_decode_uint64 (token : String) : Except String Nat :=
  let p := spec_longest_numeral false token.data
  if p = [] then .error "bad value (uint64)"
  else if spec_denoted p < 0 ∨ (2:Int)^64 - 1 < spec_denoted p then
    .error "bad value (uint64 out of range)"
  else if p ≠ token.data then .error "bad value (trailing characters in uint64)"
  else .ok (spec_denoted p).toNat

/-! ## Test registrations -/

/-- The engine of a registration sequence that did not panic; the engine without tokens or
arguments otherwise. -/
def registered (r : Except String parser) : parser :=
  match r with
  | .ok p => p
  | .error _ => parser.new []

/-- A `double_lib` whose `from_chars` accepts no text and whose `to_string` is empty; it stands
in for the library where no `double` is involved. -/
def no_double : double_lib := ⟨fun _ v => (⟨0, .invalid_argument⟩, v), fun _ => ""⟩

/-- The store before `parse` in the tests: the flag at address 0 is `false`, the paths at the
other addresses are empty. -/
def test_store : Store := fun a => if a = 0 then .bool false else .path ⟨""⟩

/-- The record that the test registrations create for the required positional `input`. -/
def test_input_record : argument :=
  { m_type := .path, m_names := ["input"], m_bind := ⟨.path, 1, "input"⟩, m_required := true }

/-- The record that the test registrations create for the required option `--output`. -/
def test_output_record : argument :=
  { m_type := .path, m_names := ["--output", "-o"], m_bind := ⟨.path, 2, "--output"⟩,
    m_required := true }

/-- The record that the test registration creates for the flag `--do-thing`. -/
def test_flag_record : argument :=
  { m_type := .bool, m_names := ["--do-thing", "-do"], m_bind := ⟨.bool, 0, "--do-thing"⟩ }

/-- Registration of `bool_flag_sets_true` and `full_happy_path` in test.cpp: required
positional `input` (a path at address 1), required option `--output` or `-o` (a path at address 2),
option `--do-thing` or `-do` (a bool at address 0). -/
def test_full_engine (argv : List String) : parser :=
  registered (do
    let (p, h) ← (parser.new argv).positional "input" .path 1
    let p := p.required h
    let (p, h) ← parser.option default_prefix_policy p ⟨"--output", "-o"⟩ .path 2
    let p := p.required h
    let (p, _) ← parser.option default_prefix_policy p ⟨"--do-thing", "-do"⟩ .bool 0
    pure p)

/-- Registration of `unknown_option` in test.cpp: positional `input` and option `--output` or `-o`,
both paths, neither required. -/
def test_optional_engine (argv : List String) : parser :=
  registered (do
    let (p, _) ← (parser.new argv).positional "input" .path 1
    let (p, _) ← parser.option default_prefix_policy p ⟨"--output", "-o"⟩ .path 2
    pure p)

/-- Registration of `missing_required_option` and `error_propagates_from_value_parser` in
test.cpp: required positional `input` and required option `--output` or `-o`, both paths. -/
def test_required_engine (argv : List String) : parser :=
  registered (do
    let (p, h) ← (parser.new argv).positional "input" .path 1
    let p := p.required h
    let (p, h) ← parser.option default_prefix_policy p ⟨"--output", "-o"⟩ .path 2
    let p := p.required h
    pure p)

/-- Registration of `missing_required_positional` in test.cpp: required positional `input`. -/
def test_positional_engine (argv : List String) : parser :=
  registered (do
    let (p, h) ← (parser.new argv).positional "input" .path 1
    let p := p.required h
    pure p)

/-- An engine with an `int64_t` option `--num` or `-n` (address 0) and an `int64_t` positional
`count` (address 1). -/
def test_number_engine (argv : List String) : parser :=
  registered (do
    let (p, _) ← parser.option default_prefix_policy (parser.new argv) ⟨"--num", "-n"⟩ .int64_t 0
    let (p, _) ← p.positional "count" .int64_t 1
    pure p)

/-! ## Option names as the specification words them -/

/-- The condition of a well-formed option registration, in the words of the specification: at
least one name is given, a given long name starts with the long prefix and a given short name
starts with the short prefix. -/
def detail.option_names.well_formed (Pp : prefix_policy) (n : detail.option_names) : Prop :=
  (n.long_name ≠ "" ∨ n.short_name ≠ "")
  ∧ (n.long_name ≠ "" → starts_with n.long_name Pp.long_prefix = true)
  ∧ (n.short_name ≠ "" → starts_with n.short_name Pp.short_prefix = true)

instance (Pp : prefix_policy) (n : detail.option_names) : Decidable (n.well_formed Pp) := by
  unfold detail.option_names.well_formed; infer_instance

/-- The name list that `option` builds from the two names. -/
def detail.option_names.list (n : detail.option_names) : List String :=
  (if n.long_name.data.isEmpty then [] else [n.long_name])
    ++ (if n.short_name.data.isEmpty then [] else [n.short_name])

/-- The lookup table after `option` has registered the two names for the record `ptr`. -/
def detail.option_names.register (n : detail.option_names) (m : List (String × Nat))
    (ptr : Nat) : List (String × Nat) :=
  let m := if n.long_name.data.isEmpty then m else map_assign m n.long_name ptr
  if n.short_name.data.isEmpty then m else map_assign m n.short_name ptr

/-! ## Test registrations: options -/

/-- The engine of `[prog]` after `option({"--output", "-o"}, out)` with `out` a path at
address 2. -/
def test_output_engine : parser :=
  { m_argv := ["prog"],
    heap := [{ m_type := .path, m_names := ["--output", "-o"],
               m_bind := ⟨.path, 2, "--output"⟩ }],
    m_options := [("--output", 0), ("-o", 0)] }

/-- A store in which the flag at address 0 starts as `true`. -/
def test_true_store : Store := fun a => if a = 0 then .bool true else .path ⟨""⟩

/-- A store in which the paths at addresses 1 and 2 start non-empty. -/
def test_filled_store : Store := fun a => if a = 0 then .bool false else .path ⟨"before"⟩

/-- The record that `test_optional_engine` creates for the option `--output`. -/
def test_optional_output_record : argument :=
  { m_type := .path, m_names := ["--output", "-o"], m_bind := ⟨.path, 2, "--output"⟩ }

/-! ## The decision of a dispatch

Auxiliary definitions: the private methods with the engine and the store factored out.  They are
not a second model; `dispatch_eq_effect` proves that `dispatch` is `effect_of` applied to the
engine and the store. -/

/-- What one dispatch decides, apart from the engine and store it is applied to: the error it
returns, the record it marks provided, the variable it writes and the value, and `index` and
`position` afterwards. -/
structure effect where
  error : Option String
  mark : Option Nat
  write : Option (Nat × value)
  index : Nat
  position : Nat

/-- The engine after an effect. -/
def effect.engine (e : effect) (p : parser) : parser :=
  match e.mark with
  | some ptr => p.set_provided ptr
  | none => p

/-- The store after an effect. -/
def effect.store (e : effect) (mem : Store) : Store :=
  match e.write with
  | some w => mem.write w.1 w.2
  | none => mem

/-- An effect applied to an engine and a store, in the shape of a result of `dispatch`. -/
def effect.run (e : effect) (p : parser) (mem : Store) : Outcome × Nat × Nat :=
  ((e.error, e.engine p, e.store mem), e.index, e.position)

/-- The declaration of a record: the record without its `m_provided` mark. -/
def argument.decl (a : argument) : argument := { a with m_provided := false }

/-- The declaration behind a pointer. -/
def parser.decl_at (p : parser) (ptr : Nat) : Option argument :=
  (p.heap[ptr]?).map argument.decl

/-- The effect of the write-back of the record `it` on a value; `position1` is the position
counter after a write-back that succeeds. -/
def detail.binder.effect (b : detail.binder) (val : value) (it index position position1 : Nat) :
    effect :=
  if b.T = val.type then ⟨none, some it, some (b.bind, val), index, position1⟩
  else
    ⟨some (b.name ++ ": expected " ++ detail.type_name_T b.T ++ ", got "
      ++ detail.type_name_T val.type), some it, none, index, position⟩

/-- The decision of `m_parse_long_opt`. -/
def parser.long_opt_effect (Dp : delim_policy) (F : double_lib) (Vp : value_decoder)
    (p : parser) (token : String) (index position : Nat) : Option effect :=
  match map_find p.m_options (parser.long_opt_split Dp token).1 with
  | none =>
    some ⟨some ("unknown option: " ++ (parser.long_opt_split Dp token).1), none, none,
      index, position⟩
  | some it =>
    match p.decl_at it with
    | none => none
    | some opt =>
      match Vp (parser.long_opt_split Dp token).2 opt.m_type with
      | none => none
      | some (.error e) =>
        if opt.m_type = .bool then
          some (opt.m_bind.effect (.bool true) it index position position)
        else some ⟨some (token ++ ": " ++ e), some it, none, index, position⟩
      | some (.ok val) =>
        match parser.m_type_check F token val opt with
        | some error => some ⟨some error, some it, none, index, position⟩
        | none => some (opt.m_bind.effect val it index position position)

/-- The decision of `m_parse_short_opt`. -/
def parser.short_opt_effect (F : double_lib) (Vp : value_decoder)
    (p : parser) (token : String) (index position : Nat) : Option effect :=
  match map_find p.m_options token with
  | none => some ⟨some ("unknown option: " ++ token), none, none, index, position⟩
  | some it =>
    match p.decl_at it with
    | none => none
    | some opt =>
      if opt.m_type = .bool then
        some (opt.m_bind.effect (.bool true) it index position position)
      else if index = p.m_argv.length - 1 then
        some ⟨some (token ++ ": missing value"), some it, none, index, position⟩
      else
        match p.m_argv[index + 1]? with
        | none => none
        | some next =>
          match Vp next opt.m_type with
          | none => none
          | some (.error _) => none
          | some (.ok val) =>
            match parser.m_type_check F token val opt with
            | some error => some ⟨some error, some it, none, index + 1, position⟩
            | none => some (opt.m_bind.effect val it (index + 1) position position)

/-- The decision of `m_parse_positional`. -/
def parser.positional_effect (F : double_lib) (Vp : value_decoder)
    (p : parser) (token : String) (index position : Nat) : Option effect :=
  if position ≥ p.m_positionals.length then
    some ⟨some ("unexpected positional argument #" ++ Nat.repr position), none, none,
      index, position⟩
  else
    match p.m_positionals[position]? with
    | none => none
    | some ptr =>
      match p.decl_at ptr with
      | none => none
      | some positional =>
        match Vp token positional.m_type with
        | none => none
        | some (.error e) => some ⟨some e, some ptr, none, index, position⟩
        | some (.ok val) =>
          match parser.m_type_check F token val positional with
          | some error => some ⟨some error, some ptr, none, index, position⟩
          | none => some (positional.m_bind.effect val ptr index position (position + 1))

/-- The decision of `dispatch`: computed from the token, the tables and the declarations of
the records only; `dispatch_eq_effect` shows that `dispatch` is this decision applied to the
engine and the store. -/
def parser.effect_of (Pp : prefix_policy) (Dp : delim_policy) (F : double_lib)
    (Vp : value_decoder) (p : parser) (token : String) (index position : Nat) :
    Option effect :=
  if starts_with token Pp.long_prefix then parser.long_opt_effect Dp F Vp p token index position
  else if starts_with token Pp.short_prefix then
    parser.short_opt_effect F Vp p token index position
  else parser.positional_effect F Vp p token index position

/-- Two engines with the same token vector, the same tables and the same declarations: they
differ at most in which records are marked provided. -/
def parser.same_decls (p q : parser) : Prop :=
  q.m_argv = p.m_argv ∧ q.m_positionals = p.m_positionals ∧ q.m_options = p.m_options
    ∧ q.heap.map argument.decl = p.heap.map argument.decl

/-- The shape of a decision: a record that it marks is live; a decision without an error marks
a record and writes the variable of that record; a decision with an error writes nothing. -/
def effect.shaped (e : effect) (p : parser) : Prop :=
  (∀ ptr, e.mark = some ptr → ∃ a, p.heap[ptr]? = some a)
    ∧ (e.error = none → ∃ ptr a val, e.mark = some ptr ∧ p.heap[ptr]? = some a
        ∧ e.write = some (a.m_bind.bind, val))
    ∧ (e.error ≠ none → e.write = none)

/-! ## The log of a walk -/

/-- The three private parsing methods that `parse` chooses between. -/
inductive path_kind where
  | long_opt
  | short_opt
  | positional
deriving DecidableEq, Repr

/-- The choice of `parse` for a token: the long prefix is tested first, then the short one. -/
def parser.classify (Pp : prefix_policy) (token : String) : path_kind :=
  if starts_with token Pp.long_prefix then .long_opt
  else if starts_with token Pp.short_prefix then .short_opt
  else .positional

/-- The record that the method chosen for a token looks up: the option under the name part of
a long token, the option under a short token, the positional at `position`. -/
def parser.target (Pp : prefix_policy) (Dp : delim_policy) (p : parser) (token : String)
    (position : Nat) : Option Nat :=
  match parser.classify Pp token with
  | .long_opt => map_find p.m_options (parser.long_opt_split Dp token).1
  | .short_opt => map_find p.m_options token
  | .positional => p.m_positionals[position]?

/-- The value that the method chosen for the token at `index` decodes for the record `a`: the
decoded inline value of a long token, or `true` for a boolean option whose inline value does not
decode; `true` for a short boolean option, the decoded next token for any other short option;
the decoded token on the positional path. -/
def parser.decoded_value (Pp : prefix_policy) (Dp : delim_policy) (Vp : value_decoder)
    (p : parser) (token : String) (index : Nat) (a : argument) : Option value :=
  match parser.classify Pp token with
  | .long_opt =>
    match Vp (parser.long_opt_split Dp token).2 a.m_type with
    | some (.ok val) => some val
    | some (.error _) => if a.m_type = .bool then some (.bool true) else none
    | none => none
  | .short_opt =>
    if a.m_type = .bool then some (.bool true)
    else
      match p.m_argv[index + 1]? with
      | none => none
      | some next =>
        match Vp next a.m_type with
        | some (.ok val) => some val
        | _ => none
  | .positional =>
    match Vp token a.m_type with
    | some (.ok val) => some val
    | _ => none

/-- The index of the last token that the method chosen for the token at `index` uses: the next
index for a short option that is not boolean, `index` itself otherwise. -/
def parser.last_index (Pp : prefix_policy) (token : String) (index : Nat) (a : argument) : Nat :=
  if parser.classify Pp token = .short_opt ∧ a.m_type ≠ .bool then index + 1 else index

/-- The position counter after the method chosen for a token has bound it. -/
def parser.next_position (Pp : prefix_policy) (token : String) (position : Nat) : Nat :=
  if parser.classify Pp token = .positional then position + 1 else position

/-- An entry of the log of a walk: the token at `index` was handled by the method `path`, which
used the tokens up to `last`, matched the record `ptr` and wrote `val` to the variable `addr`. -/
structure bound where
  index : Nat
  last : Nat
  path : path_kind
  ptr : Nat
  addr : Nat
  val : value

/-- The walk of `parse` with its log: `Reaches` together with the list, in token order, of what
each dispatched token was bound to. -/
inductive parser.Trace (Pp : prefix_policy) (Dp : delim_policy) (F : double_lib)
    (Vp : value_decoder) (p0 : parser) (mem0 : Store) :
    List bound → parser → Store → Nat → Nat → Prop
  | start : parser.Trace Pp Dp F Vp p0 mem0 [] p0 mem0 1 0
  | step {log : List bound} {p : parser} {mem : Store} {index position : Nat} {token : String}
      {p1 : parser} {mem1 : Store} {index1 position1 : Nat} {ptr : Nat} {a : argument}
      {val : value} :
      parser.Trace Pp Dp F Vp p0 mem0 log p mem index position →
      p.m_argv[index]? = some token →
      parser.dispatch Pp Dp F Vp p mem token index position
        = some ((none, p1, mem1), index1, position1) →
      parser.target Pp Dp p token position = some ptr →
      p.heap[ptr]? = some a →
      parser.decoded_value Pp Dp Vp p token index a = some val →
      parser.Trace Pp Dp F Vp p0 mem0
        (log ++ [⟨index, index1, parser.classify Pp token, ptr, a.m_bind.bind, val⟩])
        p1 mem1 (index1 + 1) position1

/-- The store after the writes of a log, in order. -/
def bound.replay (log : List bound) (mem : Store) : Store :=
  log.foldl (fun m b => m.write b.addr b.val) mem

/-- The engine after the records of a log have been marked provided. -/
def bound.marked (log : List bound) (p : parser) : parser :=
  log.foldl (fun q b => q.set_provided b.ptr) p

/-- The number of entries of a log that went through the positional path. -/
def bound.positionals (log : List bound) : Nat :=
  (log.filter (fun b => decide (b.path = .positional))).length

/-! ## Causes of failure -/

/-- The failures of a dispatch that do not come from a type check: an option name that is not
registered, an inline value of a non-boolean long option that does not decode, a non-boolean
short option at the last index, a positional token beyond the registered positionals, and a
positional token that does not decode. -/
def parser.failure_cause (Pp : prefix_policy) (Dp : delim_policy) (Vp : value_decoder)
    (p : parser) (token : String) (index position : Nat) (error : String) : Prop :=
  (parser.classify Pp token = .long_opt
      ∧ map_find p.m_options (parser.long_opt_split Dp token).1 = none
      ∧ error = "unknown option: " ++ (parser.long_opt_split Dp token).1)
  ∨ (parser.classify Pp token = .short_opt
      ∧ map_find p.m_options token = none
      ∧ error = "unknown option: " ++ token)
  ∨ (parser.classify Pp token = .long_opt
      ∧ ∃ it a e, map_find p.m_options (parser.long_opt_split Dp token).1 = some it
        ∧ p.heap[it]? = some a ∧ a.m_type ≠ .bool
        ∧ Vp (parser.long_opt_split Dp token).2 a.m_type = some (.error e)
        ∧ error = token ++ ": " ++ e)
  ∨ (parser.classify Pp token = .short_opt
      ∧ ∃ it a, map_find p.m_options token = some it
        ∧ p.heap[it]? = some a ∧ a.m_type ≠ .bool
        ∧ index = p.m_argv.length - 1
        ∧ error = token ++ ": missing value")
  ∨ (parser.classify Pp token = .positional
      ∧ p.m_positionals.length ≤ position
      ∧ error = "unexpected positional argument #" ++ Nat.repr position)
  ∨ (parser.classify Pp token = .positional
      ∧ ∃ ptr a, p.m_positionals[position]? = some ptr
        ∧ p.heap[ptr]? = some a
        ∧ Vp token a.m_type = some (.error error))

/-! ## Test registrations: walks -/

/-- An engine of `[prog, a, -v, b, c]`-like streams with two positionals, `src` (a path at
address 1) and `dst` (a path at address 2), and the flag `--verbose` or `-v` (a bool at
address 0). -/
def test_pair_engine (argv : List String) : parser :=
  registered (do
    let (p, _) ← (parser.new argv).positional "src" .path 1
    let (p, _) ← p.positional "dst" .path 2
    let (p, _) ← parser.option default_prefix_policy p ⟨"--verbose", "-v"⟩ .bool 0
    pure p)

/-- The record that `test_pair_engine` creates for `src`. -/
def test_src_record : argument :=
  { m_type := .path, m_names := ["src"], m_bind := ⟨.path, 1, "src"⟩ }

/-- The record that `test_pair_engine` creates for `dst`. -/
def test_dst_record : argument :=
  { m_type := .path, m_names := ["dst"], m_bind := ⟨.path, 2, "dst"⟩ }

/-- The record that `test_pair_engine` creates for `--verbose`. -/
def test_verbose_record : argument :=
  { m_type := .bool, m_names := ["--verbose", "-v"], m_bind := ⟨.bool, 0, "--verbose"⟩ }

/-- An engine with two `int64_t` options, `--a` and `--b`, both bound to the same variable
(address 0), as after `int64_t x;` and two calls of `option`, one per name, with `x`. -/
def test_alias_engine (argv : List String) : parser :=
  registered (do
    let (p, _) ← parser.option default_prefix_policy (parser.new argv) ⟨"--a", ""⟩ .int64_t 0
    let (p, _) ← parser.option default_prefix_policy p ⟨"--b", ""⟩ .int64_t 0
    pure p)

/-- The record that `test_number_engine` creates for the option `--num`. -/
def test_num_record : argument :=
  { m_type := .int64_t, m_names := ["--num", "-n"], m_bind := ⟨.int64_t, 0, "--num"⟩ }

/-- A store of integers, all zero. -/
def test_zero_store : Store := fun _ => .int64 0

/-! ## Test registrations: other target types -/

/-- An engine with a positional `count` bound to an `int` variable (address 1) and an option
`--level` or `-l` bound to an `int` variable (address 0): both calls compile, because `int`
satisfies `detail::value_alternative` through the `std::integral` specialisation of
`value_type`.  `"i"` is `typeid(int).name()`. -/
def test_int_engine (argv : List String) : parser :=
  registered (do
    let (p, _) ← (parser.new argv).positional "count" (.integral true "i") 1
    let (p, _) ← parser.option default_prefix_policy p ⟨"--level", "-l"⟩ (.integral true "i") 0
    pure p)

/-- An engine with a positional `ratio` bound to a `float` variable (address 1);
`"f"` is `typeid(float).name()`. -/
def test_float_engine (argv : List String) : parser :=
  registered (do
    let (p, _) ← (parser.new argv).positional "ratio" (.floating_point "f") 1
    pure p)

/-! # Theorems -/

/-! ## The digit loop of `from_chars` -/

theorem decimal_from_cons (acc : Nat) (c : Char) (ds : List Char) :
    decimal_from acc (c :: ds) = decimal_from (acc * 10 + digit_val c) ds := rfl

theorem decimal_from_ge (ds : List Char) (acc : Nat) : acc ≤ decimal_from acc ds := by
  induction ds generalizing acc with
  | nil => simp [decimal_from]
  | cons c cs ih =>
    have h := ih (acc * 10 + digit_val c)
    rw [decimal_from_cons]
    omega

theorem from_chars_digits_count (cs : List Char) (acc : Nat) (valid : Bool) (n : Nat) :
    (from_chars_digits cs acc valid n).2.2 = n + (cs.takeWhile is_digit).length := by
  induction cs generalizing acc valid n with
  | nil => simp [from_chars_digits]
  | cons c cs ih =>
    by_cases hc : is_digit c = true
    · rw [from_chars_digits]
      simp only [hc, if_true, List.takeWhile_cons, List.length_cons]
      split <;> rw [ih] <;> omega
    · simp [from_chars_digits, hc, List.takeWhile_cons]

theorem from_chars_digits_invalid (cs : List Char) (acc n : Nat) :
    (from_chars_digits cs acc false n).2.1 = false := by
  induction cs generalizing n with
  | nil => simp [from_chars_digits]
  | cons c cs ih =>
    by_cases hc : is_digit c = true
    · simp [from_chars_digits, hc, ih]
    · simp [from_chars_digits, hc]

theorem from_chars_digits_valid (cs : List Char) (acc n : Nat) (hacc : acc < 2^64) :
    (from_chars_digits cs acc true n).2.1
      = decide (decimal_from acc (cs.takeWhile is_digit) < 2^64) := by
  induction cs generalizing acc n with
  | nil => simp [from_chars_digits, decimal_from]; omega
  | cons c cs ih =>
    by_cases hc : is_digit c = true
    · by_cases hv : acc * 10 + digit_val c < 2^64
      · rw [from_chars_digits]
        simp only [hc, hv, if_true, Bool.true_and, decide_True, List.takeWhile_cons,
          decimal_from_cons]
        exact ih _ _ hv
      · have hge := decimal_from_ge (cs.takeWhile is_digit) (acc * 10 + digit_val c)
        rw [from_chars_digits]
        simp only [hc, hv, if_true, Bool.true_and, decide_False, List.takeWhile_cons,
          decimal_from_cons, from_chars_digits_invalid]
        simp only [Bool.false_eq_true, if_false, from_chars_digits_invalid]
        symm
        rw [decide_eq_false_iff_not]
        omega
    · simp [from_chars_digits, hc, List.takeWhile_cons, decimal_from]; omega

theorem from_chars_digits_value (cs : List Char) (acc n : Nat)
    (h : decimal_from acc (cs.takeWhile is_digit) < 2^64) :
    (from_chars_digits cs acc true n).1 = decimal_from acc (cs.takeWhile is_digit) := by
  induction cs generalizing acc n with
  | nil => simp [from_chars_digits, decimal_from]
  | cons c cs ih =>
    by_cases hc : is_digit c = true
    · simp only [hc, List.takeWhile_cons, if_true, decimal_from_cons] at h ⊢
      have hge := decimal_from_ge (cs.takeWhile is_digit) (acc * 10 + digit_val c)
      have hv : acc * 10 + digit_val c < 2^64 := by omega
      rw [from_chars_digits]
      simp only [hc, hv, if_true, Bool.true_and, decide_True]
      exact ih _ _ h
    · simp [from_chars_digits, hc, List.takeWhile_cons, decimal_from]

/-- What the digit loop returns, in terms of the digit run it consumes. -/
theorem from_chars_digits_run (cs : List Char) :
    ∃ acc, from_chars_digits cs 0 true 0
        = (acc, decide (decimal_from 0 (cs.takeWhile is_digit) < 2^64),
            (cs.takeWhile is_digit).length)
      ∧ (decimal_from 0 (cs.takeWhile is_digit) < 2^64 →
          acc = decimal_from 0 (cs.takeWhile is_digit)) := by
  have h1 := from_chars_digits_count cs 0 true 0
  have h2 := from_chars_digits_valid cs 0 0 (by omega)
  have h3 := from_chars_digits_value cs 0 0
  rcases hfd : from_chars_digits cs 0 true 0 with ⟨acc, valid, n⟩
  rw [hfd] at h1 h2 h3
  simp only [Nat.zero_add] at h1 h2 h3
  exact ⟨acc, by rw [h1, h2], h3⟩

/-! ## Integer decoding against the reference definition -/

theorem takeWhile_eq_self_iff_length (cs : List Char) :
    cs.takeWhile is_digit = cs ↔ (cs.takeWhile is_digit).length = cs.length := by
  constructor
  · intro h; rw [h]
  · intro h
    have hp : (cs.takeWhile is_digit).IsPrefix cs := List.takeWhile_prefix _
    exact hp.eq_of_length h

theorem not_is_digit_minus : is_digit '-' = false := by decide

theorem takeWhile_digit_head (cs : List Char) : (cs.takeWhile is_digit).head? ≠ some '-' := by
  cases cs with
  | nil => simp
  | cons c cs =>
    by_cases hc : is_digit c = true
    · simp only [List.takeWhile_cons, hc, if_true, List.head?_cons, ne_eq, Option.some.injEq]
      intro h; rw [h] at hc; exact absurd hc (by decide)
    · simp [List.takeWhile_cons, hc]

theorem spec_denoted_of_head (ds : List Char) (h : ds.head? ≠ some '-') :
    spec_denoted ds = (decimal_from 0 ds : Int) := by
  unfold spec_denoted
  split
  · simp at h
  · rfl

theorem spec_longest_numeral_of_head (b : Bool) (cs : List Char) (h : cs.head? ≠ some '-') :
    spec_longest_numeral b cs = cs.takeWhile is_digit := by
  unfold spec_longest_numeral
  split
  · simp at h
  · rfl

theorem spec_longest_numeral_unsigned (cs : List Char) :
    spec_longest_numeral false cs = cs.takeWhile is_digit := by
  by_cases h : cs.head? = some '-'
  · cases cs with
    | nil => simp at h
    | cons c cs =>
      simp only [List.head?_cons, Option.some.injEq] at h
      subst h
      simp [spec_longest_numeral, List.takeWhile_cons, not_is_digit_minus]
  · exact spec_longest_numeral_of_head _ _ h

theorem parse_as_uint64_refines (sv : String) :
    default_value_parser_parse_as_uint64 sv = spec_decode_uint64 sv := by
  obtain ⟨acc, hrun, hval⟩ := from_chars_digits_run sv.data
  have hhead := takeWhile_digit_head sv.data
  have hden := spec_denoted_of_head _ hhead
  have hlen := takeWhile_eq_self_iff_length sv.data
  have hsl : sv.length = sv.data.length := rfl
  unfold default_value_parser_parse_as_uint64 from_chars_uint64 spec_decode_uint64
  simp only [hrun, spec_longest_numeral_unsigned, hden, hsl]
  by_cases hnil : sv.data.takeWhile is_digit = []
  · simp [hnil]
  · have hpos : (sv.data.takeWhile is_digit).length ≠ 0 := by
      simpa [List.length_eq_zero] using hnil
    rw [if_neg hpos, if_neg hnil]
    by_cases hr : decimal_from 0 (sv.data.takeWhile is_digit) < 2^64
    · have hr2 : ¬ ((decimal_from 0 (sv.data.takeWhile is_digit) : Int) < 0
          ∨ (2:Int)^64 - 1 < (decimal_from 0 (sv.data.takeWhile is_digit) : Int)) := by
        omega
      rw [if_neg hr2, decide_eq_true hr, hval hr]
      simp only [Bool.not_true, Bool.false_eq_true, if_false, reduceCtorEq, Int.toNat_ofNat]
      by_cases hl : (sv.data.takeWhile is_digit).length = sv.data.length
      · rw [if_neg (not_not.mpr hl), if_neg (not_not.mpr (hlen.mpr hl))]
      · rw [if_pos hl, if_pos (fun h => hl (hlen.mp h))]
    · have hr2 : ((decimal_from 0 (sv.data.takeWhile is_digit) : Int) < 0
          ∨ (2:Int)^64 - 1 < (decimal_from 0 (sv.data.takeWhile is_digit) : Int)) := by
        omega
      rw [if_pos hr2, decide_eq_false hr]
      simp

theorem parse_as_int64_refines (sv : String) :
    default_value_parser_parse_as_int64 sv = spec_decode_int64 sv := by
  have hsl : sv.length = sv.data.length := rfl
  by_cases hneg : sv.data.head? = some '-'
  · -- a leading minus sign
    obtain ⟨rest, hdata⟩ : ∃ rest, sv.data = '-' :: rest := by
      cases hd : sv.data with
      | nil => rw [hd] at hneg; simp at hneg
      | cons c cs =>
        rw [hd] at hneg
        simp only [List.head?_cons, Option.some.injEq] at hneg
        exact ⟨cs, by rw [hneg]⟩
    obtain ⟨acc, hrun, hval⟩ := from_chars_digits_run rest
    have hlen := takeWhile_eq_self_iff_length rest
    unfold default_value_parser_parse_as_int64 from_chars_int64 spec_decode_int64
    simp only [hdata, hsl, List.head?_cons, beq_self_eq_true, if_true, List.tail_cons, hrun,
      spec_longest_numeral, Bool.true_and, List.length_cons]
    by_cases hnil : rest.takeWhile is_digit = []
    · simp [hnil]
    · have hpos : (rest.takeWhile is_digit).length ≠ 0 := by
        simpa [List.length_eq_zero] using hnil
      have hne : (!(rest.takeWhile is_digit).isEmpty) = true := by
        simpa [List.isEmpty_iff] using hnil
      rw [if_neg hpos]
      simp only [hne, if_true, reduceCtorEq, if_false, spec_denoted]
      by_cases hr : decimal_from 0 (rest.takeWhile is_digit) < 2^64
      · rw [decide_eq_true hr, hval hr]
        simp only [Bool.not_true, Bool.false_eq_true, if_false]
        by_cases hr1 : decimal_from 0 (rest.takeWhile is_digit) ≤ 2^63
        · have hr2 : ¬ (-(decimal_from 0 (rest.takeWhile is_digit) : Int) < -(2:Int)^63
              ∨ (2:Int)^63 - 1 < -(decimal_from 0 (rest.takeWhile is_digit) : Int)) := by
            omega
          rw [if_pos hr1, if_neg hr2]
          simp only [reduceCtorEq, if_false]
          by_cases hl : (rest.takeWhile is_digit).length = rest.length
          · have h1 : 1 + (rest.takeWhile is_digit).length = rest.length + 1 := by omega
            have h2 : ('-' :: rest.takeWhile is_digit) = '-' :: rest := by rw [hlen.mpr hl]
            rw [if_neg (not_not.mpr h1), if_neg (not_not.mpr h2)]
          · have h1 : ¬ (1 + (rest.takeWhile is_digit).length = rest.length + 1) := by omega
            have h2 : ¬ (('-' :: rest.takeWhile is_digit) = '-' :: rest) := by
              intro h; exact hl (hlen.mp (List.cons.inj h).2)
            rw [if_pos h1, if_pos h2]
        · have hr2 : (-(decimal_from 0 (rest.takeWhile is_digit) : Int) < -(2:Int)^63
              ∨ (2:Int)^63 - 1 < -(decimal_from 0 (rest.takeWhile is_digit) : Int)) := by
            omega
          rw [if_neg hr1, if_pos hr2]
          simp
      · have hr2 : (-(decimal_from 0 (rest.takeWhile is_digit) : Int) < -(2:Int)^63
            ∨ (2:Int)^63 - 1 < -(decimal_from 0 (rest.takeWhile is_digit) : Int)) := by
          omega
        rw [decide_eq_false hr, if_pos hr2]
        simp
  · -- no sign
    obtain ⟨acc, hrun, hval⟩ := from_chars_digits_run sv.data
    have hhead := takeWhile_digit_head sv.data
    have hden := spec_denoted_of_head _ hhead
    have hlen := takeWhile_eq_self_iff_length sv.data
    have hb : (sv.data.head? == some '-') = false := by
      simpa using hneg
    unfold default_value_parser_parse_as_int64 from_chars_int64 spec_decode_int64
    simp only [hb, hrun, spec_longest_numeral_of_head _ _ hneg, hden, hsl, Bool.false_eq_true,
      if_false, Nat.zero_add]
    by_cases hnil : sv.data.takeWhile is_digit = []
    · simp [hnil]
    · have hpos : (sv.data.takeWhile is_digit).length ≠ 0 := by
        simpa [List.length_eq_zero] using hnil
      rw [if_neg hpos, if_neg hnil]
      by_cases hr : decimal_from 0 (sv.data.takeWhile is_digit) < 2^64
      · rw [decide_eq_true hr, hval hr]
        simp only [Bool.not_true, Bool.false_eq_true, if_false]
        by_cases hr1 : decimal_from 0 (sv.data.takeWhile is_digit) < 2^63
        · have hr2 : ¬ ((decimal_from 0 (sv.data.takeWhile is_digit) : Int) < -(2:Int)^63
              ∨ (2:Int)^63 - 1 < (decimal_from 0 (sv.data.takeWhile is_digit) : Int)) := by
            omega
          rw [if_pos hr1, if_neg hr2]
          simp only [reduceCtorEq, if_false]
          by_cases hl : (sv.data.takeWhile is_digit).length = sv.data.length
          · rw [if_neg (not_not.mpr hl), if_neg (not_not.mpr (hlen.mpr hl))]
          · rw [if_pos hl, if_pos (fun h => hl (hlen.mp h))]
        · have hr2 : ((decimal_from 0 (sv.data.takeWhile is_digit) : Int) < -(2:Int)^63
              ∨ (2:Int)^63 - 1 < (decimal_from 0 (sv.data.takeWhile is_digit) : Int)) := by
            omega
          rw [if_neg hr1, if_pos hr2]
          simp
      · have hr2 : ((decimal_from 0 (sv.data.takeWhile is_digit) : Int) < -(2:Int)^63
            ∨ (2:Int)^63 - 1 < (decimal_from 0 (sv.data.takeWhile is_digit) : Int)) := by
          omega
        rw [decide_eq_false hr, if_pos hr2]
        simp

/-- C8: integer decoding equals the whole-token reference definition.  `parse_as<int64_t>` and
`parse_as<uint64_t>` agree on every token with the reference decoders, which take the longest
prefix of the shape "optional minus sign, one or more digits" (no sign for `uint64`) and
report, in this order, an empty prefix, a denoted integer out of range, and a prefix that is
not the whole token; the three error texts are pairwise different; and a successful decode
means that the whole token is such a numeral, that the result is the integer it denotes, and
that it lies in the range of the type. -/
theorem integer_decoding_refines_reference :
    (∀ sv, default_value_parser_parse_as_int64 sv = spec_decode_int64 sv)
    ∧ (∀ sv, default_value_parser_parse_as_uint64 sv = spec_decode_uint64 sv)
    ∧ ("bad value (int64)" ≠ "bad value (int64 out of range)"
        ∧ "bad value (int64)" ≠ "bad value (trailing characters in int64)"
        ∧ "bad value (int64 out of range)" ≠ "bad value (trailing characters in int64)")
    ∧ ("bad value (uint64)" ≠ "bad value (uint64 out of range)"
        ∧ "bad value (uint64)" ≠ "bad value (trailing characters in uint64)"
        ∧ "bad value (uint64 out of range)" ≠ "bad value (trailing characters in uint64)")
    ∧ (∀ sv v, default_value_parser_parse_as_int64 sv = .ok v →
        spec_longest_numeral true sv.data = sv.data ∧ sv.data ≠ []
        ∧ v = spec_denoted sv.data ∧ -(2:Int)^63 ≤ v ∧ v ≤ (2:Int)^63 - 1)
    ∧ (∀ sv v, default_value_parser_parse_as_uint64 sv = .ok v →
        spec_longest_numeral false sv.data = sv.data ∧ sv.data ≠ []
        ∧ (v : Int) = spec_denoted sv.data ∧ v ≤ 2^64 - 1) := by
  refine ⟨parse_as_int64_refines, parse_as_uint64_refines, by decide, by decide, ?_, ?_⟩
  · intro sv v h
    rw [parse_as_int64_refines] at h
    unfold spec_decode_int64 at h
    simp only [] at h
    split at h
    · simp at h
    · rename_i hne
      split at h
      · simp at h
      · rename_i hrange
        split at h
        · simp at h
        · rename_i heq
          simp only [ne_eq, not_not] at heq
          simp only [Except.ok.injEq] at h
          rw [heq] at hne h hrange
          refine ⟨heq, hne, h.symm, ?_, ?_⟩ <;> omega
  · intro sv v h
    rw [parse_as_uint64_refines] at h
    unfold spec_decode_uint64 at h
    simp only [] at h
    split at h
    · simp at h
    · rename_i hne
      split at h
      · simp at h
      · rename_i hrange
        split at h
        · simp at h
        · rename_i heq
          simp only [ne_eq, not_not] at heq
          simp only [Except.ok.injEq] at h
          rw [heq] at hne h hrange
          refine ⟨heq, hne, ?_, ?_⟩ <;> omega

/-- C8 witness: `-12` decodes to the integer -12 and is a whole-token numeral in range. -/
theorem integer_decoding_refines_reference_witness :
    default_value_parser_parse_as_int64 "-12" = .ok (-12)
    ∧ (spec_longest_numeral true "-12".data = "-12".data ∧ "-12".data ≠ []
        ∧ (-12 : Int) = spec_denoted "-12".data ∧ -(2:Int)^63 ≤ -12 ∧ (-12 : Int) ≤ (2:Int)^63 - 1)
    ∧ default_value_parser_parse_as_uint64 "18446744073709551615" = .ok 18446744073709551615
    ∧ (spec_longest_numeral false "18446744073709551615".data = "18446744073709551615".data
        ∧ "18446744073709551615".data ≠ []
        ∧ ((18446744073709551615 : Nat) : Int) = spec_denoted "18446744073709551615".data
        ∧ 18446744073709551615 ≤ 2^64 - 1) :=
  ⟨by decide, integer_decoding_refines_reference.2.2.2.2.1 "-12" (-12) (by decide),
    by decide,
    integer_decoding_refines_reference.2.2.2.2.2 "18446744073709551615" 18446744073709551615
      (by decide)⟩

/-! ## Decimal rendering and the round trip -/

theorem decimal_from_append (acc : Nat) (l : List Char) (c : Char) :
    decimal_from acc (l ++ [c]) = decimal_from acc l * 10 + digit_val c := by
  simp [decimal_from, List.foldl_append]

theorem digitChar_is_digit (k : Nat) (h : k < 10) :
    is_digit (Nat.digitChar k) = true ∧ digit_val (Nat.digitChar k) = k := by
  interval_cases k <;> decide

/-- The digits that `Nat.toDigitsCore` puts in front of its accumulator. -/
theorem toDigitsCore_decimal (fuel : Nat) : ∀ (n : Nat) (ds : List Char), n < fuel →
    ∃ L, Nat.toDigitsCore 10 fuel n ds = L ++ ds ∧ L ≠ []
      ∧ (∀ c ∈ L, is_digit c = true) ∧ decimal_from 0 L = n := by
  induction fuel with
  | zero => intro n ds h; omega
  | succ fuel ih =>
    intro n ds h
    have hd := digitChar_is_digit (n % 10) (Nat.mod_lt _ (by omega))
    by_cases h0 : n / 10 = 0
    · refine ⟨[Nat.digitChar (n % 10)], ?_, by simp, ?_, ?_⟩
      · simp [Nat.toDigitsCore, h0]
      · intro c hc
        simp only [List.mem_singleton] at hc
        rw [hc]; exact hd.1
      · simp only [decimal_from, List.foldl_cons, List.foldl_nil, hd.2]
        omega
    · obtain ⟨L, hL, _, hall, hval⟩ :=
        ih (n / 10) (Nat.digitChar (n % 10) :: ds) (by omega)
      refine ⟨L ++ [Nat.digitChar (n % 10)], ?_, by simp, ?_, ?_⟩
      · simp [Nat.toDigitsCore, h0, hL]
      · intro c hc
        rcases List.mem_append.mp hc with hc | hc
        · exact hall c hc
        · simp only [List.mem_singleton] at hc
          rw [hc]; exact hd.1
      · rw [decimal_from_append, hval, hd.2]
        omega

/-- The decimal numeral of `n` is a non-empty run of digits that denotes `n`. -/
theorem repr_decimal (n : Nat) :
    (Nat.repr n).data ≠ [] ∧ (∀ c ∈ (Nat.repr n).data, is_digit c = true)
      ∧ decimal_from 0 (Nat.repr n).data = n := by
  obtain ⟨L, hL, hne, hall, hval⟩ := toDigitsCore_decimal (n + 1) n [] (by omega)
  have : (Nat.repr n).data = L := by
    simp [Nat.repr, Nat.toDigits, hL, List.asString]
  rw [this]
  exact ⟨hne, hall, hval⟩

theorem takeWhile_all_digits (L : List Char) (h : ∀ c ∈ L, is_digit c = true) :
    L.takeWhile is_digit = L := by
  induction L with
  | nil => rfl
  | cons c cs ih =>
    have hc := h c (List.mem_cons_self _ _)
    simp only [List.takeWhile_cons, hc, if_true]
    rw [ih (fun x hx => h x (List.mem_cons_of_mem _ hx))]

theorem head_of_digits (L : List Char) (h : ∀ c ∈ L, is_digit c = true) :
    L.head? ≠ some '-' := by
  rw [← takeWhile_all_digits L h]
  exact takeWhile_digit_head L

theorem roundtrip_uint64 (n : Nat) (h : n < 2^64) :
    default_value_parser_parse_as_uint64 (std_to_string_uint64 n) = .ok n := by
  obtain ⟨hne, hall, hval⟩ := repr_decimal n
  have htw := takeWhile_all_digits _ hall
  have hden := spec_denoted_of_head _ (head_of_digits _ hall)
  rw [parse_as_uint64_refines]
  unfold spec_decode_uint64 std_to_string_uint64
  simp only [spec_longest_numeral_unsigned, htw, hden, hval]
  have hr2 : ¬ ((n : Int) < 0 ∨ (2:Int)^64 - 1 < (n : Int)) := by omega
  rw [if_neg hne, if_neg hr2]
  simp

theorem roundtrip_int64 (i : Int) (h : -(2:Int)^63 ≤ i ∧ i < (2:Int)^63) :
    default_value_parser_parse_as_int64 (std_to_string_int64 i) = .ok i := by
  obtain ⟨hne, hall, hval⟩ := repr_decimal i.natAbs
  have htw := takeWhile_all_digits _ hall
  have hhead := head_of_digits _ hall
  rw [parse_as_int64_refines]
  unfold spec_decode_int64 std_to_string_int64
  by_cases hi : i < 0
  · have hdata : ("-" ++ Nat.repr i.natAbs).data = '-' :: (Nat.repr i.natAbs).data := by
      rw [String.data_append]; rfl
    have hne2 : (!((Nat.repr i.natAbs).data).isEmpty) = true := by
      simpa [List.isEmpty_iff] using hne
    simp only [hi, if_true, hdata, spec_longest_numeral, htw, Bool.true_and, hne2, spec_denoted,
      hval, reduceCtorEq, if_false, ne_eq, not_true_eq_false]
    have hr2 : ¬ (-(i.natAbs : Int) < -(2:Int)^63 ∨ (2:Int)^63 - 1 < -(i.natAbs : Int)) := by
      omega
    rw [if_neg hr2]
    congr 1
    omega
  · have hden := spec_denoted_of_head _ hhead
    simp only [hi, if_false, spec_longest_numeral_of_head _ _ hhead, htw, hden, hval]
    have hr2 : ¬ ((i.natAbs : Int) < -(2:Int)^63 ∨ (2:Int)^63 - 1 < (i.natAbs : Int)) := by
      omega
    rw [if_neg hne, if_neg hr2]
    simp only [ne_eq, not_true_eq_false, if_false]
    congr 1
    omega

theorem roundtrip_all (F : double_lib) (v : value) (hr : v.in_range) (hd : v.type ≠ .double) :
    default_value_parser_parse F (detail.to_string F v) v.type = some (.ok v) := by
  cases v with
  | bool b => cases b <;> rfl
  | int64 i =>
    have := roundtrip_int64 i hr
    simp [default_value_parser_parse, detail.to_string, value.type, this]
  | uint64 n =>
    have := roundtrip_uint64 n hr
    simp [default_value_parser_parse, detail.to_string, value.type, this]
  | double d => exact absurd rfl hd
  | string s => simp [default_value_parser_parse, detail.to_string, value.type]
  | path p => simp [default_value_parser_parse, detail.to_string, value.type]

/-- C9: round trip between render and decode.  For every value that is not a `double` (with
its integer inside the range of its type), decoding its rendered text against its own type
succeeds and returns the value; hence any value decoded from that text renders to the same
text again. -/
theorem render_decode_round_trip (F : double_lib) (v : value) (hr : v.in_range)
    (hd : v.type ≠ .double) :
    default_value_parser_parse F (detail.to_string F v) v.type = some (.ok v)
    ∧ ∀ w, default_value_parser_parse F (detail.to_string F v) v.type = some (.ok w) →
        detail.to_string F w = detail.to_string F v := by
  have h := roundtrip_all F v hr hd
  refine ⟨h, ?_⟩
  intro w hw
  rw [h] at hw
  simp only [Option.some.injEq, Except.ok.injEq] at hw
  rw [hw]

/-- C9 witness: the `int64` value -42 renders to `-42`, which decodes back to -42. -/
theorem render_decode_round_trip_witness :
    (value.int64 (-42)).in_range ∧ (value.int64 (-42)).type ≠ .double
    ∧ (default_value_parser_parse no_double (detail.to_string no_double (.int64 (-42)))
          (value.int64 (-42)).type = some (.ok (.int64 (-42)))
      ∧ ∀ w, default_value_parser_parse no_double (detail.to_string no_double (.int64 (-42)))
          (value.int64 (-42)).type = some (.ok w) →
        detail.to_string no_double w = detail.to_string no_double (.int64 (-42))) :=
  ⟨by decide, by decide,
    render_decode_round_trip no_double (.int64 (-42)) (by decide) (by decide)⟩

/-! ## Type labels -/

/-- C10: the two lookups disagree on the label of `bool`.  `type_name(const value&)` goes
through `value_type<bool>::name` and returns `bool`, while `type_name(const type_info&)`
returns `boolean`; on the other five kinds both return the same text. -/
theorem type_name_labels_disagree_on_bool :
    (∀ b, detail.type_name_value (.bool b) = "bool")
    ∧ detail.type_name .bool = "boolean"
    ∧ (∀ b, detail.type_name_value (.bool b) ≠ detail.type_name (value.bool b).type)
    ∧ (∀ i, detail.type_name_value (.int64 i) = "int64")
    ∧ detail.type_name .int64_t = "int64"
    ∧ (∀ n, detail.type_name_value (.uint64 n) = "uint64")
    ∧ detail.type_name .uint64_t = "uint64"
    ∧ (∀ d, detail.type_name_value (.double d) = "double")
    ∧ detail.type_name .double = "double"
    ∧ (∀ p, detail.type_name_value (.path p) = "path")
    ∧ detail.type_name .path = "path"
    ∧ (∀ s, detail.type_name_value (.string s) = "string")
    ∧ detail.type_name .string = "string" := by
  refine ⟨fun _ => rfl, rfl, fun b => by cases b <;> decide, fun _ => rfl, rfl, fun _ => rfl, rfl,
    fun _ => rfl, rfl, fun _ => rfl, rfl, fun _ => rfl, rfl⟩

/-! ## Engine updates -/

@[simp] theorem set_provided_m_argv (p : parser) (it : Nat) :
    (p.set_provided it).m_argv = p.m_argv := rfl

@[simp] theorem set_provided_m_positionals (p : parser) (it : Nat) :
    (p.set_provided it).m_positionals = p.m_positionals := rfl

@[simp] theorem set_provided_m_options (p : parser) (it : Nat) :
    (p.set_provided it).m_options = p.m_options := rfl

@[simp] theorem set_provided_heap_length (p : parser) (it : Nat) :
    (p.set_provided it).heap.length = p.heap.length := by
  simp [parser.set_provided, parser.update]

theorem set_provided_heap_eq (p : parser) (it : Nat) :
    (p.set_provided it).heap[it]?
      = (p.heap[it]?).map (fun a => { a with m_provided := true }) := by
  simp [parser.set_provided, parser.update, List.getElem?_modify]

theorem set_provided_heap_ne (p : parser) (it j : Nat) (h : it ≠ j) :
    (p.set_provided it).heap[j]? = p.heap[j]? := by
  simp [parser.set_provided, parser.update, List.getElem?_modify, h]

theorem set_provided_wf (p : parser) (it : Nat) (h : p.wf) : (p.set_provided it).wf := by
  obtain ⟨h1, h2, h3, h4, h5⟩ := h
  refine ⟨?_, ?_, ?_, h4, h5⟩
  · intro a ha
    obtain ⟨j, hj⟩ := List.mem_iff_getElem?.mp ha
    by_cases hij : it = j
    · subst hij
      rw [set_provided_heap_eq] at hj
      cases hb : p.heap[it]? with
      | none => rw [hb] at hj; simp at hj
      | some b =>
        rw [hb] at hj
        simp only [Option.map_some', Option.some.injEq] at hj
        have := h1 b (List.mem_iff_getElem?.mpr ⟨it, hb⟩)
        rw [← hj]
        exact this
    · rw [set_provided_heap_ne _ _ _ hij] at hj
      exact h1 a (List.mem_iff_getElem?.mpr ⟨j, hj⟩)
  · intro ptr hptr
    rw [set_provided_heap_length]
    exact h2 ptr hptr
  · intro e he
    rw [set_provided_heap_length]
    exact h3 e he

theorem map_find_mem : ∀ (m : List (String × Nat)) (key : String) (it : Nat),
    map_find m key = some it → (key, it) ∈ m := by
  intro m
  induction m with
  | nil => intro key it h; simp [map_find] at h
  | cons e m ih =>
    intro key it h
    obtain ⟨k, v⟩ := e
    by_cases hk : k = key
    · simp only [map_find, hk, if_true, Option.some.injEq] at h
      simp [hk, h]
    · simp only [map_find, hk, if_false] at h
      exact List.mem_cons_of_mem _ (ih key it h)

theorem map_assign_mem (m : List (String × Nat)) (key : String) (v : Nat) (e : String × Nat)
    (h : e ∈ map_assign m key v) : e.2 = v ∨ e ∈ m := by
  induction m with
  | nil =>
    simp only [map_assign, List.mem_singleton] at h
    left; rw [h]
  | cons x m ih =>
    obtain ⟨k, w⟩ := x
    by_cases hk : k = key
    · simp only [map_assign, hk, if_true, List.mem_cons] at h
      rcases h with h | h
      · left; rw [h]
      · right; exact List.mem_cons_of_mem _ h
    · simp only [map_assign, hk, if_false, List.mem_cons] at h
      rcases h with h | h
      · right; rw [h]; exact List.mem_cons_self _ _
      · rcases ih h with h' | h'
        · left; exact h'
        · right; exact List.mem_cons_of_mem _ h'

theorem wf_name (p : parser) (hwf : p.wf) (ptr : Nat) (a : argument)
    (ha : p.heap[ptr]? = some a) : ∃ n, a.name = some n := by
  have hn := (hwf.1 a (List.getElem?_mem ha)).2
  cases hnm : a.m_names with
  | nil => exact absurd hnm hn
  | cons n ns => exact ⟨n, by simp [argument.name, hnm]⟩

/-! ## Registration establishes well-formedness -/

theorem new_wf (argv : List String) : (parser.new argv).wf ∧ (parser.new argv).fresh := by
  simp [parser.new, parser.wf, parser.fresh]

theorem update_required_wf (p : parser) (ptr : Nat) (h : p.wf) : (p.required ptr).wf := by
  obtain ⟨h1, h2, h3, h4, h5⟩ := h
  have hlen : (p.required ptr).heap.length = p.heap.length := by
    simp [parser.required, parser.update]
  refine ⟨?_, ?_, ?_, h4, h5⟩
  · intro a ha
    obtain ⟨j, hj⟩ := List.mem_iff_getElem?.mp ha
    simp only [parser.required, parser.update, List.getElem?_modify] at hj
    cases hb : p.heap[j]? with
    | none => rw [hb] at hj; simp at hj
    | some b =>
      rw [hb] at hj
      have hbwf := h1 b (List.getElem?_mem hb)
      by_cases hpj : ptr = j
      · simp [hpj] at hj
        rw [← hj]; exact hbwf
      · simp [hpj] at hj
        rw [← hj]; exact hbwf
  · intro q hq; rw [hlen]; exact h2 q hq
  · intro e he; rw [hlen]; exact h3 e he

theorem update_required_fresh (p : parser) (ptr : Nat) (h : p.fresh) :
    (p.required ptr).fresh := by
  intro a ha
  obtain ⟨j, hj⟩ := List.mem_iff_getElem?.mp ha
  simp only [parser.required, parser.update, List.getElem?_modify] at hj
  cases hb : p.heap[j]? with
  | none => rw [hb] at hj; simp at hj
  | some b =>
    rw [hb] at hj
    have hbf := h b (List.getElem?_mem hb)
    by_cases hpj : ptr = j
    · simp [hpj] at hj
      rw [← hj]; exact hbf
    · simp [hpj] at hj
      rw [← hj]; exact hbf

theorem positional_wf (p : parser) (name : String) (T : type_info) (addr : Nat)
    (p1 : parser) (ptr : Nat) (hwf : p.wf)
    (h : p.positional name T addr = .ok (p1, ptr)) :
    p1.wf ∧ (p.fresh → p1.fresh) ∧ p1.m_argv = p.m_argv := by
  unfold parser.positional detail.require at h
  by_cases hn : (!name.data.isEmpty) = true
  · simp only [hn, if_true, Bind.bind, Except.bind, pure, Except.pure, Except.ok.injEq,
      Prod.mk.injEq] at h
    obtain ⟨hp1, _⟩ := h
    subst hp1
    obtain ⟨h1, h2, h3, h4, h5⟩ := hwf
    refine ⟨⟨?_, ?_, ?_, ?_, ?_⟩, ?_, rfl⟩
    · intro a ha
      simp only [List.mem_append, List.mem_singleton] at ha
      rcases ha with ha | ha
      · exact h1 a ha
      · rw [ha]; exact ⟨rfl, by simp⟩
    · intro q hq
      simp only [List.mem_append, List.mem_singleton, List.length_append,
        List.length_singleton] at hq ⊢
      rcases hq with hq | hq
      · have := h2 q hq; omega
      · omega
    · intro e he
      simp only [List.length_append, List.length_singleton]
      have := h3 e he; omega
    · simp only
      rw [List.nodup_append]
      refine ⟨h4, by simp, ?_⟩
      intro a ha hb
      simp only [List.mem_singleton] at hb
      have := h2 a ha
      omega
    · intro e he hmem
      simp only [List.mem_append, List.mem_singleton] at hmem
      rcases hmem with hmem | hmem
      · exact h5 e he hmem
      · have := h3 e he
        omega
    · intro hf a ha
      simp only [List.mem_append, List.mem_singleton] at ha
      rcases ha with ha | ha
      · exact hf a ha
      · rw [ha]
  · simp [hn, Bind.bind, Except.bind] at h

/-- The name list that `option` builds. -/
theorem option_ok_shape (Pp : prefix_policy) (p : parser) (names : detail.option_names)
    (T : type_info) (addr : Nat) (p1 : parser) (ptr : Nat)
    (h : parser.option Pp p names T addr = .ok (p1, ptr)) :
    ∃ ns m, ns ≠ [] ∧ ptr = p.heap.length
      ∧ p1 = { p with
          heap := p.heap ++ [{ m_type := T, m_names := ns, m_bind := ⟨T, addr, ns.headD ""⟩ }],
          m_options := m }
      ∧ (∀ e ∈ m, e.2 = p.heap.length ∨ e ∈ p.m_options) := by
  unfold parser.option detail.require at h
  by_cases h0 : names.one_defined = true
  · have hone : ¬ (names.long_name.data.isEmpty = true
        ∧ names.short_name.data.isEmpty = true) := by
      intro hc
      simp [detail.option_names.one_defined, hc.1, hc.2] at h0
    by_cases hl : names.long_name.data.isEmpty = true
    · have hs : names.short_name.data.isEmpty = false := by
        cases hs : names.short_name.data.isEmpty with
        | false => rfl
        | true => exact absurd ⟨hl, hs⟩ hone
      by_cases hsp : starts_with names.short_name Pp.short_prefix = true
      · simp only [h0, hl, hs, hsp, if_true, Bind.bind, Except.bind, pure, Except.pure,
          Bool.not_true, Bool.not_false, Bool.false_eq_true, if_false, List.nil_append,
          Except.ok.injEq, Prod.mk.injEq] at h
        refine ⟨[names.short_name], _, by simp, h.2.symm, h.1.symm, ?_⟩
        intro e he
        exact map_assign_mem _ _ _ _ he
      · simp [h0, hl, hs, hsp, Bind.bind, Except.bind, pure, Except.pure] at h
    · have hl' : names.long_name.data.isEmpty = false := by simpa using hl
      by_cases hlp : starts_with names.long_name Pp.long_prefix = true
      · by_cases hs : names.short_name.data.isEmpty = true
        · simp only [h0, hl', hs, hlp, if_true, Bind.bind, Except.bind, pure, Except.pure,
            Bool.not_true, Bool.not_false, Bool.false_eq_true, if_false, List.nil_append,
            Except.ok.injEq, Prod.mk.injEq] at h
          refine ⟨[names.long_name], _, by simp, h.2.symm, h.1.symm, ?_⟩
          intro e he
          exact map_assign_mem _ _ _ _ he
        · have hs' : names.short_name.data.isEmpty = false := by simpa using hs
          by_cases hsp : starts_with names.short_name Pp.short_prefix = true
          · simp only [h0, hl', hs', hlp, hsp, if_true, Bind.bind, Except.bind, pure,
              Except.pure, Bool.not_true, Bool.not_false, Bool.false_eq_true, if_false,
              List.nil_append, Except.ok.injEq, Prod.mk.injEq] at h
            refine ⟨[names.long_name] ++ [names.short_name], _, by simp, h.2.symm, h.1.symm,
              ?_⟩
            intro e he
            rcases map_assign_mem _ _ _ _ he with h' | h'
            · left; exact h'
            · exact map_assign_mem _ _ _ _ h'
          · simp [h0, hl', hs', hlp, hsp, Bind.bind, Except.bind, pure, Except.pure] at h
      · simp [h0, hl', hlp, Bind.bind, Except.bind, pure, Except.pure] at h
  · simp [h0, Bind.bind, Except.bind] at h

theorem option_wf (Pp : prefix_policy) (p : parser) (names : detail.option_names)
    (T : type_info) (addr : Nat) (p1 : parser) (ptr : Nat) (hwf : p.wf)
    (h : parser.option Pp p names T addr = .ok (p1, ptr)) :
    p1.wf ∧ (p.fresh → p1.fresh) ∧ p1.m_argv = p.m_argv := by
  obtain ⟨ns, m, hns, _, hp1, hm⟩ := option_ok_shape Pp p names T addr p1 ptr h
  subst hp1
  obtain ⟨h1, h2, h3, h4, h5⟩ := hwf
  refine ⟨⟨?_, ?_, ?_, h4, ?_⟩, ?_, rfl⟩
  · intro a ha
    simp only [List.mem_append, List.mem_singleton] at ha
    rcases ha with ha | ha
    · exact h1 a ha
    · rw [ha]; exact ⟨rfl, hns⟩
  · intro q hq
    simp only [List.length_append, List.length_singleton]
    have := h2 q hq; omega
  · intro e he
    simp only [List.length_append, List.length_singleton]
    rcases hm e he with h' | h'
    · omega
    · have := h3 e h'; omega
  · intro e he hq
    rcases hm e he with h' | h'
    · have := h2 _ hq; simp only at hq; omega
    · exact h5 e h' hq
  · intro hf a ha
    simp only [List.mem_append, List.mem_singleton] at ha
    rcases ha with ha | ha
    · exact hf a ha
    · rw [ha]

/-! ## The private methods and the dispatch -/

/-- The binder writes exactly when the alternative of the value is the variable's type. -/
theorem binder_call_eq (b : detail.binder) (val : value) (mem : Store) :
    b.call val mem
      = if b.T = val.type then (none, mem.write b.bind val)
        else (some (b.name ++ ": expected " ++ detail.type_name_T b.T ++ ", got "
          ++ detail.type_name_T val.type), mem) := rfl

/-- The common tail of the three private methods: the result of the write-back is returned. -/
theorem bind_tail_ok {α : Type} (b : detail.binder) (val : value) (mem : Store)
    (k : Option String → Store → α) :
    (match b.call val mem with
      | (some error, mem) => k (some error) mem
      | (none, mem) => k none mem)
    = if b.T = val.type then k none (mem.write b.bind val)
      else k (some (b.name ++ ": expected " ++ detail.type_name_T b.T ++ ", got "
          ++ detail.type_name_T val.type)) mem := by
  rw [binder_call_eq]
  by_cases h : b.T = val.type <;> simp [h]

theorem m_parse_long_opt_ok (Dp : delim_policy) (F : double_lib)
    (Vp : value_decoder) (p : parser) (mem : Store) (token : String)
    (p1 : parser) (mem1 : Store)
    (h : parser.m_parse_long_opt Dp F Vp p mem token = some (none, p1, mem1)) :
    ∃ ptr a val, p.heap[ptr]? = some a ∧ p1 = p.set_provided ptr
      ∧ a.m_bind.T = val.type
      ∧ mem1 = mem.write a.m_bind.bind val
      ∧ map_find p.m_options (parser.long_opt_split Dp token).1 = some ptr := by
  unfold parser.m_parse_long_opt at h
  simp only [] at h
  cases hf : map_find p.m_options (parser.long_opt_split Dp token).1 with
  | none => simp [hf] at h
  | some it =>
    cases hh : p.heap[it]? with
    | none => simp [hf, hh] at h
    | some opt0 =>
      simp only [hf, hh] at h
      rw [bind_tail_ok _ _ _ (fun r m => some (r, p.set_provided it, m))] at h
      cases hv : Vp (parser.long_opt_split Dp token).2 opt0.m_type with
      | none => simp [hv] at h
      | some r =>
        cases r with
        | error e =>
          simp only [hv] at h
          by_cases hb : opt0.m_type = .bool
          · by_cases hT : opt0.m_bind.T = (value.bool true).type
            · simp only [hb, hT, if_true, Option.some.injEq, Prod.mk.injEq, true_and] at h
              exact ⟨it, opt0, .bool true, hh, h.1.symm, hT, h.2.symm, rfl⟩
            · simp [hb, hT] at h
          · simp [hb] at h
        | ok val =>
          simp only [hv] at h
          split at h
          · simp at h
          · rw [bind_tail_ok _ _ _ (fun r m => some (r, p.set_provided it, m))] at h
            by_cases hT : opt0.m_bind.T = val.type
            · simp only [hT, if_true, Option.some.injEq, Prod.mk.injEq, true_and] at h
              exact ⟨it, opt0, val, hh, h.1.symm, hT, h.2.symm, rfl⟩
            · simp [hT] at h

theorem m_parse_short_opt_ok (F : double_lib)
    (Vp : value_decoder) (p : parser) (mem : Store) (token : String) (index : Nat)
    (p1 : parser) (mem1 : Store) (index1 : Nat)
    (h : parser.m_parse_short_opt F Vp p mem token index = some ((none, p1, mem1), index1)) :
    ∃ ptr a val, p.heap[ptr]? = some a ∧ p1 = p.set_provided ptr
      ∧ a.m_bind.T = val.type
      ∧ mem1 = mem.write a.m_bind.bind val
      ∧ map_find p.m_options token = some ptr
      ∧ ((a.m_type = .bool ∧ index1 = index)
        ∨ (a.m_type ≠ .bool ∧ index1 = index + 1 ∧ index1 < p.m_argv.length)) := by
  unfold parser.m_parse_short_opt at h
  cases hf : map_find p.m_options token with
  | none => simp [hf] at h
  | some it =>
    cases hh : p.heap[it]? with
    | none => simp [hf, hh] at h
    | some opt0 =>
      simp only [hf, hh] at h
      by_cases hb : opt0.m_type = .bool
      · simp only [hb, if_true] at h
        rw [bind_tail_ok _ _ _ (fun r m => some ((r, p.set_provided it, m), index))] at h
        by_cases hT : opt0.m_bind.T = (value.bool true).type
        · simp only [hT, if_true, Option.some.injEq, Prod.mk.injEq, true_and] at h
          exact ⟨it, opt0, .bool true, hh, h.1.1.symm, hT, h.1.2.symm, rfl,
            Or.inl ⟨hb, h.2.symm⟩⟩
        · simp [hT] at h
      · simp only [hb, if_false, set_provided_m_argv] at h
        by_cases hlast : index = p.m_argv.length - 1
        · simp [hlast] at h
        · simp only [hlast, if_false] at h
          cases hn : p.m_argv[index + 1]? with
          | none => simp [hn] at h
          | some next =>
            have hlt : index + 1 < p.m_argv.length := by
              have := List.getElem?_eq_some_iff.mp hn
              exact this.1
            simp only [hn] at h
            cases hv : Vp next opt0.m_type with
            | none => simp [hv] at h
            | some r =>
              cases r with
              | error e => simp [hv] at h
              | ok val =>
                simp only [hv] at h
                split at h
                · simp at h
                · rw [bind_tail_ok _ _ _
                    (fun r m => some ((r, p.set_provided it, m), index + 1))] at h
                  by_cases hT : opt0.m_bind.T = val.type
                  · simp only [hT, if_true, Option.some.injEq, Prod.mk.injEq, true_and] at h
                    exact ⟨it, opt0, val, hh, h.1.1.symm, hT, h.1.2.symm, rfl,
                      Or.inr ⟨hb, h.2.symm, by rw [← h.2]; exact hlt⟩⟩
                  · simp [hT] at h

theorem m_parse_positional_ok (F : double_lib)
    (Vp : value_decoder) (p : parser) (mem : Store) (token : String) (position : Nat)
    (p1 : parser) (mem1 : Store) (position1 : Nat)
    (h : parser.m_parse_positional F Vp p mem token position
      = some ((none, p1, mem1), position1)) :
    ∃ ptr a val, p.heap[ptr]? = some a ∧ p1 = p.set_provided ptr
      ∧ a.m_bind.T = val.type
      ∧ mem1 = mem.write a.m_bind.bind val
      ∧ p.m_positionals[position]? = some ptr ∧ position1 = position + 1 := by
  unfold parser.m_parse_positional at h
  by_cases hp : position ≥ p.m_positionals.length
  · simp [hp] at h
  · simp only [hp, if_false] at h
    cases hq : p.m_positionals[position]? with
    | none => simp [hq] at h
    | some ptr =>
      cases hh : p.heap[ptr]? with
      | none => simp [hq, hh] at h
      | some a0 =>
        simp only [hq, hh] at h
        cases hv : Vp token a0.m_type with
        | none => simp [hv] at h
        | some r =>
          cases r with
          | error e => simp [hv] at h
          | ok val =>
            simp only [hv] at h
            split at h
            · simp at h
            · by_cases hT : a0.m_bind.T = val.type
              · simp only [binder_call_eq, hT, if_true, Option.some.injEq, Prod.mk.injEq,
                  true_and] at h
                exact ⟨ptr, a0, val, hh, h.1.1.symm, hT, h.1.2.symm, rfl, h.2.symm⟩
              · simp [binder_call_eq, hT] at h

/-- What a dispatch that reports no error has done: it marked one record, which is the option
found under the token's name or the positional at `position`, and wrote one value into the
variable of that record. -/
theorem dispatch_ok (Pp : prefix_policy) (Dp : delim_policy) (F : double_lib)
    (Vp : value_decoder) (p : parser) (mem : Store) (token : String) (index position : Nat)
    (p1 : parser) (mem1 : Store) (index1 position1 : Nat)
    (h : parser.dispatch Pp Dp F Vp p mem token index position
      = some ((none, p1, mem1), index1, position1)) :
    ∃ ptr a val, p.heap[ptr]? = some a ∧ p1 = p.set_provided ptr
      ∧ a.m_bind.T = val.type
      ∧ mem1 = mem.write a.m_bind.bind val
      ∧ ((starts_with token Pp.long_prefix = true
            ∧ map_find p.m_options (parser.long_opt_split Dp token).1 = some ptr
            ∧ index1 = index ∧ position1 = position)
        ∨ (starts_with token Pp.long_prefix = false ∧ starts_with token Pp.short_prefix = true
            ∧ map_find p.m_options token = some ptr
            ∧ ((a.m_type = .bool ∧ index1 = index)
              ∨ (a.m_type ≠ .bool ∧ index1 = index + 1 ∧ index1 < p.m_argv.length))
            ∧ position1 = position)
        ∨ (starts_with token Pp.long_prefix = false ∧ starts_with token Pp.short_prefix = false
            ∧ p.m_positionals[position]? = some ptr
            ∧ index1 = index ∧ position1 = position + 1)) := by
  unfold parser.dispatch at h
  by_cases hl : starts_with token Pp.long_prefix = true
  · rw [if_pos hl] at h
    cases hm : parser.m_parse_long_opt Dp F Vp p mem token with
    | none => simp [hm] at h
    | some o =>
      simp only [hm, Option.some.injEq, Prod.mk.injEq] at h
      obtain ⟨ho, hi, hpos⟩ := h
      rw [ho] at hm
      obtain ⟨ptr, a, val, h1, h2, h3, h4, h5⟩ := m_parse_long_opt_ok Dp F Vp p mem token p1 mem1 hm
      exact ⟨ptr, a, val, h1, h2, h3, h4, Or.inl ⟨hl, h5, hi.symm, hpos.symm⟩⟩
  · rw [if_neg hl] at h
    have hl' : starts_with token Pp.long_prefix = false := by simpa using hl
    by_cases hs : starts_with token Pp.short_prefix = true
    · rw [if_pos hs] at h
      cases hm : parser.m_parse_short_opt F Vp p mem token index with
      | none => simp [hm] at h
      | some o =>
        obtain ⟨o, i2⟩ := o
        simp only [hm, Option.some.injEq, Prod.mk.injEq] at h
        obtain ⟨ho, hi, hpos⟩ := h
        rw [ho, hi] at hm
        obtain ⟨ptr, a, val, h1, h2, h3, h4, h5, h6⟩ :=
          m_parse_short_opt_ok F Vp p mem token index p1 mem1 index1 hm
        exact ⟨ptr, a, val, h1, h2, h3, h4, Or.inr (Or.inl ⟨hl', hs, h5, h6, hpos.symm⟩)⟩
    · rw [if_neg hs] at h
      have hs' : starts_with token Pp.short_prefix = false := by simpa using hs
      cases hm : parser.m_parse_positional F Vp p mem token position with
      | none => simp [hm] at h
      | some o =>
        obtain ⟨o, pos2⟩ := o
        simp only [hm, Option.some.injEq, Prod.mk.injEq] at h
        obtain ⟨ho, hi, hpos⟩ := h
        rw [ho, hpos] at hm
        obtain ⟨ptr, a, val, h1, h2, h3, h4, h5, h6⟩ :=
          m_parse_positional_ok F Vp p mem token position p1 mem1 position1 hm
        exact ⟨ptr, a, val, h1, h2, h3, h4, Or.inr (Or.inr ⟨hl', hs', h5, hi.symm, h6⟩)⟩

theorem dispatch_ok_frame (Pp : prefix_policy) (Dp : delim_policy) (F : double_lib)
    (Vp : value_decoder) (p : parser) (mem : Store) (token : String) (index position : Nat)
    (p1 : parser) (mem1 : Store) (index1 position1 : Nat)
    (h : parser.dispatch Pp Dp F Vp p mem token index position
      = some ((none, p1, mem1), index1, position1)) :
    p1.m_argv = p.m_argv ∧ p1.m_positionals = p.m_positionals ∧ p1.m_options = p.m_options
      ∧ p1.heap.length = p.heap.length ∧ index ≤ index1 := by
  obtain ⟨ptr, a, val, _, h2, _, _, h5⟩ := dispatch_ok Pp Dp F Vp p mem token index position
    p1 mem1 index1 position1 h
  subst h2
  refine ⟨rfl, rfl, rfl, set_provided_heap_length _ _, ?_⟩
  rcases h5 with h5 | h5 | h5
  · omega
  · rcases h5.2.2.2.1 with h6 | h6 <;> omega
  · omega

/-- The default decoder returns a value of the alternative it was asked for. -/
theorem default_parse_type (F : double_lib) (sv : String) (ty : type_info) (val : value)
    (h : default_value_parser_parse F sv ty = some (.ok val)) : val.type = ty := by
  unfold default_value_parser_parse at h
  split_ifs at h with h1 h2 h3 h4 h5 h6
  · cases hb : default_value_parser_parse_as_bool sv <;> rw [hb] at h <;>
      simp at h
    rw [← h, h1]; rfl
  · cases hb : default_value_parser_parse_as_int64 sv <;> rw [hb] at h <;>
      simp at h
    rw [← h, h2]; rfl
  · cases hb : default_value_parser_parse_as_uint64 sv <;> rw [hb] at h <;>
      simp at h
    rw [← h, h3]; rfl
  · cases hb : default_value_parser_parse_as_double F sv <;> rw [hb] at h <;>
      simp at h
    rw [← h, h4]; rfl
  · simp at h
    rw [← h, h5]; rfl
  · simp at h
    rw [← h, h6]; rfl

theorem type_check_pass (F : double_lib) (name : String) (val : value) (a : argument)
    (h : val.type = a.m_type) : parser.m_type_check F name val a = none := by
  simp [parser.m_type_check, h]

/-- Dispatch of a long option whose inline value decodes. -/
theorem dispatch_long_value (Pp : prefix_policy) (Dp : delim_policy) (F : double_lib)
    (Vp : value_decoder) (p : parser) (mem : Store) (token : String) (index position : Nat)
    (it : Nat) (a : argument) (val : value)
    (hl : starts_with token Pp.long_prefix = true)
    (hf : map_find p.m_options (parser.long_opt_split Dp token).1 = some it)
    (ha : p.heap[it]? = some a)
    (hv : Vp (parser.long_opt_split Dp token).2 a.m_type = some (.ok val))
    (hT : a.m_bind.T = a.m_type) (hty : val.type = a.m_type) :
    parser.dispatch Pp Dp F Vp p mem token index position
      = some ((none, p.set_provided it, mem.write a.m_bind.bind val), index, position) := by
  have hT' : a.m_bind.T = val.type := by rw [hT, hty]
  have htc : parser.m_type_check F token val { a with m_provided := true } = none :=
    type_check_pass F token val _ hty
  unfold parser.dispatch
  simp only [hl, if_true, parser.m_parse_long_opt, hf, ha, hv, htc, binder_call_eq, hT']

/-- Dispatch of a long option of type `bool` whose value text does not decode. -/
theorem dispatch_long_flag (Pp : prefix_policy) (Dp : delim_policy) (F : double_lib)
    (Vp : value_decoder) (p : parser) (mem : Store) (token : String) (index position : Nat)
    (it : Nat) (a : argument) (e : String)
    (hl : starts_with token Pp.long_prefix = true)
    (hf : map_find p.m_options (parser.long_opt_split Dp token).1 = some it)
    (ha : p.heap[it]? = some a)
    (hb : a.m_type = .bool)
    (hv : Vp (parser.long_opt_split Dp token).2 .bool = some (.error e))
    (hT : a.m_bind.T = a.m_type) :
    parser.dispatch Pp Dp F Vp p mem token index position
      = some ((none, p.set_provided it, mem.write a.m_bind.bind (.bool true)),
          index, position) := by
  have hT' : a.m_bind.T = (value.bool true).type := by rw [hT, hb]; rfl
  unfold parser.dispatch
  simp only [hl, if_true, parser.m_parse_long_opt, hf, ha, hb, hv, binder_call_eq, hT']

/-- Dispatch of a short option of type `bool`. -/
theorem dispatch_short_flag (Pp : prefix_policy) (Dp : delim_policy) (F : double_lib)
    (Vp : value_decoder) (p : parser) (mem : Store) (token : String) (index position : Nat)
    (it : Nat) (a : argument)
    (hl : starts_with token Pp.long_prefix = false)
    (hs : starts_with token Pp.short_prefix = true)
    (hf : map_find p.m_options token = some it)
    (ha : p.heap[it]? = some a)
    (hb : a.m_type = .bool)
    (hT : a.m_bind.T = a.m_type) :
    parser.dispatch Pp Dp F Vp p mem token index position
      = some ((none, p.set_provided it, mem.write a.m_bind.bind (.bool true)),
          index, position) := by
  have hT' : a.m_bind.T = (value.bool true).type := by rw [hT, hb]; rfl
  unfold parser.dispatch
  simp [hl, hs, parser.m_parse_short_opt, hf, ha, hb, binder_call_eq, hT']

/-- Dispatch of a short option that takes the next token as its value. -/
theorem dispatch_short_value (Pp : prefix_policy) (Dp : delim_policy) (F : double_lib)
    (Vp : value_decoder) (p : parser) (mem : Store) (token next : String)
    (index position : Nat) (it : Nat) (a : argument) (val : value)
    (hl : starts_with token Pp.long_prefix = false)
    (hs : starts_with token Pp.short_prefix = true)
    (hf : map_find p.m_options token = some it)
    (ha : p.heap[it]? = some a)
    (hb : a.m_type ≠ .bool)
    (hn : p.m_argv[index + 1]? = some next)
    (hv : Vp next a.m_type = some (.ok val))
    (hT : a.m_bind.T = a.m_type) (hty : val.type = a.m_type) :
    parser.dispatch Pp Dp F Vp p mem token index position
      = some ((none, p.set_provided it, mem.write a.m_bind.bind val), index + 1, position) := by
  have hT' : a.m_bind.T = val.type := by rw [hT, hty]
  have htc : parser.m_type_check F token val { a with m_provided := true } = none :=
    type_check_pass F token val _ hty
  have hlt : index + 1 < p.m_argv.length := (List.getElem?_eq_some_iff.mp hn).1
  have hidx : ¬ (index = p.m_argv.length - 1) := by omega
  unfold parser.dispatch
  simp [hl, hs, parser.m_parse_short_opt, hf, ha, hb, hidx, hn, hv, htc, binder_call_eq, hT']

/-- Dispatch of a positional token whose text decodes. -/
theorem dispatch_positional (Pp : prefix_policy) (Dp : delim_policy) (F : double_lib)
    (Vp : value_decoder) (p : parser) (mem : Store) (token : String) (index position : Nat)
    (ptr : Nat) (a : argument) (val : value)
    (hl : starts_with token Pp.long_prefix = false)
    (hs : starts_with token Pp.short_prefix = false)
    (hq : p.m_positionals[position]? = some ptr)
    (ha : p.heap[ptr]? = some a)
    (hv : Vp token a.m_type = some (.ok val))
    (hT : a.m_bind.T = a.m_type) (hty : val.type = a.m_type) :
    parser.dispatch Pp Dp F Vp p mem token index position
      = some ((none, p.set_provided ptr, mem.write a.m_bind.bind val),
          index, position + 1) := by
  have hT' : a.m_bind.T = val.type := by rw [hT, hty]
  have htc : parser.m_type_check F token val { a with m_provided := true } = none :=
    type_check_pass F token val _ hty
  have hlt : ¬ (position ≥ p.m_positionals.length) := by
    have := (List.getElem?_eq_some_iff.mp hq).1
    omega
  unfold parser.dispatch
  simp [hl, hs, parser.m_parse_positional, hlt, hq, ha, hv, htc, binder_call_eq, hT']

/-! ## The loop and its walks -/

/-- The result of the loop does not depend on the iteration bound once the bound covers the
tokens that are left. -/
theorem parse_loop_fuel (Pp : prefix_policy) (Dp : delim_policy) (F : double_lib)
    (Vp : value_decoder) : ∀ (fuel1 fuel2 : Nat) (p : parser) (mem : Store)
    (index position : Nat),
    p.m_argv.length - index ≤ fuel1 → p.m_argv.length - index ≤ fuel2 →
    parser.parse_loop Pp Dp F Vp fuel1 p mem index position
      = parser.parse_loop Pp Dp F Vp fuel2 p mem index position := by
  intro fuel1
  induction fuel1 with
  | zero =>
    intro fuel2 p mem index position h1 h2
    have hlt : ¬ index < p.m_argv.length := by omega
    rw [parser.parse_loop.eq_def, parser.parse_loop.eq_def]
    simp only [hlt, if_false]
  | succ fuel1 ih =>
    intro fuel2 p mem index position h1 h2
    by_cases hlt : index < p.m_argv.length
    · cases fuel2 with
      | zero => omega
      | succ fuel2 =>
        rw [parser.parse_loop.eq_def, parser.parse_loop.eq_def]
        simp only [hlt, if_true]
        cases ht : p.m_argv[index]? with
        | none => rfl
        | some token =>
          simp only []
          cases hd : parser.dispatch Pp Dp F Vp p mem token index position with
          | none => rfl
          | some r =>
            obtain ⟨⟨e, p1, mem1⟩, index1, position1⟩ := r
            cases e with
            | some error => rfl
            | none =>
              simp only []
              obtain ⟨ha, _, _, _, hi⟩ := dispatch_ok_frame Pp Dp F Vp p mem token index position
                p1 mem1 index1 position1 hd
              apply ih
              · rw [ha]; omega
              · rw [ha]; omega
    · rw [parser.parse_loop.eq_def, parser.parse_loop.eq_def]
      simp only [hlt, if_false]

/-- One iteration of the loop on a token whose dispatch reports no error. -/
theorem parse_loop_step (Pp : prefix_policy) (Dp : delim_policy) (F : double_lib)
    (Vp : value_decoder) (fuel : Nat) (p : parser) (mem : Store) (index position : Nat)
    (token : String) (p1 : parser) (mem1 : Store) (index1 position1 : Nat)
    (ht : p.m_argv[index]? = some token)
    (hd : parser.dispatch Pp Dp F Vp p mem token index position
      = some ((none, p1, mem1), index1, position1)) :
    parser.parse_loop Pp Dp F Vp (fuel + 1) p mem index position
      = parser.parse_loop Pp Dp F Vp fuel p1 mem1 (index1 + 1) position1 := by
  have hlt : index < p.m_argv.length := (List.getElem?_eq_some_iff.mp ht).1
  rw [parser.parse_loop.eq_def]
  simp only [hlt, if_true, ht, hd]

/-- One iteration of the loop on a token whose dispatch reports an error. -/
theorem parse_loop_error (Pp : prefix_policy) (Dp : delim_policy) (F : double_lib)
    (Vp : value_decoder) (fuel : Nat) (p : parser) (mem : Store) (index position : Nat)
    (token : String) (error : String) (p1 : parser) (mem1 : Store) (index1 position1 : Nat)
    (ht : p.m_argv[index]? = some token)
    (hd : parser.dispatch Pp Dp F Vp p mem token index position
      = some ((some error, p1, mem1), index1, position1)) :
    parser.parse_loop Pp Dp F Vp (fuel + 1) p mem index position
      = some (some error, p1, mem1) := by
  have hlt : index < p.m_argv.length := (List.getElem?_eq_some_iff.mp ht).1
  rw [parser.parse_loop.eq_def]
  simp only [hlt, if_true, ht, hd]

/-- The loop past the last token: only the required sweep is left. -/
theorem parse_loop_end (Pp : prefix_policy) (Dp : delim_policy) (F : double_lib)
    (Vp : value_decoder) (fuel : Nat) (p : parser) (mem : Store) (index position : Nat)
    (h : p.m_argv.length ≤ index) :
    parser.parse_loop Pp Dp F Vp fuel p mem index position
      = (p.m_check_required).map (fun r => (r, p, mem)) := by
  have hlt : ¬ index < p.m_argv.length := by omega
  rw [parser.parse_loop.eq_def]
  simp only [hlt, if_false]
  cases p.m_check_required <;> rfl

/-- A walk keeps the token vector and the two tables, and never moves before token 1. -/
theorem reaches_frame (Pp : prefix_policy) (Dp : delim_policy) (F : double_lib)
    (Vp : value_decoder) (p0 : parser) (mem0 : Store) (p : parser) (mem : Store)
    (index position : Nat) (h : parser.Reaches Pp Dp F Vp p0 mem0 p mem index position) :
    p.m_argv = p0.m_argv ∧ p.m_positionals = p0.m_positionals ∧ p.m_options = p0.m_options
      ∧ p.heap.length = p0.heap.length ∧ 1 ≤ index := by
  induction h with
  | start => exact ⟨rfl, rfl, rfl, rfl, le_refl _⟩
  | step _ ht hd ih =>
    obtain ⟨h1, h2, h3, h4, h5⟩ := dispatch_ok_frame Pp Dp F Vp _ _ _ _ _ _ _ _ _ hd
    obtain ⟨i1, i2, i3, i4, i5⟩ := ih
    exact ⟨h1.trans i1, h2.trans i2, h3.trans i3, h4.trans i4, by omega⟩

/-- At a point that the walk reaches, `parse` is the rest of the loop from that point. -/
theorem reaches_parse (Pp : prefix_policy) (Dp : delim_policy) (F : double_lib)
    (Vp : value_decoder) (p0 : parser) (mem0 : Store) (p : parser) (mem : Store)
    (index position : Nat) (h : parser.Reaches Pp Dp F Vp p0 mem0 p mem index position) :
    ∀ fuel, p.m_argv.length - index ≤ fuel →
      parser.parse Pp Dp F Vp p0 mem0 = parser.parse_loop Pp Dp F Vp fuel p mem index position := by
  induction h with
  | start =>
    intro fuel hf
    exact parse_loop_fuel Pp Dp F Vp _ _ _ _ _ _ (by omega) hf
  | @step p mem index position token p1 mem1 index1 position1 hr ht hd ih =>
    intro fuel hf
    obtain ⟨h1, _, _, _, h5⟩ := dispatch_ok_frame Pp Dp F Vp _ _ _ _ _ _ _ _ _ hd
    rw [ih (max fuel p.m_argv.length + 1) (by omega),
      parse_loop_step Pp Dp F Vp _ p mem index position token p1 mem1 index1 position1 ht hd]
    exact parse_loop_fuel Pp Dp F Vp _ _ _ _ _ _ (by rw [h1]; omega) hf

theorem reaches_wf (Pp : prefix_policy) (Dp : delim_policy) (F : double_lib)
    (Vp : value_decoder) (p0 : parser) (mem0 : Store) (p : parser) (mem : Store)
    (index position : Nat) (h : parser.Reaches Pp Dp F Vp p0 mem0 p mem index position)
    (hwf : p0.wf) : p.wf := by
  induction h with
  | start => exact hwf
  | step _ ht hd ih =>
    obtain ⟨ptr, a, val, _, h2, _⟩ := dispatch_ok Pp Dp F Vp _ _ _ _ _ _ _ _ _ hd
    rw [h2]
    exact set_provided_wf _ _ ih

/-- The walk keeps every record's declaration; only `m_provided` changes, and only to `true`. -/
theorem reaches_heap (Pp : prefix_policy) (Dp : delim_policy) (F : double_lib)
    (Vp : value_decoder) (p0 : parser) (mem0 : Store) (p : parser) (mem : Store)
    (index position : Nat) (h : parser.Reaches Pp Dp F Vp p0 mem0 p mem index position)
    (j : Nat) (a0 : argument) (h0 : p0.heap[j]? = some a0) :
    ∃ a, p.heap[j]? = some a ∧ a.m_type = a0.m_type ∧ a.m_names = a0.m_names
      ∧ a.m_bind = a0.m_bind ∧ a.m_required = a0.m_required
      ∧ (a0.m_provided = true → a.m_provided = true) := by
  induction h with
  | start => exact ⟨a0, h0, rfl, rfl, rfl, rfl, id⟩
  | step _ ht hd ih =>
    obtain ⟨ptr, b, val, _, h2, _⟩ := dispatch_ok Pp Dp F Vp _ _ _ _ _ _ _ _ _ hd
    obtain ⟨a, ha, i1, i2, i3, i4, i5⟩ := ih
    by_cases hj : ptr = j
    · subst hj
      refine ⟨{ a with m_provided := true }, ?_, i1, i2, i3, i4, fun _ => rfl⟩
      rw [h2, set_provided_heap_eq, ha]
      rfl
    · exact ⟨a, by rw [h2, set_provided_heap_ne _ _ _ hj]; exact ha, i1, i2, i3, i4, i5⟩

/-- On a fresh engine the walk has marked exactly the positionals before `position`. -/
theorem reaches_positionals (Pp : prefix_policy) (Dp : delim_policy) (F : double_lib)
    (Vp : value_decoder) (p0 : parser) (mem0 : Store) (p : parser) (mem : Store)
    (index position : Nat) (h : parser.Reaches Pp Dp F Vp p0 mem0 p mem index position)
    (hwf : p0.wf) (hfresh : p0.fresh) :
    ∀ k ptr a, p.m_positionals[k]? = some ptr → p.heap[ptr]? = some a →
      (a.m_provided = true ↔ k < position) := by
  induction h with
  | start =>
    intro k ptr a _ ha
    have := hfresh a (List.getElem?_mem ha)
    simp [this]
  | @step p mem index position token p1 mem1 index1 position1 hr ht hd ih =>
    intro k ptr a hk ha
    have hpwf := reaches_wf Pp Dp F Vp p0 mem0 p mem index position hr hwf
    obtain ⟨ptr', b, val, hb, h2, _, _, hcase⟩ :=
      dispatch_ok Pp Dp F Vp _ _ _ _ _ _ _ _ _ hd
    subst h2
    simp only [set_provided_m_positionals] at hk
    have hmem : ptr ∈ p.m_positionals := List.getElem?_mem hk
    rcases hcase with ⟨_, hf, _, hpos⟩ | ⟨_, _, hf, _, hpos⟩ | ⟨_, _, hq, _, hpos⟩
    · have hne : ptr' ≠ ptr := by
        intro he
        exact hpwf.2.2.2.2 _ (map_find_mem _ _ _ hf) (he ▸ hmem)
      rw [set_provided_heap_ne _ _ _ hne] at ha
      rw [hpos]; exact ih k ptr a hk ha
    · have hne : ptr' ≠ ptr := by
        intro he
        exact hpwf.2.2.2.2 _ (map_find_mem _ _ _ hf) (he ▸ hmem)
      rw [set_provided_heap_ne _ _ _ hne] at ha
      rw [hpos]; exact ih k ptr a hk ha
    · rw [hpos]
      by_cases hkp : k = position
      · subst hkp
        rw [hq] at hk
        simp only [Option.some.injEq] at hk
        subst hk
        rw [set_provided_heap_eq, hb] at ha
        simp only [Option.map_some', Option.some.injEq] at ha
        rw [← ha]
        simp
      · have hne : ptr' ≠ ptr := by
          intro he
          apply hkp
          have hlt : k < p.m_positionals.length := (List.getElem?_eq_some_iff.mp hk).1
          exact List.getElem?_inj hlt hpwf.2.2.2.1 (by rw [hk, hq, he])
        rw [set_provided_heap_ne _ _ _ hne] at ha
        have := ih k ptr a hk ha
        rw [this]
        omega

/-- A record that is no positional and that no token of the stream resolves to, as a whole or
by its name part, is never marked by the walk. -/
theorem reaches_unmatched (Pp : prefix_policy) (Dp : delim_policy) (F : double_lib)
    (Vp : value_decoder) (p0 : parser) (mem0 : Store) (p : parser) (mem : Store)
    (index position : Nat) (h : parser.Reaches Pp Dp F Vp p0 mem0 p mem index position)
    (r : Nat) (a0 : argument) (ha0 : p0.heap[r]? = some a0) (hprov : a0.m_provided = false)
    (hnp : r ∉ p0.m_positionals)
    (hno : ∀ tok ∈ p0.m_argv.tail, map_find p0.m_options tok ≠ some r
      ∧ map_find p0.m_options (parser.long_opt_split Dp tok).1 ≠ some r) :
    ∃ a, p.heap[r]? = some a ∧ a.m_provided = false := by
  induction h with
  | start => exact ⟨a0, ha0, hprov⟩
  | @step p mem index position token p1 mem1 index1 position1 hr ht hd ih =>
    obtain ⟨a, ha, hpa⟩ := ih
    obtain ⟨h1, h2, h3, _, h5⟩ := reaches_frame Pp Dp F Vp p0 mem0 p mem index position hr
    obtain ⟨ptr', b, val, hb, hp1, _, _, hcase⟩ :=
      dispatch_ok Pp Dp F Vp _ _ _ _ _ _ _ _ _ hd
    subst hp1
    have htok : token ∈ p0.m_argv.tail := by
      rw [h1] at ht
      have : p0.m_argv.tail[index - 1]? = some token := by
        rw [List.getElem?_tail]
        have : index - 1 + 1 = index := by omega
        rw [this]; exact ht
      exact List.getElem?_mem this
    have hne : ptr' ≠ r := by
      intro he
      subst he
      rcases hcase with ⟨_, hf, _⟩ | ⟨_, _, hf, _⟩ | ⟨_, _, hq, _⟩
      · rw [h3] at hf; exact (hno token htok).2 hf
      · rw [h3] at hf; exact (hno token htok).1 hf
      · rw [h2] at hq; exact hnp (List.getElem?_mem hq)
    exact ⟨a, by rw [set_provided_heap_ne _ _ _ hne]; exact ha, hpa⟩

/-! ## Failures and flags on the option paths -/

/-- C2 (amended): an unrecognised option name yields the unknown-option failure whenever the
walk dispatches it.  If the walk of `parse` reaches the token at `index` (every earlier token
was processed without error and the token is not the value consumed by a preceding short
option), and the token starts with the long prefix and its name part is not registered, or
else starts with the short prefix and is not registered, then `parse` returns
`unknown option: <name>` and leaves engine and store as they were at that point. -/
theorem unknown_option_when_dispatched (Pp : prefix_policy) (Dp : delim_policy)
    (F : double_lib) (Vp : value_decoder) (p0 : parser) (mem0 : Store) (p : parser)
    (mem : Store) (index position : Nat) (token : String)
    (hr : parser.Reaches Pp Dp F Vp p0 mem0 p mem index position)
    (ht : p0.m_argv[index]? = some token)
    (hu : (starts_with token Pp.long_prefix = true
            ∧ map_find p0.m_options (parser.long_opt_split Dp token).1 = none)
        ∨ (starts_with token Pp.long_prefix = false
            ∧ starts_with token Pp.short_prefix = true
            ∧ map_find p0.m_options token = none)) :
    parser.parse Pp Dp F Vp p0 mem0
      = some (some ("unknown option: "
          ++ (if starts_with token Pp.long_prefix then (parser.long_opt_split Dp token).1
              else token)), p, mem) := by
  obtain ⟨h1, _, h3, _, _⟩ := reaches_frame Pp Dp F Vp p0 mem0 p mem index position hr
  rw [← h1] at ht
  rw [← h3] at hu
  rw [reaches_parse Pp Dp F Vp p0 mem0 p mem index position hr (p.m_argv.length + 1)
    (by omega)]
  apply parse_loop_error Pp Dp F Vp _ p mem index position token _ p mem index position ht
  unfold parser.dispatch
  rcases hu with ⟨hl, hf⟩ | ⟨hl, hs, hf⟩
  · simp [hl, parser.m_parse_long_opt, hf]
  · simp [hl, hs, parser.m_parse_short_opt, hf]

/-- C2 witness: tokens `[prog, --nope]` with only `--output` or `-o` (and the positional) registered
give `unknown option: --nope`. -/
theorem unknown_option_when_dispatched_witness :
    parser.parse default_prefix_policy default_delim_policy no_double
        (default_value_parser_parse no_double) (test_optional_engine ["prog", "--nope"])
        test_store
      = some (some "unknown option: --nope", test_optional_engine ["prog", "--nope"],
          test_store) :=
  unknown_option_when_dispatched default_prefix_policy default_delim_policy no_double
    (default_value_parser_parse no_double) (test_optional_engine ["prog", "--nope"]) test_store
    (test_optional_engine ["prog", "--nope"]) test_store 1 0 "--nope"
    parser.Reaches.start (by decide) (Or.inl (by decide))

/-- C2 (as stated) fails: in `[prog, -o, --nope]` the token `--nope` at index 2 starts with the
long prefix and names no registered option, yet `parse` reports no error, because the short
option `-o` consumed it as its value: the variable of `--output` or `-o` holds the path `--nope`. -/
theorem unknown_option_consumed_as_value :
    starts_with "--nope" default_prefix_policy.long_prefix = true
    ∧ map_find (test_optional_engine ["prog", "-o", "--nope"]).m_options
        (parser.long_opt_split default_delim_policy "--nope").1 = none
    ∧ parser.parse_result default_prefix_policy default_delim_policy no_double
        (default_value_parser_parse no_double) (test_optional_engine ["prog", "-o", "--nope"])
        test_store = some none
    ∧ parser.parse_var default_prefix_policy default_delim_policy no_double
        (default_value_parser_parse no_double) (test_optional_engine ["prog", "-o", "--nope"])
        test_store 2 = some (.path ⟨"--nope"⟩) := by
  decide

/-- C3: the short-option path uses a decode result that is an error.  With the `int64_t` option
`--num` or `-n`, the tokens `[prog, -n, abc]` and `[prog, -n, 99999999999999999999]` make
`m_parse_short_opt` read `*value` of a decode that failed, which is undefined behaviour
(`none`): `parse` returns no decode-failure error.  The long-option path and the positional
path do check the decode result: `[prog, --num=abc]` gives `--num=abc: bad value (int64)` and
`[prog, abc]` gives `bad value (int64)`. -/
theorem short_option_reads_failed_decode :
    default_value_parser_parse no_double "abc" .int64_t = some (.error "bad value (int64)")
    ∧ parser.parse_result default_prefix_policy default_delim_policy no_double
        (default_value_parser_parse no_double) (test_number_engine ["prog", "-n", "abc"])
        test_store = none
    ∧ parser.parse_result default_prefix_policy default_delim_policy no_double
        (default_value_parser_parse no_double)
        (test_number_engine ["prog", "-n", "99999999999999999999"]) test_store = none
    ∧ parser.parse_result default_prefix_policy default_delim_policy no_double
        (default_value_parser_parse no_double) (test_number_engine ["prog", "--num=abc"])
        test_store = some (some "--num=abc: bad value (int64)")
    ∧ parser.parse_result default_prefix_policy default_delim_policy no_double
        (default_value_parser_parse no_double) (test_number_engine ["prog", "abc"])
        test_store = some (some "bad value (int64)")
    ∧ parser.parse_var default_prefix_policy default_delim_policy no_double
        (default_value_parser_parse no_double) (test_number_engine ["prog", "-n", "42"])
        test_store 0 = some (.int64 42) := by
  decide

/-- C4 (amended): a short option that expects a non-boolean value and is dispatched as the last
token yields the missing-value failure.  If the walk of `parse` reaches the last token (every
earlier token was processed without error and the last token is not the value consumed by a
preceding short option), that token goes down the short-option path (it starts with the short
prefix and not with the long prefix) and is a registered name of a record whose type is not
`bool`, then `parse` returns `<name>: missing value`; the record is marked provided and the
store is as it was at that point. -/
theorem short_option_missing_value (Pp : prefix_policy) (Dp : delim_policy)
    (F : double_lib) (Vp : value_decoder) (p0 : parser) (mem0 : Store) (p : parser)
    (mem : Store) (index position : Nat) (token : String) (it : Nat) (a0 : argument)
    (hr : parser.Reaches Pp Dp F Vp p0 mem0 p mem index position)
    (ht : p0.m_argv[index]? = some token)
    (hlast : index + 1 = p0.m_argv.length)
    (hl : starts_with token Pp.long_prefix = false)
    (hs : starts_with token Pp.short_prefix = true)
    (hf : map_find p0.m_options token = some it)
    (ha : p0.heap[it]? = some a0)
    (hb : a0.m_type ≠ .bool) :
    parser.parse Pp Dp F Vp p0 mem0
      = some (some (token ++ ": missing value"), p.set_provided it, mem) := by
  obtain ⟨h1, _, h3, _, _⟩ := reaches_frame Pp Dp F Vp p0 mem0 p mem index position hr
  obtain ⟨a, hpa, hty, _⟩ := reaches_heap Pp Dp F Vp p0 mem0 p mem index position hr it a0 ha
  rw [← h1] at ht hlast
  rw [← h3] at hf
  rw [← hty] at hb
  rw [reaches_parse Pp Dp F Vp p0 mem0 p mem index position hr (p.m_argv.length + 1)
    (by omega)]
  apply parse_loop_error Pp Dp F Vp _ p mem index position token _ (p.set_provided it) mem
    index position ht
  have hidx : index = p.m_argv.length - 1 := by omega
  unfold parser.dispatch
  simp [hl, hs, parser.m_parse_short_opt, hf, hpa, hb, ← hidx]

/-- C4 witness: tokens `[prog, in, -o]` with required positional `input` and required path
option `--output` or `-o` give `-o: missing value`. -/
theorem short_option_missing_value_witness :
    parser.parse default_prefix_policy default_delim_policy no_double
        (default_value_parser_parse no_double) (test_required_engine ["prog", "in", "-o"])
        test_store
      = some (some "-o: missing value",
          ((test_required_engine ["prog", "in", "-o"]).set_provided 0).set_provided 1,
          test_store.write 1 (.path ⟨"in"⟩)) :=
  short_option_missing_value default_prefix_policy default_delim_policy no_double
    (default_value_parser_parse no_double) (test_required_engine ["prog", "in", "-o"])
    test_store ((test_required_engine ["prog", "in", "-o"]).set_provided 0)
    (test_store.write 1 (.path ⟨"in"⟩)) 2 1 "-o" 1
    { m_type := .path, m_names := ["--output", "-o"], m_bind := ⟨.path, 2, "--output"⟩,
      m_required := true }
    (@parser.Reaches.step default_prefix_policy default_delim_policy no_double
      (default_value_parser_parse no_double) (test_required_engine ["prog", "in", "-o"])
      test_store (test_required_engine ["prog", "in", "-o"]) test_store 1 0 "in"
      ((test_required_engine ["prog", "in", "-o"]).set_provided 0)
      (test_store.write 1 (.path ⟨"in"⟩)) 1 1 parser.Reaches.start (by decide) rfl)
    (by decide) (by decide) (by decide) (by decide) (by decide) (by decide) (by decide)

/-- C4 (as stated) fails: in `[prog, -o, -o]` the last token is exactly the short name `-o` of
an option with a path target, yet `parse` reports no error, because the first `-o` consumed
it as its value: the variable of the option holds the path `-o`. -/
theorem short_option_last_token_consumed :
    ["prog", "-o", "-o"].getLast? = some "-o"
    ∧ map_find (test_optional_engine ["prog", "-o", "-o"]).m_options "-o" = some 1
    ∧ ((test_optional_engine ["prog", "-o", "-o"]).heap[1]?).map (fun a => a.m_type)
        = some .path
    ∧ parser.parse_result default_prefix_policy default_delim_policy no_double
        (default_value_parser_parse no_double) (test_optional_engine ["prog", "-o", "-o"])
        test_store = some none
    ∧ parser.parse_var default_prefix_policy default_delim_policy no_double
        (default_value_parser_parse no_double) (test_optional_engine ["prog", "-o", "-o"])
        test_store 2 = some (.path ⟨"-o"⟩) := by
  decide

/-- C5: a boolean option given with no explicit value binds `true`.  In any well-formed engine
state, when the loop dispatches a token that is a registered name of a record of type `bool`,
either down the long-option path with no assignment delimiter in the token, or down the
short-option path, the dispatch reports no error, marks the record provided, writes `true` into
the record's variable, leaves `index` and `position` alone, and the loop goes on with the next
token. -/
theorem bare_boolean_option_binds_true (Pp : prefix_policy) (Dp : delim_policy)
    (F : double_lib) (p : parser) (mem : Store) (index position : Nat) (token : String)
    (it : Nat) (opt : argument) (fuel : Nat)
    (hwf : p.wf)
    (ht : p.m_argv[index]? = some token)
    (hf : map_find p.m_options token = some it)
    (ho : p.heap[it]? = some opt)
    (hb : opt.m_type = .bool)
    (hpath : (starts_with token Pp.long_prefix = true ∧ find token Dp.assign_delim = none)
      ∨ (starts_with token Pp.long_prefix = false
          ∧ starts_with token Pp.short_prefix = true)) :
    parser.dispatch Pp Dp F (default_value_parser_parse F) p mem token index position
        = some ((none, p.set_provided it, mem.write opt.m_bind.bind (.bool true)),
            index, position)
    ∧ parser.parse_loop Pp Dp F (default_value_parser_parse F) (fuel + 1) p mem index position
        = parser.parse_loop Pp Dp F (default_value_parser_parse F) fuel (p.set_provided it)
            (mem.write opt.m_bind.bind (.bool true)) (index + 1) position := by
  have hT : opt.m_bind.T = (value.bool true).type := by
    have := (hwf.1 opt (List.mem_iff_getElem?.mpr ⟨it, ho⟩)).1
    rw [this, hb]; rfl
  have hd : parser.dispatch Pp Dp F (default_value_parser_parse F) p mem token index position
        = some ((none, p.set_provided it, mem.write opt.m_bind.bind (.bool true)),
            index, position) := by
    unfold parser.dispatch
    rcases hpath with ⟨hl, hdel⟩ | ⟨hl, hs⟩
    · have hsplit : parser.long_opt_split Dp token = (token, "") := by
        simp [parser.long_opt_split, hdel]
      have hdec : default_value_parser_parse F "" .bool = some (.error "bad value (boolean)") :=
        rfl
      simp [hl, parser.m_parse_long_opt, hsplit, hf, ho, hb, hdec, binder_call_eq, hT]
    · simp [hl, hs, parser.m_parse_short_opt, hf, ho, hb, binder_call_eq, hT]
  exact ⟨hd, parse_loop_step Pp Dp F _ fuel p mem index position token _ _ index position ht hd⟩

/-- C5 witness: in `[prog, --do-thing, file, -o, out]` the bare flag `--do-thing` at index 1
writes `true` at address 0 and the loop goes on with `file` at index 2; at the end of `parse`
the flag is `true` and `input` (address 1) is `file`. -/
theorem bare_boolean_option_binds_true_witness :
    (parser.dispatch default_prefix_policy default_delim_policy no_double
        (default_value_parser_parse no_double)
        (test_full_engine ["prog", "--do-thing", "file", "-o", "out"]) test_store
        "--do-thing" 1 0
        = some ((none,
            (test_full_engine ["prog", "--do-thing", "file", "-o", "out"]).set_provided 2,
            test_store.write 0 (.bool true)), 1, 0)
      ∧ parser.parse_loop default_prefix_policy default_delim_policy no_double
          (default_value_parser_parse no_double) (4 + 1)
          (test_full_engine ["prog", "--do-thing", "file", "-o", "out"]) test_store 1 0
          = parser.parse_loop default_prefix_policy default_delim_policy no_double
              (default_value_parser_parse no_double) 4
              ((test_full_engine ["prog", "--do-thing", "file", "-o", "out"]).set_provided 2)
              (test_store.write 0 (.bool true)) (1 + 1) 0)
    ∧ parser.parse_var default_prefix_policy default_delim_policy no_double
        (default_value_parser_parse no_double)
        (test_full_engine ["prog", "--do-thing", "file", "-o", "out"]) test_store 0
        = some (.bool true)
    ∧ parser.parse_var default_prefix_policy default_delim_policy no_double
        (default_value_parser_parse no_double)
        (test_full_engine ["prog", "--do-thing", "file", "-o", "out"]) test_store 1
        = some (.path ⟨"file"⟩) :=
  ⟨bare_boolean_option_binds_true default_prefix_policy default_delim_policy no_double
      (test_full_engine ["prog", "--do-thing", "file", "-o", "out"]) test_store 1 0
      "--do-thing" 2 test_flag_record
      4 (by decide) (by decide) (by decide) (by decide) (by decide) (Or.inl (by decide)),
    by decide, by decide⟩

/-! ## The required sweep -/

/-- The positional sweep passes over records that are provided or not required. -/
theorem sweep_positionals_skip (p : parser) (l1 l2 : List Nat)
    (h : ∀ ptr ∈ l1, ∃ a, p.heap[ptr]? = some a ∧ (a.m_required && !a.m_provided) = false) :
    p.m_check_required_positionals (l1 ++ l2) = p.m_check_required_positionals l2 := by
  induction l1 with
  | nil => rfl
  | cons ptr l1 ih =>
    obtain ⟨a, ha, hm⟩ := h ptr (List.mem_cons_self _ _)
    simp only [List.cons_append, parser.m_check_required_positionals, ha, hm]
    exact ih (fun q hq => h q (List.mem_cons_of_mem _ hq))

/-- The option sweep passes when no entry is required and unprovided. -/
theorem sweep_options_none (p : parser) (l : List (String × Nat))
    (h : ∀ e ∈ l, ∃ a, p.heap[e.2]? = some a ∧ (a.m_required && !a.m_provided) = false) :
    p.m_check_required_options l = some none := by
  induction l with
  | nil => rfl
  | cons e l ih =>
    obtain ⟨a, ha, hm⟩ := h e (List.mem_cons_self _ _)
    simp only [parser.m_check_required_options, ha, hm]
    exact ih (fun q hq => h q (List.mem_cons_of_mem _ hq))

/-- The option sweep reports a required, unprovided record when there is one. -/
theorem sweep_options_some (p : parser) (l : List (String × Nat))
    (hv : ∀ e ∈ l, ∃ a, p.heap[e.2]? = some a ∧ a.m_names ≠ [])
    (h : ∃ e ∈ l, ∃ a, p.heap[e.2]? = some a ∧ a.m_required = true ∧ a.m_provided = false) :
    ∃ e a n, e ∈ l ∧ p.heap[e.2]? = some a ∧ a.m_required = true ∧ a.m_provided = false
      ∧ a.name = some n
      ∧ p.m_check_required_options l = some (some ("missing required option: " ++ n)) := by
  induction l with
  | nil => obtain ⟨e, he, _⟩ := h; simp at he
  | cons e l ih =>
    obtain ⟨a, ha, hn⟩ := hv e (List.mem_cons_self _ _)
    by_cases hm : (a.m_required && !a.m_provided) = true
    · obtain ⟨n, hname⟩ : ∃ n, a.name = some n := by
        cases hnm : a.m_names with
        | nil => exact absurd hnm hn
        | cons n ns => exact ⟨n, by simp [argument.name, hnm]⟩
      simp only [Bool.and_eq_true, Bool.not_eq_eq_eq_not, Bool.not_true] at hm
      refine ⟨e, a, n, List.mem_cons_self _ _, ha, hm.1, hm.2, hname, ?_⟩
      simp [parser.m_check_required_options, ha, hm.1, hm.2, hname]
    · have hm' : (a.m_required && !a.m_provided) = false := by simpa using hm
      obtain ⟨e', a', n, he', ha', h1, h2, h3, h4⟩ := ih
        (fun q hq => hv q (List.mem_cons_of_mem _ hq))
        (by
          obtain ⟨e2, he2, a2, ha2, hr2, hp2⟩ := h
          rcases List.mem_cons.mp he2 with heq | hin
          · subst heq
            rw [ha] at ha2
            simp only [Option.some.injEq] at ha2
            subst ha2
            simp [hr2, hp2] at hm'
          · exact ⟨e2, hin, a2, ha2, hr2, hp2⟩)
      refine ⟨e', a', n, List.mem_cons_of_mem _ he', ha', h1, h2, h3, ?_⟩
      simp only [parser.m_check_required_options, ha, hm']
      exact h4

/-- C6 (amended): a required positional that received no token yields the
missing-required-positional failure when the walk finishes without error.  On a fresh,
well-formed engine, if the walk of `parse` passes the last token without an error, the
positional number `k` is marked required and received no token (the position counter ended at
or before `k`), and no earlier token-less positional is required, then `parse` returns
`missing required positional: <name>` with the name of that positional, and leaves engine and
store as the walk left them. -/
theorem missing_required_positional (Pp : prefix_policy) (Dp : delim_policy)
    (F : double_lib) (Vp : value_decoder) (p0 : parser) (mem0 : Store) (p : parser)
    (mem : Store) (index position : Nat) (k ptr : Nat) (a0 : argument)
    (hwf : p0.wf) (hfresh : p0.fresh)
    (hr : parser.Reaches Pp Dp F Vp p0 mem0 p mem index position)
    (hend : p0.m_argv.length ≤ index)
    (hk : position ≤ k)
    (hptr : p0.m_positionals[k]? = some ptr)
    (ha : p0.heap[ptr]? = some a0)
    (hreq : a0.m_required = true)
    (hfirst : ∀ j ptr1 a1, position ≤ j → j < k → p0.m_positionals[j]? = some ptr1 →
      p0.heap[ptr1]? = some a1 → a1.m_required = false) :
    ∃ name, a0.name = some name
      ∧ parser.parse Pp Dp F Vp p0 mem0
          = some (some ("missing required positional: " ++ name), p, mem) := by
  obtain ⟨name, hname⟩ := wf_name p0 hwf ptr a0 ha
  refine ⟨name, hname, ?_⟩
  obtain ⟨h1, h2, h3, h4, _⟩ := reaches_frame Pp Dp F Vp p0 mem0 p mem index position hr
  have hinv := reaches_positionals Pp Dp F Vp p0 mem0 p mem index position hr hwf hfresh
  have hpwf := reaches_wf Pp Dp F Vp p0 mem0 p mem index position hr hwf
  rw [reaches_parse Pp Dp F Vp p0 mem0 p mem index position hr 0 (by rw [h1]; omega),
    parse_loop_end Pp Dp F Vp 0 p mem index position (by rw [h1]; exact hend)]
  have hklt : k < p0.m_positionals.length := (List.getElem?_eq_some_iff.mp hptr).1
  -- the positionals before `k` are skipped
  have hsplit : p.m_positionals = p0.m_positionals.take k ++ ptr :: p0.m_positionals.drop (k + 1) := by
    rw [h2]
    have hget : p0.m_positionals[k] = ptr := (List.getElem?_eq_some_iff.mp hptr).2
    rw [← hget, ← List.drop_eq_getElem_cons hklt, List.take_append_drop]
  have hskip : ∀ q ∈ p0.m_positionals.take k,
      ∃ a, p.heap[q]? = some a ∧ (a.m_required && !a.m_provided) = false := by
    intro q hq
    obtain ⟨j, hj⟩ := List.mem_iff_getElem?.mp hq
    have hjk : j < k := by
      have := (List.getElem?_eq_some_iff.mp hj).1
      simp only [List.length_take] at this
      omega
    have hj0 : p0.m_positionals[j]? = some q := by
      rw [List.getElem?_take_of_lt hjk] at hj
      exact hj
    have hqlt : q < p0.heap.length := hwf.2.1 q (List.getElem?_mem hj0)
    obtain ⟨b0, hb0⟩ : ∃ b0, p0.heap[q]? = some b0 :=
      ⟨p0.heap[q], List.getElem?_eq_getElem hqlt⟩
    obtain ⟨b, hb, _, _, _, hbreq, _⟩ :=
      reaches_heap Pp Dp F Vp p0 mem0 p mem index position hr q b0 hb0
    refine ⟨b, hb, ?_⟩
    by_cases hjp : j < position
    · have := (hinv j q b (by rw [h2]; exact hj0) hb).mpr hjp
      simp [this]
    · have := hfirst j q b0 (by omega) hjk hj0 hb0
      simp [hbreq, this]
  obtain ⟨a, hpa, _, hnames, _, hareq, _⟩ :=
    reaches_heap Pp Dp F Vp p0 mem0 p mem index position hr ptr a0 ha
  have hprov : a.m_provided = false := by
    have := hinv k ptr a (by rw [h2]; exact hptr) hpa
    cases hp : a.m_provided with
    | false => rfl
    | true => have := this.mp hp; omega
  have hname' : a.name = some name := by
    simp only [argument.name, hnames]; exact hname
  unfold parser.m_check_required
  rw [hsplit, sweep_positionals_skip p _ _ hskip]
  simp [parser.m_check_required_positionals, hpa, hareq, hreq, hprov, hname']

/-- C6 witness: tokens `[prog]` with the required positional `input` give
`missing required positional: input`. -/
theorem missing_required_positional_witness :
    ∃ name,
      argument.name
        { m_type := .path, m_names := ["input"], m_bind := ⟨.path, 1, "input"⟩,
          m_required := true } = some name
      ∧ parser.parse default_prefix_policy default_delim_policy no_double
          (default_value_parser_parse no_double) (test_positional_engine ["prog"]) test_store
        = some (some ("missing required positional: " ++ name),
            test_positional_engine ["prog"], test_store) :=
  missing_required_positional default_prefix_policy default_delim_policy no_double
    (default_value_parser_parse no_double) (test_positional_engine ["prog"]) test_store
    (test_positional_engine ["prog"]) test_store 1 0 0 0
    { m_type := .path, m_names := ["input"], m_bind := ⟨.path, 1, "input"⟩,
      m_required := true }
    (by decide) (by decide) parser.Reaches.start (by decide) (by decide) (by decide)
    (by decide) (by decide) (fun j _ _ h1 h2 _ _ => absurd h2 (by omega))

/-- C6 (as stated) fails: the tokens `[prog, --nope]` supply no token for the required
positional `input`, yet `parse` returns `unknown option: --nope`, the error of the first
offending token, and not a missing-required-positional failure. -/
theorem missing_positional_behind_earlier_error :
    parser.parse_result default_prefix_policy default_delim_policy no_double
        (default_value_parser_parse no_double) (test_positional_engine ["prog", "--nope"])
        test_store = some (some "unknown option: --nope")
    ∧ ((test_positional_engine ["prog", "--nope"]).heap[0]?).map
        (fun a => (a.m_names, a.m_required)) = some (["input"], true)
    ∧ (test_positional_engine ["prog", "--nope"]).m_positionals = [0] := by
  decide

/-- C7 (amended): a required option that no token matched yields a missing-required-option
failure when the walk finishes without error and no required positional is missing.  On a
fresh, well-formed engine, if the walk of `parse` passes the last token without an error, every
positional that received no token is not required, and the record `r` is a registered option,
is marked required, and is not what any token after the program name resolves to (as a whole
token or by its name part), then `parse` returns `missing required option: <name>` with the
canonical name of a required option that was not provided (the one that the map iteration
meets first), and leaves engine and store as the walk left them. -/
theorem missing_required_option (Pp : prefix_policy) (Dp : delim_policy)
    (F : double_lib) (Vp : value_decoder) (p0 : parser) (mem0 : Store) (p : parser)
    (mem : Store) (index position : Nat) (key : String) (r : Nat) (a0 : argument)
    (hwf : p0.wf) (hfresh : p0.fresh)
    (hr : parser.Reaches Pp Dp F Vp p0 mem0 p mem index position)
    (hend : p0.m_argv.length ≤ index)
    (hpos : ∀ j ptr1 a1, position ≤ j → p0.m_positionals[j]? = some ptr1 →
      p0.heap[ptr1]? = some a1 → a1.m_required = false)
    (hkey : (key, r) ∈ p0.m_options)
    (ha : p0.heap[r]? = some a0)
    (hreq : a0.m_required = true)
    (hno : ∀ tok ∈ p0.m_argv.tail, map_find p0.m_options tok ≠ some r
      ∧ map_find p0.m_options (parser.long_opt_split Dp tok).1 ≠ some r) :
    ∃ e a name, e ∈ p0.m_options ∧ p.heap[e.2]? = some a ∧ a.m_required = true
      ∧ a.m_provided = false ∧ a.name = some name
      ∧ parser.parse Pp Dp F Vp p0 mem0
          = some (some ("missing required option: " ++ name), p, mem) := by
  obtain ⟨h1, h2, h3, h4, _⟩ := reaches_frame Pp Dp F Vp p0 mem0 p mem index position hr
  have hinv := reaches_positionals Pp Dp F Vp p0 mem0 p mem index position hr hwf hfresh
  have hpwf := reaches_wf Pp Dp F Vp p0 mem0 p mem index position hr hwf
  have hnp : r ∉ p0.m_positionals := hwf.2.2.2.2 (key, r) hkey
  obtain ⟨a, hpa, hprov⟩ := reaches_unmatched Pp Dp F Vp p0 mem0 p mem index position hr r a0
    ha (hfresh a0 (List.getElem?_mem ha)) hnp hno
  obtain ⟨a', hpa', _, _, _, hareq, _⟩ :=
    reaches_heap Pp Dp F Vp p0 mem0 p mem index position hr r a0 ha
  rw [hpa] at hpa'
  simp only [Option.some.injEq] at hpa'
  subst hpa'
  -- the positional sweep passes
  have hskip : ∀ q ∈ p.m_positionals,
      ∃ b, p.heap[q]? = some b ∧ (b.m_required && !b.m_provided) = false := by
    intro q hq
    rw [h2] at hq
    obtain ⟨j, hj0⟩ := List.mem_iff_getElem?.mp hq
    have hqlt : q < p0.heap.length := hwf.2.1 q hq
    obtain ⟨b0, hb0⟩ : ∃ b0, p0.heap[q]? = some b0 :=
      ⟨p0.heap[q], List.getElem?_eq_getElem hqlt⟩
    obtain ⟨b, hb, _, _, _, hbreq, _⟩ :=
      reaches_heap Pp Dp F Vp p0 mem0 p mem index position hr q b0 hb0
    refine ⟨b, hb, ?_⟩
    by_cases hjp : j < position
    · have := (hinv j q b (by rw [h2]; exact hj0) hb).mpr hjp
      simp [this]
    · have := hpos j q b0 (by omega) hj0 hb0
      simp [hbreq, this]
  have hsweep : p.m_check_required_positionals p.m_positionals = some none := by
    have := sweep_positionals_skip p p.m_positionals [] hskip
    rw [List.append_nil] at this
    rw [this]; rfl
  obtain ⟨e, b, name, he, hb, hbr, hbp, hbn, hres⟩ := sweep_options_some p p.m_options
    (by
      intro e he
      have hlt : e.2 < p.heap.length := hpwf.2.2.1 e he
      exact ⟨p.heap[e.2], List.getElem?_eq_getElem hlt,
        (hpwf.1 _ (List.getElem_mem _)).2⟩)
    ⟨(key, r), by rw [h3]; exact hkey, a, hpa, by rw [hareq]; exact hreq, hprov⟩
  refine ⟨e, b, name, by rw [← h3]; exact he, hb, hbr, hbp, hbn, ?_⟩
  rw [reaches_parse Pp Dp F Vp p0 mem0 p mem index position hr 0 (by rw [h1]; omega),
    parse_loop_end Pp Dp F Vp 0 p mem index position (by rw [h1]; exact hend)]
  unfold parser.m_check_required
  rw [hsweep]
  simp only [hres, Option.map_some']

/-- C7 witness: tokens `[prog, input]` with the required positional `input` and the required
option `--output` or `-o` give a missing-required-option failure naming a required option that
was not provided. -/
theorem missing_required_option_witness :
    ∃ e a name, e ∈ (test_required_engine ["prog", "input"]).m_options
      ∧ ((test_required_engine ["prog", "input"]).set_provided 0).heap[e.2]? = some a
      ∧ a.m_required = true ∧ a.m_provided = false ∧ a.name = some name
      ∧ parser.parse default_prefix_policy default_delim_policy no_double
          (default_value_parser_parse no_double) (test_required_engine ["prog", "input"])
          test_store
        = some (some ("missing required option: " ++ name),
            (test_required_engine ["prog", "input"]).set_provided 0,
            test_store.write 1 (.path ⟨"input"⟩)) :=
  missing_required_option default_prefix_policy default_delim_policy no_double
    (default_value_parser_parse no_double) (test_required_engine ["prog", "input"]) test_store
    ((test_required_engine ["prog", "input"]).set_provided 0)
    (test_store.write 1 (.path ⟨"input"⟩)) 2 1 "--output" 1
    { m_type := .path, m_names := ["--output", "-o"], m_bind := ⟨.path, 2, "--output"⟩,
      m_required := true }
    (by decide) (by decide)
    (@parser.Reaches.step default_prefix_policy default_delim_policy no_double
      (default_value_parser_parse no_double) (test_required_engine ["prog", "input"])
      test_store (test_required_engine ["prog", "input"]) test_store 1 0 "input"
      ((test_required_engine ["prog", "input"]).set_provided 0)
      (test_store.write 1 (.path ⟨"input"⟩)) 1 1 parser.Reaches.start (by decide) rfl)
    (by decide)
    (fun j ptr1 a1 h1 h2 _ => by
      have hp : (test_required_engine ["prog", "input"]).m_positionals = [0] := by decide
      rw [hp] at h2
      cases j with
      | zero => omega
      | succ j => simp at h2)
    (by decide) (by decide) (by decide) (by decide)

/-- C7 (as stated) fails: in `[prog]` none of the names of the required option `--output` or
`-o` occurs, yet `parse` returns `missing required positional: input`: the positional sweep
runs first. -/
theorem missing_option_behind_missing_positional :
    parser.parse_result default_prefix_policy default_delim_policy no_double
        (default_value_parser_parse no_double) (test_required_engine ["prog"])
        test_store = some (some "missing required positional: input")
    ∧ (test_required_engine ["prog"]).m_options = [("--output", 1), ("-o", 1)]
    ∧ ((test_required_engine ["prog"]).heap[1]?).map (fun a => a.m_required) = some true := by
  decide

/-! ## Well-formed token streams -/

theorem mark_all_cons (p : parser) (w : Nat × value) (ws : List (Nat × value)) :
    p.mark_all (w :: ws) = (p.set_provided w.1).mark_all ws := rfl

theorem apply_binds_cons (p : parser) (w : Nat × value) (ws : List (Nat × value))
    (mem : Store) (a : argument) (ha : p.heap[w.1]? = some a) :
    p.apply_binds (w :: ws) mem = p.apply_binds ws (mem.write a.m_bind.bind w.2) := by
  simp [parser.apply_binds, ha]

/-- The heap after marking: the records named in `ws` are provided, the others are as before. -/
theorem mark_all_heap (ws : List (Nat × value)) : ∀ (p : parser) (q : Nat),
    (p.mark_all ws).heap[q]?
      = (p.heap[q]?).map
          (fun a => if q ∈ ws.map Prod.fst then { a with m_provided := true } else a) := by
  induction ws with
  | nil => intro p q; simp [parser.mark_all]
  | cons w ws ih =>
    intro p q
    rw [mark_all_cons, ih]
    by_cases hq : w.1 = q
    · subst hq
      rw [set_provided_heap_eq]
      cases p.heap[w.1]? with
      | none => rfl
      | some a =>
        by_cases hm : w.1 ∈ ws.map Prod.fst
        · simp [hm]
        · simp [hm]
    · rw [set_provided_heap_ne _ _ _ hq]
      have hiff : (q ∈ (w :: ws).map Prod.fst) ↔ (q ∈ ws.map Prod.fst) := by
        simp only [List.map_cons, List.mem_cons]
        constructor
        · rintro (h | h)
          · exact absurd h.symm hq
          · exact h
        · exact Or.inr
      cases p.heap[q]? with
      | none => rfl
      | some a =>
        by_cases hm : q ∈ ws.map Prod.fst
        · have := hiff.mpr hm
          simp only [Option.map_some', hm, this, if_true]
        · have : ¬ (q ∈ (w :: ws).map Prod.fst) := fun h => hm (hiff.mp h)
          simp only [Option.map_some', hm, this, if_false]

theorem drop_cons_getElem? {α : Type} (l : List α) (i : Nat) (x : α) (rest : List α)
    (h : l.drop i = x :: rest) : l[i]? = some x ∧ l.drop (i + 1) = rest := by
  constructor
  · have := List.getElem?_drop l i 0
    rw [h] at this
    simpa using this.symm
  · have := List.tail_drop l i
    rw [h] at this
    simpa using this.symm

/-- A well-formed token stream drives the walk to the end of the tokens, marking and writing
what the stream binds. -/
theorem accepts_reaches (Pp : prefix_policy) (Dp : delim_policy) (F : double_lib)
    (p0 : parser) (mem0 : Store) (hwf : p0.wf) (toks : List String) (position : Nat)
    (ws : List (Nat × value)) (hacc : parser.Accepts Pp Dp F p0 toks position ws) :
    ∀ (p : parser) (mem : Store) (index : Nat),
      parser.Reaches Pp Dp F (default_value_parser_parse F) p0 mem0 p mem index position →
      p0.m_argv.drop index = toks →
      ∃ index1 position1, p0.m_argv.length ≤ index1
        ∧ parser.Reaches Pp Dp F (default_value_parser_parse F) p0 mem0 (p.mark_all ws)
            (p0.apply_binds ws mem) index1 position1 := by
  induction hacc with
  | done position =>
    intro p mem index hr hd
    exact ⟨index, position, List.drop_eq_nil_iff.mp hd, hr⟩
  | @long_value token rest position it a val ws hl hf ha hv _ ih =>
    intro p mem index hr hd
    obtain ⟨h1, h2, h3, _, _⟩ := reaches_frame Pp Dp F _ p0 mem0 p mem index position hr
    obtain ⟨ht, hrest⟩ := drop_cons_getElem? _ _ _ _ hd
    obtain ⟨a', hpa, hty, _, hbind, _, _⟩ :=
      reaches_heap Pp Dp F _ p0 mem0 p mem index position hr it a ha
    have hT := (hwf.1 a (List.getElem?_mem ha)).1
    have hd1 := dispatch_long_value Pp Dp F (default_value_parser_parse F) p mem token index
      position it a' val hl (by rw [h3]; exact hf) hpa (by rw [hty]; exact hv)
      (by rw [hbind, hty]; exact hT) (by rw [hty]; exact default_parse_type F _ _ _ hv)
    have hstep := parser.Reaches.step hr (by rw [h1]; exact ht) hd1
    rw [mark_all_cons, apply_binds_cons p0 (it, val) ws mem a ha, ← hbind]
    exact ih _ _ _ hstep hrest
  | @long_flag token rest position it a ws hl hdel hf ha hb _ ih =>
    intro p mem index hr hd
    obtain ⟨h1, h2, h3, _, _⟩ := reaches_frame Pp Dp F _ p0 mem0 p mem index position hr
    obtain ⟨ht, hrest⟩ := drop_cons_getElem? _ _ _ _ hd
    obtain ⟨a', hpa, hty, _, hbind, _, _⟩ :=
      reaches_heap Pp Dp F _ p0 mem0 p mem index position hr it a ha
    have hT := (hwf.1 a (List.getElem?_mem ha)).1
    have hsplit : parser.long_opt_split Dp token = (token, "") := by
      simp [parser.long_opt_split, hdel]
    have hdec : default_value_parser_parse F "" .bool = some (.error "bad value (boolean)") :=
      rfl
    have hd1 := dispatch_long_flag Pp Dp F (default_value_parser_parse F) p mem token index
      position it a' "bad value (boolean)" hl (by rw [hsplit, h3]; exact hf) hpa
      (by rw [hty]; exact hb) (by rw [hsplit]; exact hdec) (by rw [hbind, hty]; exact hT)
    have hstep := parser.Reaches.step hr (by rw [h1]; exact ht) hd1
    rw [mark_all_cons, apply_binds_cons p0 (it, .bool true) ws mem a ha, ← hbind]
    exact ih _ _ _ hstep hrest
  | @short_flag token rest position it a ws hl hs hf ha hb _ ih =>
    intro p mem index hr hd
    obtain ⟨h1, h2, h3, _, _⟩ := reaches_frame Pp Dp F _ p0 mem0 p mem index position hr
    obtain ⟨ht, hrest⟩ := drop_cons_getElem? _ _ _ _ hd
    obtain ⟨a', hpa, hty, _, hbind, _, _⟩ :=
      reaches_heap Pp Dp F _ p0 mem0 p mem index position hr it a ha
    have hT := (hwf.1 a (List.getElem?_mem ha)).1
    have hd1 := dispatch_short_flag Pp Dp F (default_value_parser_parse F) p mem token index
      position it a' hl hs (by rw [h3]; exact hf) hpa
      (by rw [hty]; exact hb) (by rw [hbind, hty]; exact hT)
    have hstep := parser.Reaches.step hr (by rw [h1]; exact ht) hd1
    rw [mark_all_cons, apply_binds_cons p0 (it, .bool true) ws mem a ha, ← hbind]
    exact ih _ _ _ hstep hrest
  | @short_value token next rest position it a val ws hl hs hf ha hb hv _ ih =>
    intro p mem index hr hd
    obtain ⟨h1, h2, h3, _, _⟩ := reaches_frame Pp Dp F _ p0 mem0 p mem index position hr
    obtain ⟨ht, hrest⟩ := drop_cons_getElem? _ _ _ _ hd
    obtain ⟨hn, hrest2⟩ := drop_cons_getElem? _ _ _ _ hrest
    obtain ⟨a', hpa, hty, _, hbind, _, _⟩ :=
      reaches_heap Pp Dp F _ p0 mem0 p mem index position hr it a ha
    have hT := (hwf.1 a (List.getElem?_mem ha)).1
    have hd1 := dispatch_short_value Pp Dp F (default_value_parser_parse F) p mem token next
      index position it a' val hl hs (by rw [h3]; exact hf) hpa (by rw [hty]; exact hb)
      (by rw [h1]; exact hn) (by rw [hty]; exact hv)
      (by rw [hbind, hty]; exact hT) (by rw [hty]; exact default_parse_type F _ _ _ hv)
    have hstep := parser.Reaches.step hr (by rw [h1]; exact ht) hd1
    rw [mark_all_cons, apply_binds_cons p0 (it, val) ws mem a ha, ← hbind]
    exact ih _ _ _ hstep hrest2
  | @positional token rest position ptr a val ws hl hs hq ha hv _ ih =>
    intro p mem index hr hd
    obtain ⟨h1, h2, h3, _, _⟩ := reaches_frame Pp Dp F _ p0 mem0 p mem index position hr
    obtain ⟨ht, hrest⟩ := drop_cons_getElem? _ _ _ _ hd
    obtain ⟨a', hpa, hty, _, hbind, _, _⟩ :=
      reaches_heap Pp Dp F _ p0 mem0 p mem index position hr ptr a ha
    have hT := (hwf.1 a (List.getElem?_mem ha)).1
    have hd1 := dispatch_positional Pp Dp F (default_value_parser_parse F) p mem token index
      position ptr a' val hl hs (by rw [h2]; exact hq) hpa (by rw [hty]; exact hv)
      (by rw [hbind, hty]; exact hT) (by rw [hty]; exact default_parse_type F _ _ _ hv)
    have hstep := parser.Reaches.step hr (by rw [h1]; exact ht) hd1
    rw [mark_all_cons, apply_binds_cons p0 (ptr, val) ws mem a ha, ← hbind]
    exact ih _ _ _ hstep hrest

/-- C1 (amended): on a well-formed token stream `parse` succeeds and binds every decoded value.
For a well-formed engine and the default decoder, if the tokens after the program name form a
stream in which every option token names a registered option, every value text decodes against
the type of its argument, every value-taking short option is followed by a token, and no
positional token comes after the registered positionals are used up, and if every required
record is bound by some token, then `parse` returns no error, has marked the bound records
provided, and the store is the initial store with every decoded value written, in token order,
to the variable of the argument that the token supplied. -/
theorem parse_succeeds_on_accepted_stream (Pp : prefix_policy) (Dp : delim_policy)
    (F : double_lib) (p0 : parser) (mem0 : Store) (ws : List (Nat × value))
    (hwf : p0.wf)
    (hacc : parser.Accepts Pp Dp F p0 p0.m_argv.tail 0 ws)
    (hreq : ∀ ptr a, p0.heap[ptr]? = some a → a.m_required = true → ptr ∈ ws.map Prod.fst) :
    parser.parse Pp Dp F (default_value_parser_parse F) p0 mem0
      = some (none, p0.mark_all ws, p0.apply_binds ws mem0) := by
  obtain ⟨index1, position1, hend, hr⟩ := accepts_reaches Pp Dp F p0 mem0 hwf _ _ _ hacc
    p0 mem0 1 parser.Reaches.start (by simp)
  obtain ⟨h1, h2, h3, _, _⟩ := reaches_frame Pp Dp F _ p0 mem0 _ _ _ _ hr
  have hok : ∀ q, q < p0.heap.length →
      ∃ b, (p0.mark_all ws).heap[q]? = some b ∧ (b.m_required && !b.m_provided) = false := by
    intro q hq
    have hq0 : p0.heap[q]? = some p0.heap[q] := List.getElem?_eq_getElem hq
    rw [mark_all_heap, hq0]
    by_cases hrq : p0.heap[q].m_required = true
    · have := hreq q _ hq0 hrq
      exact ⟨_, rfl, by simp [this]⟩
    · have hrq' : p0.heap[q].m_required = false := by simpa using hrq
      by_cases hm : q ∈ ws.map Prod.fst
      · exact ⟨_, rfl, by simp [hm, hrq']⟩
      · exact ⟨_, rfl, by simp [hm, hrq']⟩
  have hsweep1 : (p0.mark_all ws).m_check_required_positionals (p0.mark_all ws).m_positionals
      = some none := by
    have := sweep_positionals_skip (p0.mark_all ws) (p0.mark_all ws).m_positionals []
      (fun q hq => hok q (hwf.2.1 q (by rw [← h2]; exact hq)))
    rw [List.append_nil] at this
    rw [this]; rfl
  have hsweep2 : (p0.mark_all ws).m_check_required_options (p0.mark_all ws).m_options
      = some none :=
    sweep_options_none _ _ (fun e he => hok e.2 (hwf.2.2.1 e (by rw [← h3]; exact he)))
  rw [reaches_parse Pp Dp F _ p0 mem0 _ _ _ _ hr 0 (by rw [h1]; omega),
    parse_loop_end Pp Dp F _ 0 _ _ _ _ (by rw [h1]; exact hend)]
  simp [parser.m_check_required, hsweep1, hsweep2]

/-- C1 witness: tokens `[prog, --do-thing, src/in, -o, dst/out]` with the required positional
`input`, the required path option `--output` or `-o` and the boolean option `--do-thing` or
`-do` give no error; afterwards `do_thing` (address 0) is `true`, `input` (address 1) is
`src/in` and `output` (address 2) is `dst/out`. -/
theorem parse_succeeds_on_accepted_stream_witness :
    parser.parse default_prefix_policy default_delim_policy no_double
        (default_value_parser_parse no_double)
        (test_full_engine ["prog", "--do-thing", "src/in", "-o", "dst/out"]) test_store
      = some (none,
          (test_full_engine ["prog", "--do-thing", "src/in", "-o", "dst/out"]).mark_all
            [(2, .bool true), (0, .path ⟨"src/in"⟩), (1, .path ⟨"dst/out"⟩)],
          (test_full_engine ["prog", "--do-thing", "src/in", "-o", "dst/out"]).apply_binds
            [(2, .bool true), (0, .path ⟨"src/in"⟩), (1, .path ⟨"dst/out"⟩)] test_store)
    ∧ (test_full_engine ["prog", "--do-thing", "src/in", "-o", "dst/out"]).apply_binds
        [(2, .bool true), (0, .path ⟨"src/in"⟩), (1, .path ⟨"dst/out"⟩)] test_store 0
        = .bool true
    ∧ (test_full_engine ["prog", "--do-thing", "src/in", "-o", "dst/out"]).apply_binds
        [(2, .bool true), (0, .path ⟨"src/in"⟩), (1, .path ⟨"dst/out"⟩)] test_store 1
        = .path ⟨"src/in"⟩
    ∧ (test_full_engine ["prog", "--do-thing", "src/in", "-o", "dst/out"]).apply_binds
        [(2, .bool true), (0, .path ⟨"src/in"⟩), (1, .path ⟨"dst/out"⟩)] test_store 2
        = .path ⟨"dst/out"⟩ :=
  ⟨parse_succeeds_on_accepted_stream default_prefix_policy default_delim_policy no_double
      (test_full_engine ["prog", "--do-thing", "src/in", "-o", "dst/out"]) test_store
      [(2, .bool true), (0, .path ⟨"src/in"⟩), (1, .path ⟨"dst/out"⟩)]
      (by decide)
      (parser.Accepts.long_flag (a := test_flag_record)
          (by decide) (by decide) (by decide) (by decide) (by decide)
        (parser.Accepts.positional (a := test_input_record)
            (by decide) (by decide) (by decide) (by decide) (by decide)
          (parser.Accepts.short_value (a := test_output_record)
              (by decide) (by decide) (by decide) (by decide) (by decide) (by decide)
            (parser.Accepts.done 1))))
      (by
        intro ptr a ha hr
        have hh : (test_full_engine ["prog", "--do-thing", "src/in", "-o", "dst/out"]).heap
            = [test_input_record, test_output_record, test_flag_record] := by decide
        rw [hh] at ha
        match ptr, ha with
        | 0, _ => decide
        | 1, _ => decide
        | 2, _ => decide
        | n + 3, ha => simp at ha),
    by decide, by decide, by decide⟩

/-- C1 (as stated) fails: the tokens `[prog, a, b]` hold no option name, no malformed value (a
path accepts every text) and supply the only required argument, the positional `input`, yet
`parse` returns `unexpected positional argument #1`. -/
theorem surplus_positional_is_an_error :
    parser.parse_result default_prefix_policy default_delim_policy no_double
        (default_value_parser_parse no_double) (test_positional_engine ["prog", "a", "b"])
        test_store = some (some "unexpected positional argument #1")
    ∧ starts_with "a" default_prefix_policy.short_prefix = false
    ∧ starts_with "b" default_prefix_policy.short_prefix = false
    ∧ default_value_parser_parse no_double "a" .path = some (.ok (.path ⟨"a"⟩))
    ∧ default_value_parser_parse no_double "b" .path = some (.ok (.path ⟨"b"⟩))
    ∧ (test_positional_engine ["prog", "a", "b"]).m_positionals = [0]
    ∧ (test_positional_engine ["prog", "a", "b"]).heap.length = 1 := by
  decide

theorem string_isEmpty_iff (s : String) : s.data.isEmpty = true ↔ s = "" := by
  constructor
  · intro h
    have : s.data = [] := by simpa [List.isEmpty_iff] using h
    cases s
    simp only at this
    subst this
    rfl
  · intro h; subst h; rfl

theorem map_find_assign_self (m : List (String × Nat)) (key : String) (v : Nat) :
    map_find (map_assign m key v) key = some v := by
  induction m with
  | nil => simp [map_assign, map_find]
  | cons e m ih =>
    obtain ⟨k, w⟩ := e
    by_cases hk : k = key
    · simp [map_assign, map_find, hk]
    · simp [map_assign, map_find, hk, ih]

theorem map_find_assign_ne (m : List (String × Nat)) (key k : String) (v : Nat)
    (h : key ≠ k) : map_find (map_assign m k v) key = map_find m key := by
  induction m with
  | nil => simp [map_assign, map_find, Ne.symm h]
  | cons e m ih =>
    obtain ⟨k', w⟩ := e
    by_cases hk : k' = k
    · subst hk
      simp [map_assign, map_find, Ne.symm h]
    · by_cases hk2 : k' = key
      · subst hk2
        simp [map_assign, map_find, h]
      · simp [map_assign, map_find, hk, hk2, ih]

/-- The closed form of `option`: the three `require` calls in order, then the new record and
the table with the given names assigned to it. -/
theorem option_eq (Pp : prefix_policy) (p : parser) (names : detail.option_names)
    (T : type_info) (addr : Nat) :
    parser.option Pp p names T addr
      = if names.one_defined = false then
          .error "argvx::panic() called: option must have at least one name"
        else if names.long_name.data.isEmpty = false
            ∧ starts_with names.long_name Pp.long_prefix = false then
          .error "argvx::panic() called: long option name must start with long prefix"
        else if names.short_name.data.isEmpty = false
            ∧ starts_with names.short_name Pp.short_prefix = false then
          .error "argvx::panic() called: short option name must start with short prefix"
        else
          .ok ({ p with
                  heap := p.heap ++ [{ m_type := T, m_names := names.list,
                                       m_bind := ⟨T, addr, names.list.headD ""⟩ }],
                  m_options := names.register p.m_options p.heap.length },
                p.heap.length) := by
  unfold parser.option detail.require detail.option_names.list detail.option_names.register
  cases h0 : names.one_defined <;> cases hl : names.long_name.data.isEmpty <;>
    cases hs : names.short_name.data.isEmpty <;>
    cases hlp : starts_with names.long_name Pp.long_prefix <;>
    cases hsp : starts_with names.short_name Pp.short_prefix <;>
    simp [Bind.bind, Except.bind, pure, Except.pure, h0, hl, hs, hlp, hsp]

theorem option_names_accept_iff (Pp : prefix_policy) (n : detail.option_names) :
    n.well_formed Pp ↔
      (n.one_defined = true
        ∧ ¬ (n.long_name.data.isEmpty = false ∧ starts_with n.long_name Pp.long_prefix = false)
        ∧ ¬ (n.short_name.data.isEmpty = false
              ∧ starts_with n.short_name Pp.short_prefix = false)) := by
  have hl := string_isEmpty_iff n.long_name
  have hs := string_isEmpty_iff n.short_name
  unfold detail.option_names.well_formed detail.option_names.one_defined
  cases h1 : n.long_name.data.isEmpty <;> cases h2 : n.short_name.data.isEmpty <;>
    cases h3 : starts_with n.long_name Pp.long_prefix <;>
    cases h4 : starts_with n.short_name Pp.short_prefix <;>
    simp [h1, h2] at hl hs <;> simp [hl, hs]

/-- C13: option registration is accepted exactly when it is well formed.  `option` returns an
engine iff at least one name is given, a given long name starts with the long prefix and a
given short name starts with the short prefix; otherwise it panics (the process aborts, so no
table is touched: the three `require` calls come before any change).  On success the pointer is
the one new record, appended to the heap with the type and variable given; every given name is
looked up to that record, every other key is looked up as before, the token vector and the
positional list are unchanged, and the canonical name of the record is the long name if given,
else the short name. -/
theorem option_registration (Pp : prefix_policy) (p : parser) (names : detail.option_names)
    (T : type_info) (addr : Nat) :
    ((∃ r, parser.option Pp p names T addr = .ok r) ↔ names.well_formed Pp)
    ∧ (¬ names.well_formed Pp →
        ∃ msg, parser.option Pp p names T addr = .error ("argvx::panic() called: " ++ msg))
    ∧ (∀ p1 ptr, parser.option Pp p names T addr = .ok (p1, ptr) →
        ptr = p.heap.length ∧ p1.m_argv = p.m_argv ∧ p1.m_positionals = p.m_positionals
        ∧ (∃ a, p1.heap = p.heap ++ [a] ∧ a.m_type = T ∧ a.m_bind.T = T ∧ a.m_bind.bind = addr
            ∧ a.m_provided = false ∧ a.m_required = false
            ∧ a.name = some (if names.long_name ≠ "" then names.long_name
                              else names.short_name))
        ∧ (names.long_name ≠ "" → map_find p1.m_options names.long_name = some ptr)
        ∧ (names.short_name ≠ "" → map_find p1.m_options names.short_name = some ptr)
        ∧ (∀ key, key ≠ names.long_name → key ≠ names.short_name →
            map_find p1.m_options key = map_find p.m_options key)) := by
  have hiff := option_names_accept_iff Pp names
  have heq := option_eq Pp p names T addr
  have hl := string_isEmpty_iff names.long_name
  have hs := string_isEmpty_iff names.short_name
  refine ⟨?_, ?_, ?_⟩
  · constructor
    · rintro ⟨r, hr⟩
      rw [hiff]
      rw [heq] at hr
      split_ifs at hr with h1 h2 h3
      exact ⟨by simpa using h1, h2, h3⟩
    · intro hwf
      obtain ⟨h1, h2, h3⟩ := hiff.mp hwf
      rw [heq, if_neg (by simp [h1]), if_neg h2, if_neg h3]
      exact ⟨_, rfl⟩
  · intro hwf
    rw [heq]
    split_ifs with h1 h2 h3
    · exact ⟨_, rfl⟩
    · exact ⟨_, rfl⟩
    · exact ⟨_, rfl⟩
    · exact absurd (hiff.mpr ⟨by simpa using h1, h2, h3⟩) hwf
  · intro p1 ptr hok
    rw [heq] at hok
    split_ifs at hok with h1 h2 h3
    simp only [Except.ok.injEq, Prod.mk.injEq] at hok
    obtain ⟨hp1, hptr⟩ := hok
    subst hp1
    subst hptr
    have h1' : names.one_defined = true := by simpa using h1
    refine ⟨rfl, rfl, rfl, ⟨_, rfl, rfl, rfl, rfl, rfl, rfl, ?_⟩, ?_, ?_, ?_⟩
    · -- the canonical name
      simp only [argument.name, detail.option_names.list]
      cases hle : names.long_name.data.isEmpty with
      | true =>
        have : names.long_name = "" := hl.mp hle
        cases hse : names.short_name.data.isEmpty with
        | true =>
          simp [detail.option_names.one_defined, hle, hse] at h1'
        | false => simp [this]
      | false =>
        have : names.long_name ≠ "" := fun h => by
          rw [hl.mpr h] at hle; exact absurd hle (by decide)
        simp [this]
    · intro hne
      have hle : names.long_name.data.isEmpty = false := by
        cases hle : names.long_name.data.isEmpty with
        | true => exact absurd (hl.mp hle) hne
        | false => rfl
      simp only [detail.option_names.register, hle]
      cases hse : names.short_name.data.isEmpty with
      | true => simp [map_find_assign_self]
      | false =>
        by_cases hsame : names.long_name = names.short_name
        · rw [hsame]; simp [map_find_assign_self]
        · simp only [Bool.false_eq_true, if_false]
          rw [map_find_assign_ne _ _ _ _ hsame, map_find_assign_self]
    · intro hne
      have hse : names.short_name.data.isEmpty = false := by
        cases hse : names.short_name.data.isEmpty with
        | true => exact absurd (hs.mp hse) hne
        | false => rfl
      simp [detail.option_names.register, hse, map_find_assign_self]
    · intro key hk1 hk2
      simp only [detail.option_names.register]
      cases hle : names.long_name.data.isEmpty <;>
        cases hse : names.short_name.data.isEmpty <;>
        simp [map_find_assign_ne _ _ _ _ hk1, map_find_assign_ne _ _ _ _ hk2]

/-- C13 witness: `option({"--output", "-o"}, out)` on the engine of `[prog]` is accepted and
returns the record 0, under which both names are looked up. -/
theorem option_registration_witness :
    parser.option default_prefix_policy (parser.new ["prog"]) ⟨"--output", "-o"⟩ .path 2
      = .ok (test_output_engine, 0)
    ∧ (0 = (parser.new ["prog"]).heap.length
        ∧ test_output_engine.m_argv = (parser.new ["prog"]).m_argv
        ∧ test_output_engine.m_positionals = (parser.new ["prog"]).m_positionals
        ∧ (∃ a, test_output_engine.heap = (parser.new ["prog"]).heap ++ [a]
            ∧ a.m_type = .path ∧ a.m_bind.T = .path ∧ a.m_bind.bind = 2
            ∧ a.m_provided = false ∧ a.m_required = false
            ∧ a.name = some (if (⟨"--output", "-o"⟩ : detail.option_names).long_name ≠ ""
                then (⟨"--output", "-o"⟩ : detail.option_names).long_name
                else (⟨"--output", "-o"⟩ : detail.option_names).short_name))
        ∧ ((⟨"--output", "-o"⟩ : detail.option_names).long_name ≠ "" →
            map_find test_output_engine.m_options
              (⟨"--output", "-o"⟩ : detail.option_names).long_name = some 0)
        ∧ ((⟨"--output", "-o"⟩ : detail.option_names).short_name ≠ "" →
            map_find test_output_engine.m_options
              (⟨"--output", "-o"⟩ : detail.option_names).short_name = some 0)
        ∧ (∀ key, key ≠ (⟨"--output", "-o"⟩ : detail.option_names).long_name →
            key ≠ (⟨"--output", "-o"⟩ : detail.option_names).short_name →
            map_find test_output_engine.m_options key
              = map_find (parser.new ["prog"]).m_options key)) :=
  ⟨by decide,
    (option_registration default_prefix_policy (parser.new ["prog"]) ⟨"--output", "-o"⟩
      .path 2).2.2 test_output_engine 0 (by decide)⟩

theorem starts_with_of_substr_to (token pre : String) (d : Nat)
    (h : starts_with (substr_to token d) pre = true) : starts_with token pre = true := by
  unfold starts_with substr_to at *
  rw [List.isPrefixOf_iff_prefix] at *
  exact h.trans (List.take_prefix _ _)

/-- What the default decoder makes of a text for a `bool` target. -/
theorem default_parse_bool (F : double_lib) (v : String) :
    default_value_parser_parse F v .bool
      = if v = "true" ∨ v = "on" ∨ v = "yes" then some (.ok (.bool true))
        else if v = "false" ∨ v = "off" ∨ v = "no" then some (.ok (.bool false))
        else some (.error "bad value (boolean)") := by
  unfold default_value_parser_parse default_value_parser_parse_as_bool
  simp only [if_true]
  split_ifs <;> rfl

/-- C19: a boolean long option with an inline value never fails.  In a well-formed engine
state, for a token with an assignment delimiter whose name part (the text before the first
delimiter) starts with the long prefix and is registered with a `bool` record, the dispatch
reports no error, marks the record, leaves `index` and `position` alone (so the loop goes on
with the next token), and writes to the record's variable `false` when the value part is one
of `false`, `off`, `no`, and `true` for every other value part. -/
theorem boolean_long_option_inline_value (Pp : prefix_policy) (Dp : delim_policy)
    (F : double_lib) (p : parser) (mem : Store) (index position : Nat) (token : String)
    (d it : Nat) (opt : argument) (fuel : Nat)
    (hwf : p.wf)
    (ht : p.m_argv[index]? = some token)
    (hd : find token Dp.assign_delim = some d)
    (hl : starts_with (substr_to token d) Pp.long_prefix = true)
    (hf : map_find p.m_options (substr_to token d) = some it)
    (ho : p.heap[it]? = some opt)
    (hb : opt.m_type = .bool) :
    parser.dispatch Pp Dp F (default_value_parser_parse F) p mem token index position
        = some ((none, p.set_provided it,
            mem.write opt.m_bind.bind
              (.bool (!decide (substr_from token (d + 1) = "false"
                ∨ substr_from token (d + 1) = "off" ∨ substr_from token (d + 1) = "no")))),
            index, position)
    ∧ parser.parse_loop Pp Dp F (default_value_parser_parse F) (fuel + 1) p mem index position
        = parser.parse_loop Pp Dp F (default_value_parser_parse F) fuel (p.set_provided it)
            (mem.write opt.m_bind.bind
              (.bool (!decide (substr_from token (d + 1) = "false"
                ∨ substr_from token (d + 1) = "off" ∨ substr_from token (d + 1) = "no"))))
            (index + 1) position := by
  have hT := (hwf.1 opt (List.getElem?_mem ho)).1
  have hlong := starts_with_of_substr_to token _ d hl
  have hsplit : parser.long_opt_split Dp token
      = (substr_to token d, substr_from token (d + 1)) := by
    simp [parser.long_opt_split, hd]
  have hdisp : parser.dispatch Pp Dp F (default_value_parser_parse F) p mem token index
      position
        = some ((none, p.set_provided it,
            mem.write opt.m_bind.bind
              (.bool (!decide (substr_from token (d + 1) = "false"
                ∨ substr_from token (d + 1) = "off" ∨ substr_from token (d + 1) = "no")))),
            index, position) := by
    have hdec := default_parse_bool F (substr_from token (d + 1))
    by_cases h1 : substr_from token (d + 1) = "true" ∨ substr_from token (d + 1) = "on"
        ∨ substr_from token (d + 1) = "yes"
    · have hnot : ¬ (substr_from token (d + 1) = "false" ∨ substr_from token (d + 1) = "off"
          ∨ substr_from token (d + 1) = "no") := by
        rcases h1 with h | h | h <;> rw [h] <;> decide
      rw [if_pos h1] at hdec
      rw [decide_eq_false hnot]
      exact dispatch_long_value Pp Dp F _ p mem token index position it opt (.bool true)
        hlong (by rw [hsplit]; exact hf) ho (by rw [hsplit, hb]; exact hdec) hT
        (by rw [hb]; rfl)
    · rw [if_neg h1] at hdec
      by_cases h2 : substr_from token (d + 1) = "false" ∨ substr_from token (d + 1) = "off"
          ∨ substr_from token (d + 1) = "no"
      · rw [if_pos h2] at hdec
        rw [decide_eq_true h2]
        exact dispatch_long_value Pp Dp F _ p mem token index position it opt (.bool false)
          hlong (by rw [hsplit]; exact hf) ho (by rw [hsplit, hb]; exact hdec) hT
          (by rw [hb]; rfl)
      · rw [if_neg h2] at hdec
        rw [decide_eq_false h2]
        exact dispatch_long_flag Pp Dp F _ p mem token index position it opt
          "bad value (boolean)" hlong (by rw [hsplit]; exact hf) ho hb
          (by rw [hsplit]; exact hdec) hT
  exact ⟨hdisp,
    parse_loop_step Pp Dp F _ fuel p mem index position token _ _ index position ht hdisp⟩

/-- C19 witness: in `[prog, --do-thing=off, file, -o, out]` the token `--do-thing=off` writes
`false` to the flag at address 0; with `--do-thing=maybe` the flag ends as `true`. -/
theorem boolean_long_option_inline_value_witness :
    (parser.dispatch default_prefix_policy default_delim_policy no_double
        (default_value_parser_parse no_double)
        (test_full_engine ["prog", "--do-thing=off", "file", "-o", "out"]) test_true_store
        "--do-thing=off" 1 0
        = some ((none,
            (test_full_engine ["prog", "--do-thing=off", "file", "-o", "out"]).set_provided 2,
            test_true_store.write test_flag_record.m_bind.bind
              (.bool (!decide (substr_from "--do-thing=off" (10 + 1) = "false"
                ∨ substr_from "--do-thing=off" (10 + 1) = "off"
                ∨ substr_from "--do-thing=off" (10 + 1) = "no")))), 1, 0)
      ∧ parser.parse_loop default_prefix_policy default_delim_policy no_double
          (default_value_parser_parse no_double) (4 + 1)
          (test_full_engine ["prog", "--do-thing=off", "file", "-o", "out"]) test_true_store
          1 0
          = parser.parse_loop default_prefix_policy default_delim_policy no_double
              (default_value_parser_parse no_double) 4
              ((test_full_engine ["prog", "--do-thing=off", "file", "-o", "out"]).set_provided
                2)
              (test_true_store.write test_flag_record.m_bind.bind
                (.bool (!decide (substr_from "--do-thing=off" (10 + 1) = "false"
                  ∨ substr_from "--do-thing=off" (10 + 1) = "off"
                  ∨ substr_from "--do-thing=off" (10 + 1) = "no"))))
              (1 + 1) 0)
    ∧ parser.parse_var default_prefix_policy default_delim_policy no_double
        (default_value_parser_parse no_double)
        (test_full_engine ["prog", "--do-thing=off", "file", "-o", "out"]) test_true_store 0
        = some (.bool false)
    ∧ parser.parse_var default_prefix_policy default_delim_policy no_double
        (default_value_parser_parse no_double)
        (test_full_engine ["prog", "--do-thing=maybe", "file", "-o", "out"]) test_true_store 0
        = some (.bool true)
    ∧ parser.parse_var default_prefix_policy default_delim_policy no_double
        (default_value_parser_parse no_double)
        (test_full_engine ["prog", "--do-thing=", "file", "-o", "out"]) test_store 0
        = some (.bool true) :=
  ⟨boolean_long_option_inline_value default_prefix_policy default_delim_policy no_double
      (test_full_engine ["prog", "--do-thing=off", "file", "-o", "out"]) test_true_store 1 0
      "--do-thing=off" 10 2 test_flag_record 4
      (by decide) (by decide) (by decide) (by decide) (by decide) (by decide) (by decide),
    by decide, by decide, by decide⟩

/-- Dispatch of a long option whose value text does not decode, for a record that is not a
`bool`. -/
theorem dispatch_long_decode_error (Pp : prefix_policy) (Dp : delim_policy) (F : double_lib)
    (Vp : value_decoder) (p : parser) (mem : Store) (token : String) (index position : Nat)
    (it : Nat) (a : argument) (e : String)
    (hl : starts_with token Pp.long_prefix = true)
    (hf : map_find p.m_options (parser.long_opt_split Dp token).1 = some it)
    (ha : p.heap[it]? = some a)
    (hb : a.m_type ≠ .bool)
    (hv : Vp (parser.long_opt_split Dp token).2 a.m_type = some (.error e)) :
    parser.dispatch Pp Dp F Vp p mem token index position
      = some ((some (token ++ ": " ++ e), p.set_provided it, mem), index, position) := by
  unfold parser.dispatch
  simp only [hl, if_true, parser.m_parse_long_opt, hf, ha, hv, hb, if_false]

/-- C20: a long option bound to a non-boolean target and written without the assignment
delimiter takes the empty text as its value and never the following token.  In a well-formed
engine state, for a token without delimiter that goes down the long-option path and is a
registered name: a `string` or `path` record is bound to the empty value, no error is reported
and the loop goes on with the next token; an `int64`, `uint64` or (when the library's
`from_chars` rejects the empty text as invalid) `double` record makes `parse` stop with
`<token>: bad value (int64)`, `(uint64)`, `(double)`.  In every case `index` is left alone. -/
theorem long_option_without_delimiter (Pp : prefix_policy) (Dp : delim_policy)
    (F : double_lib) (p : parser) (mem : Store) (index position : Nat) (token : String)
    (it : Nat) (opt : argument) (fuel : Nat)
    (hwf : p.wf)
    (ht : p.m_argv[index]? = some token)
    (hl : starts_with token Pp.long_prefix = true)
    (hno : find token Dp.assign_delim = none)
    (hf : map_find p.m_options token = some it)
    (ho : p.heap[it]? = some opt) :
    (opt.m_type = .string →
      parser.dispatch Pp Dp F (default_value_parser_parse F) p mem token index position
          = some ((none, p.set_provided it, mem.write opt.m_bind.bind (.string "")),
              index, position)
      ∧ parser.parse_loop Pp Dp F (default_value_parser_parse F) (fuel + 1) p mem index
          position
          = parser.parse_loop Pp Dp F (default_value_parser_parse F) fuel (p.set_provided it)
              (mem.write opt.m_bind.bind (.string "")) (index + 1) position)
    ∧ (opt.m_type = .path →
      parser.dispatch Pp Dp F (default_value_parser_parse F) p mem token index position
          = some ((none, p.set_provided it, mem.write opt.m_bind.bind (.path ⟨""⟩)),
              index, position)
      ∧ parser.parse_loop Pp Dp F (default_value_parser_parse F) (fuel + 1) p mem index
          position
          = parser.parse_loop Pp Dp F (default_value_parser_parse F) fuel (p.set_provided it)
              (mem.write opt.m_bind.bind (.path ⟨""⟩)) (index + 1) position)
    ∧ (opt.m_type = .int64_t →
      parser.dispatch Pp Dp F (default_value_parser_parse F) p mem token index position
          = some ((some (token ++ ": " ++ "bad value (int64)"), p.set_provided it, mem),
              index, position)
      ∧ parser.parse_loop Pp Dp F (default_value_parser_parse F) (fuel + 1) p mem index
          position
          = some (some (token ++ ": " ++ "bad value (int64)"), p.set_provided it, mem))
    ∧ (opt.m_type = .uint64_t →
      parser.dispatch Pp Dp F (default_value_parser_parse F) p mem token index position
          = some ((some (token ++ ": " ++ "bad value (uint64)"), p.set_provided it, mem),
              index, position)
      ∧ parser.parse_loop Pp Dp F (default_value_parser_parse F) (fuel + 1) p mem index
          position
          = some (some (token ++ ": " ++ "bad value (uint64)"), p.set_provided it, mem))
    ∧ (opt.m_type = .double → (F.from_chars "" ⟨0⟩).1.ec = .invalid_argument →
      parser.dispatch Pp Dp F (default_value_parser_parse F) p mem token index position
          = some ((some (token ++ ": " ++ "bad value (double)"), p.set_provided it, mem),
              index, position)
      ∧ parser.parse_loop Pp Dp F (default_value_parser_parse F) (fuel + 1) p mem index
          position
          = some (some (token ++ ": " ++ "bad value (double)"), p.set_provided it, mem)) := by
  have hT := (hwf.1 opt (List.getElem?_mem ho)).1
  have hsplit : parser.long_opt_split Dp token = (token, "") := by
    simp [parser.long_opt_split, hno]
  have hf' : map_find p.m_options (parser.long_opt_split Dp token).1 = some it := by
    rw [hsplit]; exact hf
  refine ⟨?_, ?_, ?_, ?_, ?_⟩
  · intro hty
    have hd := dispatch_long_value Pp Dp F (default_value_parser_parse F) p mem token index
      position it opt (.string "") hl hf' ho (by rw [hsplit, hty]; rfl) hT (by rw [hty]; rfl)
    exact ⟨hd, parse_loop_step Pp Dp F _ fuel p mem index position token _ _ index position
      ht hd⟩
  · intro hty
    have hd := dispatch_long_value Pp Dp F (default_value_parser_parse F) p mem token index
      position it opt (.path ⟨""⟩) hl hf' ho (by rw [hsplit, hty]; rfl) hT (by rw [hty]; rfl)
    exact ⟨hd, parse_loop_step Pp Dp F _ fuel p mem index position token _ _ index position
      ht hd⟩
  · intro hty
    have hd := dispatch_long_decode_error Pp Dp F (default_value_parser_parse F) p mem token
      index position it opt "bad value (int64)" hl hf' ho (by rw [hty]; decide)
      (by rw [hsplit, hty]; rfl)
    exact ⟨hd, parse_loop_error Pp Dp F _ fuel p mem index position token _ _ _ index
      position ht hd⟩
  · intro hty
    have hd := dispatch_long_decode_error Pp Dp F (default_value_parser_parse F) p mem token
      index position it opt "bad value (uint64)" hl hf' ho (by rw [hty]; decide)
      (by rw [hsplit, hty]; rfl)
    exact ⟨hd, parse_loop_error Pp Dp F _ fuel p mem index position token _ _ _ index
      position ht hd⟩
  · intro hty hF
    have hdec : default_value_parser_parse F "" .double
        = some (.error "bad value (double)") := by
      unfold default_value_parser_parse default_value_parser_parse_as_double
      rcases hfc : F.from_chars "" ⟨0⟩ with ⟨r, v⟩
      rw [hfc] at hF
      simp only at hF
      simp [hF]
    have hd := dispatch_long_decode_error Pp Dp F (default_value_parser_parse F) p mem token
      index position it opt "bad value (double)" hl hf' ho (by rw [hty]; decide)
      (by rw [hsplit, hty]; exact hdec)
    exact ⟨hd, parse_loop_error Pp Dp F _ fuel p mem index position token _ _ _ index
      position ht hd⟩

/-- C20 witness: in `[prog, --output, out.txt]` the token `--output` binds the empty path to
`output` (address 2) and `out.txt` goes to the positional `input` (address 1). -/
theorem long_option_without_delimiter_witness :
    test_output_record.m_type = .path
    ∧ (parser.dispatch default_prefix_policy default_delim_policy no_double
          (default_value_parser_parse no_double)
          (test_optional_engine ["prog", "--output", "out.txt"]) test_filled_store
          "--output" 1 0
          = some ((none, (test_optional_engine ["prog", "--output", "out.txt"]).set_provided 1,
              test_filled_store.write test_optional_output_record.m_bind.bind (.path ⟨""⟩)),
              1, 0)
      ∧ parser.parse_loop default_prefix_policy default_delim_policy no_double
          (default_value_parser_parse no_double) (2 + 1)
          (test_optional_engine ["prog", "--output", "out.txt"]) test_filled_store 1 0
          = parser.parse_loop default_prefix_policy default_delim_policy no_double
              (default_value_parser_parse no_double) 2
              ((test_optional_engine ["prog", "--output", "out.txt"]).set_provided 1)
              (test_filled_store.write test_optional_output_record.m_bind.bind (.path ⟨""⟩))
              (1 + 1) 0)
    ∧ parser.parse_result default_prefix_policy default_delim_policy no_double
        (default_value_parser_parse no_double)
        (test_optional_engine ["prog", "--output", "out.txt"]) test_filled_store = some none
    ∧ parser.parse_var default_prefix_policy default_delim_policy no_double
        (default_value_parser_parse no_double)
        (test_optional_engine ["prog", "--output", "out.txt"]) test_filled_store 2
        = some (.path ⟨""⟩)
    ∧ parser.parse_var default_prefix_policy default_delim_policy no_double
        (default_value_parser_parse no_double)
        (test_optional_engine ["prog", "--output", "out.txt"]) test_filled_store 1
        = some (.path ⟨"out.txt"⟩)
    ∧ parser.parse_result default_prefix_policy default_delim_policy no_double
        (default_value_parser_parse no_double)
        (test_number_engine ["prog", "--num", "5"]) test_store
        = some (some "--num: bad value (int64)") :=
  ⟨by decide,
    (long_option_without_delimiter default_prefix_policy default_delim_policy no_double
      (test_optional_engine ["prog", "--output", "out.txt"]) test_filled_store 1 0 "--output"
      1 test_optional_output_record 2
      (by decide) (by decide) (by decide) (by decide) (by decide) (by decide)).2.1
      (by decide),
    by decide, by decide, by decide, by decide⟩

/-! ## The decision of a dispatch -/

theorem type_check_decl (F : double_lib) (name : String) (val : value) (a : argument)
    (b : Bool) :
    parser.m_type_check F name val { a with m_provided := b } = parser.m_type_check F name val a :=
  rfl

theorem long_opt_eq_effect (Dp : delim_policy) (F : double_lib) (Vp : value_decoder)
    (p : parser) (mem : Store) (token : String) (index position : Nat) :
    (match parser.m_parse_long_opt Dp F Vp p mem token with
      | none => none
      | some o => some (o, index, position))
    = (parser.long_opt_effect Dp F Vp p token index position).map (fun e => e.run p mem) := by
  unfold parser.m_parse_long_opt parser.long_opt_effect parser.decl_at
  simp only []
  cases hf : map_find p.m_options (parser.long_opt_split Dp token).1 with
  | none => simp [effect.run, effect.engine, effect.store]
  | some it =>
    cases hh : p.heap[it]? with
    | none => simp [hh]
    | some opt0 =>
      simp only [hh, Option.map_some', argument.decl]
      cases hv : Vp (parser.long_opt_split Dp token).2 opt0.m_type with
      | none => simp [hv]
      | some r =>
        cases r with
        | error e =>
          by_cases hb : opt0.m_type = .bool
          · by_cases hT : opt0.m_bind.T = (value.bool true).type <;>
              simp [hv, hb, hT, binder_call_eq, detail.binder.effect, effect.run,
                effect.engine, effect.store]
          · simp [hv, hb, effect.run, effect.engine, effect.store]
        | ok val =>
          simp only [hv, type_check_decl]
          cases htc : parser.m_type_check F token val opt0 with
          | some error => simp [htc, effect.run, effect.engine, effect.store]
          | none =>
            by_cases hT : opt0.m_bind.T = val.type <;>
              simp [htc, hT, binder_call_eq, detail.binder.effect, effect.run,
                effect.engine, effect.store]

theorem short_opt_eq_effect (F : double_lib) (Vp : value_decoder)
    (p : parser) (mem : Store) (token : String) (index position : Nat) :
    (match parser.m_parse_short_opt F Vp p mem token index with
      | none => none
      | some (o, index) => some (o, index, position))
    = (parser.short_opt_effect F Vp p token index position).map (fun e => e.run p mem) := by
  unfold parser.m_parse_short_opt parser.short_opt_effect parser.decl_at
  cases hf : map_find p.m_options token with
  | none => simp [effect.run, effect.engine, effect.store]
  | some it =>
    cases hh : p.heap[it]? with
    | none => simp [hh]
    | some opt0 =>
      simp only [hh, Option.map_some', argument.decl]
      by_cases hb : opt0.m_type = .bool
      · by_cases hT : opt0.m_bind.T = (value.bool true).type <;>
          simp [hb, hT, binder_call_eq, detail.binder.effect, effect.run,
            effect.engine, effect.store]
      · simp only [hb, if_false, set_provided_m_argv]
        by_cases hlast : index = p.m_argv.length - 1
        · simp [hlast, effect.run, effect.engine, effect.store]
        · simp only [hlast, if_false]
          cases hn : p.m_argv[index + 1]? with
          | none => simp [hn]
          | some next =>
            simp only [hn]
            cases hv : Vp next opt0.m_type with
            | none => simp [hv]
            | some r =>
              cases r with
              | error e => simp [hv]
              | ok val =>
                simp only [hv, type_check_decl]
                cases htc : parser.m_type_check F token val opt0 with
                | some error => simp [htc, effect.run, effect.engine, effect.store]
                | none =>
                  by_cases hT : opt0.m_bind.T = val.type <;>
                    simp [htc, hT, binder_call_eq, detail.binder.effect, effect.run,
                      effect.engine, effect.store]

theorem positional_eq_effect (F : double_lib) (Vp : value_decoder)
    (p : parser) (mem : Store) (token : String) (index position : Nat) :
    (match parser.m_parse_positional F Vp p mem token position with
      | none => none
      | some (o, position) => some (o, index, position))
    = (parser.positional_effect F Vp p token index position).map (fun e => e.run p mem) := by
  unfold parser.m_parse_positional parser.positional_effect parser.decl_at
  by_cases hp : position ≥ p.m_positionals.length
  · simp [hp, effect.run, effect.engine, effect.store]
  · simp only [hp, if_false]
    cases hq : p.m_positionals[position]? with
    | none => simp [hq]
    | some ptr =>
      cases hh : p.heap[ptr]? with
      | none => simp [hq, hh]
      | some a0 =>
        simp only [hq, hh, Option.map_some', argument.decl]
        cases hv : Vp token a0.m_type with
        | none => simp [hv]
        | some r =>
          cases r with
          | error e => simp [hv, effect.run, effect.engine, effect.store]
          | ok val =>
            simp only [hv, type_check_decl]
            cases htc : parser.m_type_check F token val a0 with
            | some error => simp [htc, effect.run, effect.engine, effect.store]
            | none =>
              by_cases hT : a0.m_bind.T = val.type <;>
                simp [htc, hT, binder_call_eq, detail.binder.effect, effect.run,
                  effect.engine, effect.store]

/-- The body of the loop is its decision applied to the engine and the store. -/
theorem dispatch_eq_effect (Pp : prefix_policy) (Dp : delim_policy) (F : double_lib)
    (Vp : value_decoder) (p : parser) (mem : Store) (token : String) (index position : Nat) :
    parser.dispatch Pp Dp F Vp p mem token index position
      = (parser.effect_of Pp Dp F Vp p token index position).map (fun e => e.run p mem) := by
  unfold parser.dispatch parser.effect_of
  by_cases hl : starts_with token Pp.long_prefix = true
  · rw [if_pos hl, if_pos hl]
    exact long_opt_eq_effect Dp F Vp p mem token index position
  · rw [if_neg hl, if_neg hl]
    by_cases hs : starts_with token Pp.short_prefix = true
    · rw [if_pos hs, if_pos hs]
      exact short_opt_eq_effect F Vp p mem token index position
    · rw [if_neg hs, if_neg hs]
      exact positional_eq_effect F Vp p mem token index position

/-! ## Decisions and declarations -/

theorem same_decls_refl (p : parser) : p.same_decls p := ⟨rfl, rfl, rfl, rfl⟩

theorem same_decls_trans (p q r : parser) (h1 : p.same_decls q) (h2 : q.same_decls r) :
    p.same_decls r :=
  ⟨h2.1.trans h1.1, h2.2.1.trans h1.2.1, h2.2.2.1.trans h1.2.2.1, h2.2.2.2.trans h1.2.2.2⟩

theorem set_provided_same_decls (p : parser) (it : Nat) : p.same_decls (p.set_provided it) := by
  refine ⟨rfl, rfl, rfl, ?_⟩
  apply List.ext_getElem?
  intro j
  rw [List.getElem?_map, List.getElem?_map]
  by_cases hj : it = j
  · subst hj
    rw [set_provided_heap_eq]
    cases p.heap[it]? <;> rfl
  · rw [set_provided_heap_ne _ _ _ hj]

theorem decl_at_same (p q : parser) (h : p.same_decls q) (j : Nat) :
    q.decl_at j = p.decl_at j := by
  unfold parser.decl_at
  rw [← List.getElem?_map, ← List.getElem?_map, h.2.2.2]

/-- The decision of a dispatch depends on the engine only through its declarations. -/
theorem effect_of_same (Pp : prefix_policy) (Dp : delim_policy) (F : double_lib)
    (Vp : value_decoder) (p q : parser) (h : p.same_decls q) (token : String)
    (index position : Nat) :
    parser.effect_of Pp Dp F Vp q token index position
      = parser.effect_of Pp Dp F Vp p token index position := by
  unfold parser.effect_of parser.long_opt_effect parser.short_opt_effect
    parser.positional_effect
  simp only [decl_at_same p q h, h.1, h.2.1, h.2.2.1]

theorem set_provided_idem (p : parser) (it : Nat) (a : argument)
    (ha : p.heap[it]? = some a) (hp : a.m_provided = true) : p.set_provided it = p := by
  have : (p.set_provided it).heap = p.heap := by
    apply List.ext_getElem?
    intro j
    by_cases hj : it = j
    · subst hj
      rw [set_provided_heap_eq, ha]
      simp only [Option.map_some', Option.some.injEq]
      cases a
      simp only at hp
      simp [hp]
    · rw [set_provided_heap_ne _ _ _ hj]
  cases p
  simp only [parser.set_provided, parser.update] at this ⊢
  simp [this]

theorem shaped_error (p : parser) (error : String) (index position : Nat) :
    (effect.mk (some error) none none index position).shaped p := by
  refine ⟨?_, ?_, ?_⟩ <;> simp

theorem shaped_error_mark (p : parser) (error : String) (it : Nat) (a : argument)
    (ha : p.heap[it]? = some a) (index position : Nat) :
    (effect.mk (some error) (some it) none index position).shaped p := by
  refine ⟨?_, ?_, ?_⟩
  · intro ptr hp
    simp only [Option.some.injEq] at hp
    subst hp
    exact ⟨a, ha⟩
  · simp
  · simp

theorem shaped_binder (p : parser) (it : Nat) (a : argument) (ha : p.heap[it]? = some a)
    (val : value) (index position position1 : Nat) :
    (a.decl.m_bind.effect val it index position position1).shaped p := by
  unfold detail.binder.effect
  by_cases hT : a.decl.m_bind.T = val.type
  · rw [if_pos hT]
    refine ⟨?_, ?_, ?_⟩
    · intro ptr hp
      simp only [Option.some.injEq] at hp
      subst hp
      exact ⟨a, ha⟩
    · intro _
      exact ⟨it, a, val, rfl, ha, rfl⟩
    · simp
  · rw [if_neg hT]
    exact shaped_error_mark p _ it a ha index position

theorem effect_of_shape (Pp : prefix_policy) (Dp : delim_policy) (F : double_lib)
    (Vp : value_decoder) (p : parser) (token : String) (index position : Nat) (e : effect)
    (h : parser.effect_of Pp Dp F Vp p token index position = some e) : e.shaped p := by
  unfold parser.effect_of at h
  by_cases hl : starts_with token Pp.long_prefix = true
  · rw [if_pos hl] at h
    unfold parser.long_opt_effect parser.decl_at at h
    cases hf : map_find p.m_options (parser.long_opt_split Dp token).1 with
    | none =>
      simp only [hf, Option.some.injEq] at h
      rw [← h]; exact shaped_error p _ _ _
    | some it =>
      cases hh : p.heap[it]? with
      | none => simp [hf, hh] at h
      | some opt0 =>
        simp only [hf, hh, Option.map_some'] at h
        cases hv : Vp (parser.long_opt_split Dp token).2 opt0.decl.m_type with
        | none => simp [hv] at h
        | some r =>
          cases r with
          | error err =>
            simp only [hv] at h
            split_ifs at h
            · simp only [Option.some.injEq] at h
              rw [← h]; exact shaped_binder p it opt0 hh _ _ _ _
            · simp only [Option.some.injEq] at h
              rw [← h]; exact shaped_error_mark p _ it opt0 hh _ _
          | ok val =>
            simp only [hv] at h
            split at h
            · simp only [Option.some.injEq] at h
              rw [← h]; exact shaped_error_mark p _ it opt0 hh _ _
            · simp only [Option.some.injEq] at h
              rw [← h]; exact shaped_binder p it opt0 hh _ _ _ _
  · rw [if_neg hl] at h
    by_cases hs : starts_with token Pp.short_prefix = true
    · rw [if_pos hs] at h
      unfold parser.short_opt_effect parser.decl_at at h
      cases hf : map_find p.m_options token with
      | none =>
        simp only [hf, Option.some.injEq] at h
        rw [← h]; exact shaped_error p _ _ _
      | some it =>
        cases hh : p.heap[it]? with
        | none => simp [hf, hh] at h
        | some opt0 =>
          simp only [hf, hh, Option.map_some'] at h
          split_ifs at h
          · simp only [Option.some.injEq] at h
            rw [← h]; exact shaped_binder p it opt0 hh _ _ _ _
          · simp only [Option.some.injEq] at h
            rw [← h]; exact shaped_error_mark p _ it opt0 hh _ _
          · cases hn : p.m_argv[index + 1]? with
            | none => simp [hn] at h
            | some next =>
              simp only [hn] at h
              cases hv : Vp next opt0.decl.m_type with
              | none => simp [hv] at h
              | some r =>
                cases r with
                | error err => simp [hv] at h
                | ok val =>
                  simp only [hv] at h
                  split at h
                  · simp only [Option.some.injEq] at h
                    rw [← h]; exact shaped_error_mark p _ it opt0 hh _ _
                  · simp only [Option.some.injEq] at h
                    rw [← h]; exact shaped_binder p it opt0 hh _ _ _ _
    · rw [if_neg hs] at h
      unfold parser.positional_effect parser.decl_at at h
      split_ifs at h
      · simp only [Option.some.injEq] at h
        rw [← h]; exact shaped_error p _ _ _
      · cases hq : p.m_positionals[position]? with
        | none => simp [hq] at h
        | some ptr =>
          cases hh : p.heap[ptr]? with
          | none => simp [hq, hh] at h
          | some a0 =>
            simp only [hq, hh, Option.map_some'] at h
            cases hv : Vp token a0.decl.m_type with
            | none => simp [hv] at h
            | some r =>
              cases r with
              | error err =>
                simp only [hv, Option.some.injEq] at h
                rw [← h]; exact shaped_error_mark p _ ptr a0 hh _ _
              | ok val =>
                simp only [hv] at h
                split at h
                · simp only [Option.some.injEq] at h
                  rw [← h]; exact shaped_error_mark p _ ptr a0 hh _ _
                · simp only [Option.some.injEq] at h
                  rw [← h]; exact shaped_binder p ptr a0 hh _ _ _ _

/-- Marking the record of a decision a second time changes nothing. -/
theorem effect_engine_idem (e : effect) (p : parser) (h : e.shaped p) :
    e.engine (e.engine p) = e.engine p := by
  unfold effect.engine
  cases hm : e.mark with
  | none => rfl
  | some it =>
    simp only []
    obtain ⟨a, ha⟩ := h.1 it hm
    apply set_provided_idem _ it { a with m_provided := true }
    · rw [set_provided_heap_eq, ha]; rfl
    · rfl

/-- A second run of the loop, started from the engine that a first run left behind, returns
the same result, leaves that engine as it is, and leaves each variable either with the value
the first run left in it or, when neither run writes it, untouched. -/
theorem parse_loop_rerun (Pp : prefix_policy) (Dp : delim_policy) (F : double_lib)
    (Vp : value_decoder) : ∀ (fuel : Nat) (p : parser) (mem : Store) (index position : Nat)
    (r : Option String) (pf : parser) (memf : Store),
    parser.parse_loop Pp Dp F Vp fuel p mem index position = some (r, pf, memf) →
    p.same_decls pf
    ∧ (∀ (j : Nat) (a : argument), p.heap[j]? = some a → a.m_provided = true →
        ∃ b : argument, pf.heap[j]? = some b ∧ b.m_provided = true)
    ∧ ∀ mem2 : Store, ∃ memf2 : Store,
        parser.parse_loop Pp Dp F Vp fuel pf mem2 index position = some (r, pf, memf2)
        ∧ ∀ addr, memf2 addr = memf addr ∨ (memf2 addr = mem2 addr ∧ memf addr = mem addr) := by
  intro fuel
  induction fuel with
  | zero =>
    intro p mem index position r pf memf h
    rw [parser.parse_loop.eq_def] at h
    by_cases hlt : index < p.m_argv.length
    · simp [hlt] at h
    · simp only [hlt, if_false] at h
      cases hc : p.m_check_required with
      | none => simp [hc] at h
      | some r0 =>
        simp only [hc, Option.some.injEq, Prod.mk.injEq] at h
        obtain ⟨h1, h2, h3⟩ := h
        subst h1 h2 h3
        refine ⟨same_decls_refl _, fun j a ha hp => ⟨a, ha, hp⟩, fun mem2 => ⟨mem2, ?_, ?_⟩⟩
        · rw [parser.parse_loop.eq_def]
          simp only [hlt, if_false, hc]
        · intro addr; right; exact ⟨rfl, rfl⟩
  | succ fuel ih =>
    intro p mem index position r pf memf h
    by_cases hlt : index < p.m_argv.length
    · have ht : p.m_argv[index]? = some (p.m_argv[index]) := List.getElem?_eq_getElem hlt
      generalize p.m_argv[index] = token at ht
      have hd := dispatch_eq_effect Pp Dp F Vp p mem token index position
      cases he : parser.effect_of Pp Dp F Vp p token index position with
      | none =>
        rw [he] at hd
        rw [parser.parse_loop.eq_def] at h
        simp [hlt, ht, hd] at h
      | some e =>
        have hsh := effect_of_shape Pp Dp F Vp p token index position e he
        rw [he] at hd
        simp only [Option.map_some', effect.run] at hd
        have hsame : p.same_decls (e.engine p) := by
          unfold effect.engine
          cases e.mark with
          | none => exact same_decls_refl _
          | some it => exact set_provided_same_decls _ _
        have hmono : ∀ (j : Nat) (a : argument), p.heap[j]? = some a → a.m_provided = true →
            ∃ b : argument, (e.engine p).heap[j]? = some b ∧ b.m_provided = true := by
          intro j a ha hp
          unfold effect.engine
          cases e.mark with
          | none => exact ⟨a, ha, hp⟩
          | some it =>
            simp only []
            by_cases hj : it = j
            · subst hj
              exact ⟨{ a with m_provided := true }, by rw [set_provided_heap_eq, ha]; rfl, rfl⟩
            · exact ⟨a, by rw [set_provided_heap_ne _ _ _ hj]; exact ha, hp⟩
        cases herr : e.error with
        | some error =>
          rw [herr] at hd
          rw [parse_loop_error Pp Dp F Vp fuel p mem index position token error _ _ _ _ ht hd]
            at h
          simp only [Option.some.injEq, Prod.mk.injEq] at h
          obtain ⟨h1, h2, h3⟩ := h
          have hw : e.write = none := hsh.2.2 (by rw [herr]; simp)
          have hst : ∀ m : Store, e.store m = m := by
            intro m; unfold effect.store; rw [hw]
          rw [hst] at h3
          subst h1 h2 h3
          refine ⟨hsame, hmono, fun mem2 => ⟨mem2, ?_, ?_⟩⟩
          · have hd2 := dispatch_eq_effect Pp Dp F Vp (e.engine p) mem2 token index position
            rw [effect_of_same Pp Dp F Vp p (e.engine p) hsame, he] at hd2
            simp only [Option.map_some', effect.run, herr, hst,
              effect_engine_idem e p hsh] at hd2
            have ht2 : (e.engine p).m_argv[index]? = some token := by rw [hsame.1]; exact ht
            exact parse_loop_error Pp Dp F Vp fuel _ mem2 index position token error _ _ _ _
              ht2 hd2
          · intro addr; right; exact ⟨rfl, rfl⟩
        | none =>
          rw [herr] at hd
          rw [parse_loop_step Pp Dp F Vp fuel p mem index position token _ _ _ _ ht hd] at h
          obtain ⟨i1, i2, i3⟩ := ih _ _ _ _ _ _ _ h
          have hpf : p.same_decls pf := same_decls_trans _ _ _ hsame i1
          have hidem : e.engine pf = pf := by
            unfold effect.engine
            cases hm : e.mark with
            | none => rfl
            | some it =>
              simp only []
              obtain ⟨a, ha⟩ := hsh.1 it hm
              have h1 : (e.engine p).heap[it]? = some { a with m_provided := true } := by
                unfold effect.engine
                rw [hm]
                simp only []
                rw [set_provided_heap_eq, ha]; rfl
              obtain ⟨b, hb, hbp⟩ := i2 it _ h1 rfl
              exact set_provided_idem _ it b hb hbp
          refine ⟨hpf, ?_, ?_⟩
          · intro j a ha hp
            obtain ⟨b, hb, hbp⟩ := hmono j a ha hp
            exact i2 j b hb hbp
          · intro mem2
            obtain ⟨memf2, j1, j2⟩ := i3 (e.store mem2)
            refine ⟨memf2, ?_, ?_⟩
            · have hd2 := dispatch_eq_effect Pp Dp F Vp pf mem2 token index position
              rw [effect_of_same Pp Dp F Vp p pf hpf, he] at hd2
              simp only [Option.map_some', effect.run, herr, hidem] at hd2
              have ht2 : pf.m_argv[index]? = some token := by rw [hpf.1]; exact ht
              rw [parse_loop_step Pp Dp F Vp fuel pf mem2 index position token _ _ _ _ ht2 hd2]
              exact j1
            · intro addr
              rcases j2 addr with j | ⟨j, j'⟩
              · left; exact j
              · unfold effect.store at j j'
                cases hw : e.write with
                | none =>
                  rw [hw] at j j'
                  right; exact ⟨j, j'⟩
                | some w =>
                  rw [hw] at j j'
                  simp only [Store.write] at j j'
                  by_cases ha : addr = w.1
                  · left
                    rw [if_pos ha] at j j'
                    rw [j, j']
                  · right
                    rw [if_neg ha] at j j'
                    exact ⟨j, j'⟩
    · rw [parser.parse_loop.eq_def] at h
      simp only [hlt, if_false] at h
      cases hc : p.m_check_required with
      | none => simp [hc] at h
      | some r0 =>
        simp only [hc, Option.some.injEq, Prod.mk.injEq] at h
        obtain ⟨h1, h2, h3⟩ := h
        subst h1 h2 h3
        refine ⟨same_decls_refl _, fun j a ha hp => ⟨a, ha, hp⟩, fun mem2 => ⟨mem2, ?_, ?_⟩⟩
        · rw [parser.parse_loop.eq_def]
          simp only [hlt, if_false, hc]
        · intro addr; right; exact ⟨rfl, rfl⟩

/-! ## What a successful dispatch has done -/

theorem m_parse_long_opt_decoded (Dp : delim_policy) (F : double_lib)
    (Vp : value_decoder) (p : parser) (mem : Store) (token : String)
    (p1 : parser) (mem1 : Store)
    (h : parser.m_parse_long_opt Dp F Vp p mem token = some (none, p1, mem1)) :
    ∃ ptr a val, map_find p.m_options (parser.long_opt_split Dp token).1 = some ptr
      ∧ p.heap[ptr]? = some a
      ∧ (match Vp (parser.long_opt_split Dp token).2 a.m_type with
          | some (.ok val) => some val
          | some (.error _) => if a.m_type = .bool then some (.bool true) else none
          | none => none) = some val
      ∧ p1 = p.set_provided ptr ∧ mem1 = mem.write a.m_bind.bind val := by
  unfold parser.m_parse_long_opt at h
  simp only [] at h
  cases hf : map_find p.m_options (parser.long_opt_split Dp token).1 with
  | none => simp [hf] at h
  | some it =>
    cases hh : p.heap[it]? with
    | none => simp [hf, hh] at h
    | some opt0 =>
      simp only [hf, hh] at h
      rw [bind_tail_ok _ _ _ (fun r m => some (r, p.set_provided it, m))] at h
      cases hv : Vp (parser.long_opt_split Dp token).2 opt0.m_type with
      | none => simp [hv] at h
      | some r =>
        cases r with
        | error e =>
          simp only [hv] at h
          by_cases hb : opt0.m_type = .bool
          · by_cases hT : opt0.m_bind.T = (value.bool true).type
            · simp only [hb, hT, if_true, Option.some.injEq, Prod.mk.injEq, true_and] at h
              exact ⟨it, opt0, .bool true, rfl, hh, by rw [hv]; simp [hb], h.1.symm, h.2.symm⟩
            · simp [hb, hT] at h
          · simp [hb] at h
        | ok val =>
          simp only [hv] at h
          split at h
          · simp at h
          · rw [bind_tail_ok _ _ _ (fun r m => some (r, p.set_provided it, m))] at h
            by_cases hT : opt0.m_bind.T = val.type
            · simp only [hT, if_true, Option.some.injEq, Prod.mk.injEq, true_and] at h
              exact ⟨it, opt0, val, rfl, hh, by simp [hv], h.1.symm, h.2.symm⟩
            · simp [hT] at h

theorem m_parse_short_opt_decoded (F : double_lib)
    (Vp : value_decoder) (p : parser) (mem : Store) (token : String) (index : Nat)
    (p1 : parser) (mem1 : Store) (index1 : Nat)
    (h : parser.m_parse_short_opt F Vp p mem token index = some ((none, p1, mem1), index1)) :
    ∃ ptr a val, map_find p.m_options token = some ptr
      ∧ p.heap[ptr]? = some a
      ∧ (if a.m_type = .bool then some (.bool true)
          else
            match p.m_argv[index + 1]? with
            | none => none
            | some next =>
              match Vp next a.m_type with
              | some (.ok val) => some val
              | _ => none) = some val
      ∧ p1 = p.set_provided ptr ∧ mem1 = mem.write a.m_bind.bind val
      ∧ index1 = (if a.m_type ≠ .bool then index + 1 else index) := by
  unfold parser.m_parse_short_opt at h
  cases hf : map_find p.m_options token with
  | none => simp [hf] at h
  | some it =>
    cases hh : p.heap[it]? with
    | none => simp [hf, hh] at h
    | some opt0 =>
      simp only [hf, hh] at h
      by_cases hb : opt0.m_type = .bool
      · simp only [hb, if_true] at h
        rw [bind_tail_ok _ _ _ (fun r m => some ((r, p.set_provided it, m), index))] at h
        by_cases hT : opt0.m_bind.T = (value.bool true).type
        · simp only [hT, if_true, Option.some.injEq, Prod.mk.injEq, true_and] at h
          exact ⟨it, opt0, .bool true, rfl, hh, by simp [hb], h.1.1.symm, h.1.2.symm,
            by simp [hb, h.2]⟩
        · simp [hT] at h
      · simp only [hb, if_false, set_provided_m_argv] at h
        by_cases hlast : index = p.m_argv.length - 1
        · simp [hlast] at h
        · simp only [hlast, if_false] at h
          cases hn : p.m_argv[index + 1]? with
          | none => simp [hn] at h
          | some next =>
            simp only [hn] at h
            cases hv : Vp next opt0.m_type with
            | none => simp [hv] at h
            | some r =>
              cases r with
              | error e => simp [hv] at h
              | ok val =>
                simp only [hv] at h
                split at h
                · simp at h
                · rw [bind_tail_ok _ _ _
                    (fun r m => some ((r, p.set_provided it, m), index + 1))] at h
                  by_cases hT : opt0.m_bind.T = val.type
                  · simp only [hT, if_true, Option.some.injEq, Prod.mk.injEq, true_and] at h
                    exact ⟨it, opt0, val, rfl, hh, by simp [hb, hn, hv], h.1.1.symm,
                      h.1.2.symm, by simp [hb, h.2]⟩
                  · simp [hT] at h

theorem m_parse_positional_decoded (F : double_lib)
    (Vp : value_decoder) (p : parser) (mem : Store) (token : String) (position : Nat)
    (p1 : parser) (mem1 : Store) (position1 : Nat)
    (h : parser.m_parse_positional F Vp p mem token position
      = some ((none, p1, mem1), position1)) :
    ∃ ptr a val, p.m_positionals[position]? = some ptr
      ∧ p.heap[ptr]? = some a
      ∧ (match Vp token a.m_type with
          | some (.ok val) => some val
          | _ => none) = some val
      ∧ p1 = p.set_provided ptr ∧ mem1 = mem.write a.m_bind.bind val := by
  unfold parser.m_parse_positional at h
  by_cases hp : position ≥ p.m_positionals.length
  · simp [hp] at h
  · simp only [hp, if_false] at h
    cases hq : p.m_positionals[position]? with
    | none => simp [hq] at h
    | some ptr =>
      cases hh : p.heap[ptr]? with
      | none => simp [hq, hh] at h
      | some a0 =>
        simp only [hq, hh] at h
        cases hv : Vp token a0.m_type with
        | none => simp [hv] at h
        | some r =>
          cases r with
          | error e => simp [hv] at h
          | ok val =>
            simp only [hv] at h
            split at h
            · simp at h
            · by_cases hT : a0.m_bind.T = val.type
              · simp only [binder_call_eq, hT, if_true, Option.some.injEq, Prod.mk.injEq,
                  true_and] at h
                exact ⟨ptr, a0, val, rfl, hh, by simp [hv], h.1.1.symm, h.1.2.symm⟩
              · simp [binder_call_eq, hT] at h

/-- What a dispatch that reports no error has done, in full: the method chosen for the token
found its record, decoded a value for it, marked the record and wrote the value into the
variable of the record; `index` and `position` moved as the method prescribes. -/
theorem dispatch_ok_full (Pp : prefix_policy) (Dp : delim_policy) (F : double_lib)
    (Vp : value_decoder) (p : parser) (mem : Store) (token : String) (index position : Nat)
    (p1 : parser) (mem1 : Store) (index1 position1 : Nat)
    (h : parser.dispatch Pp Dp F Vp p mem token index position
      = some ((none, p1, mem1), index1, position1)) :
    ∃ ptr a val, parser.target Pp Dp p token position = some ptr
      ∧ p.heap[ptr]? = some a
      ∧ parser.decoded_value Pp Dp Vp p token index a = some val
      ∧ p1 = p.set_provided ptr ∧ mem1 = mem.write a.m_bind.bind val
      ∧ index1 = parser.last_index Pp token index a
      ∧ position1 = parser.next_position Pp token position := by
  unfold parser.dispatch at h
  unfold parser.target parser.decoded_value parser.last_index parser.next_position
    parser.classify
  by_cases hl : starts_with token Pp.long_prefix = true
  · rw [if_pos hl] at h
    cases hm : parser.m_parse_long_opt Dp F Vp p mem token with
    | none => simp [hm] at h
    | some o =>
      simp only [hm, Option.some.injEq, Prod.mk.injEq] at h
      obtain ⟨ho, hi, hpos⟩ := h
      rw [ho] at hm
      obtain ⟨ptr, a, val, h1, h2, h3, h4, h5⟩ :=
        m_parse_long_opt_decoded Dp F Vp p mem token p1 mem1 hm
      refine ⟨ptr, a, val, ?_, h2, ?_, h4, h5, ?_, ?_⟩
      · simp only [hl, if_true]; exact h1
      · simp only [hl, if_true]; exact h3
      · simp [hl, hi]
      · simp [hl, hpos]
  · rw [if_neg hl] at h
    by_cases hs : starts_with token Pp.short_prefix = true
    · rw [if_pos hs] at h
      cases hm : parser.m_parse_short_opt F Vp p mem token index with
      | none => simp [hm] at h
      | some o =>
        obtain ⟨o, i2⟩ := o
        simp only [hm, Option.some.injEq, Prod.mk.injEq] at h
        obtain ⟨ho, hi, hpos⟩ := h
        rw [ho, hi] at hm
        obtain ⟨ptr, a, val, h1, h2, h3, h4, h5, h6⟩ :=
          m_parse_short_opt_decoded F Vp p mem token index p1 mem1 index1 hm
        refine ⟨ptr, a, val, ?_, h2, ?_, h4, h5, ?_, ?_⟩
        · simp only [hl, hs, if_true, if_false]; exact h1
        · simp only [hl, hs, if_true, if_false]; exact h3
        · rw [h6]; by_cases hb : a.m_type = .bool <;> simp [hl, hs, hb]
        · simp [hl, hs, hpos]
    · rw [if_neg hs] at h
      cases hm : parser.m_parse_positional F Vp p mem token position with
      | none => simp [hm] at h
      | some o =>
        obtain ⟨o, pos2⟩ := o
        simp only [hm, Option.some.injEq, Prod.mk.injEq] at h
        obtain ⟨ho, hi, hpos⟩ := h
        rw [ho] at hm
        obtain ⟨ptr, a, val, h1, h2, h3, h4, h5⟩ :=
          m_parse_positional_decoded F Vp p mem token position p1 mem1 pos2 hm
        have hpos2 : pos2 = position + 1 := by
          obtain ⟨_, _, _, _, _, _, _, _, h9⟩ :=
            m_parse_positional_ok F Vp p mem token position p1 mem1 pos2 hm
          exact h9
        refine ⟨ptr, a, val, ?_, h2, ?_, h4, h5, ?_, ?_⟩
        · simp only [hl, hs, if_false]; exact h1
        · simp only [hl, hs, if_false]; exact h3
        · simp [hl, hs, hi]
        · simp [hl, hs, ← hpos, hpos2]

/-! ## Walks and their logs -/

theorem target_congr (Pp : prefix_policy) (Dp : delim_policy) (p q : parser)
    (h1 : p.m_options = q.m_options) (h2 : p.m_positionals = q.m_positionals)
    (token : String) (position : Nat) :
    parser.target Pp Dp p token position = parser.target Pp Dp q token position := by
  unfold parser.target
  rw [h1, h2]

theorem decoded_value_congr (Pp : prefix_policy) (Dp : delim_policy) (Vp : value_decoder)
    (p q : parser) (a b : argument) (h1 : p.m_argv = q.m_argv) (h2 : a.m_type = b.m_type)
    (token : String) (index : Nat) :
    parser.decoded_value Pp Dp Vp p token index a
      = parser.decoded_value Pp Dp Vp q token index b := by
  unfold parser.decoded_value
  rw [h1, h2]

theorem last_index_congr (Pp : prefix_policy) (a b : argument) (h2 : a.m_type = b.m_type)
    (token : String) (index : Nat) :
    parser.last_index Pp token index a = parser.last_index Pp token index b := by
  unfold parser.last_index
  rw [h2]

theorem last_index_bounds (Pp : prefix_policy) (a : argument) (token : String) (index : Nat) :
    index ≤ parser.last_index Pp token index a
      ∧ parser.last_index Pp token index a ≤ index + 1 := by
  unfold parser.last_index
  split_ifs <;> omega

theorem trace_reaches (Pp : prefix_policy) (Dp : delim_policy) (F : double_lib)
    (Vp : value_decoder) (p0 : parser) (mem0 : Store) (log : List bound) (p : parser)
    (mem : Store) (index position : Nat)
    (h : parser.Trace Pp Dp F Vp p0 mem0 log p mem index position) :
    parser.Reaches Pp Dp F Vp p0 mem0 p mem index position := by
  induction h with
  | start => exact parser.Reaches.start
  | step _ ht hd _ _ _ ih => exact parser.Reaches.step ih ht hd

/-- Every walk has a log. -/
theorem reaches_trace (Pp : prefix_policy) (Dp : delim_policy) (F : double_lib)
    (Vp : value_decoder) (p0 : parser) (mem0 : Store) (p : parser)
    (mem : Store) (index position : Nat)
    (h : parser.Reaches Pp Dp F Vp p0 mem0 p mem index position) :
    ∃ log, parser.Trace Pp Dp F Vp p0 mem0 log p mem index position := by
  induction h with
  | start => exact ⟨[], parser.Trace.start⟩
  | step _ ht hd ih =>
    obtain ⟨log, hlog⟩ := ih
    obtain ⟨ptr, a, val, h1, h2, h3, _⟩ := dispatch_ok_full Pp Dp F Vp _ _ _ _ _ _ _ _ _ hd
    exact ⟨_, parser.Trace.step hlog ht hd h1 h2 h3⟩

/-- The walk changes no declaration: a record of the engine it reaches is a record of the
engine it started from, up to the provided mark. -/
theorem reaches_heap_back (Pp : prefix_policy) (Dp : delim_policy) (F : double_lib)
    (Vp : value_decoder) (p0 : parser) (mem0 : Store) (p : parser) (mem : Store)
    (index position : Nat) (h : parser.Reaches Pp Dp F Vp p0 mem0 p mem index position)
    (j : Nat) (a : argument) (ha : p.heap[j]? = some a) :
    ∃ a0, p0.heap[j]? = some a0 ∧ a.m_type = a0.m_type ∧ a.m_names = a0.m_names
      ∧ a.m_bind = a0.m_bind ∧ a.m_required = a0.m_required := by
  obtain ⟨_, _, _, hlen, _⟩ := reaches_frame Pp Dp F Vp p0 mem0 p mem index position h
  have hj : j < p0.heap.length := by
    rw [← hlen]; exact (List.getElem?_eq_some_iff.mp ha).1
  obtain ⟨a1, ha1, h1, h2, h3, h4, _⟩ := reaches_heap Pp Dp F Vp p0 mem0 p mem index position h
    j p0.heap[j] (List.getElem?_eq_getElem hj)
  rw [ha] at ha1
  simp only [Option.some.injEq] at ha1
  subst ha1
  exact ⟨p0.heap[j], List.getElem?_eq_getElem hj, h1, h2, h3, h4⟩

theorem positionals_append (log : List bound) (b : bound) :
    bound.positionals (log ++ [b])
      = bound.positionals log + (if b.path = .positional then 1 else 0) := by
  unfold bound.positionals
  rw [List.filter_append, List.length_append]
  by_cases hb : b.path = .positional <;> simp [List.filter, hb]

/-- The state that a walk reaches is the state it started from with the log applied: the
store with the writes of the log, the engine with the records of the log marked, the position
counter at the number of entries of the positional path. -/
theorem trace_state (Pp : prefix_policy) (Dp : delim_policy) (F : double_lib)
    (Vp : value_decoder) (p0 : parser) (mem0 : Store) (log : List bound) (p : parser)
    (mem : Store) (index position : Nat)
    (h : parser.Trace Pp Dp F Vp p0 mem0 log p mem index position) :
    mem = bound.replay log mem0 ∧ p = bound.marked log p0
      ∧ position = bound.positionals log := by
  induction h with
  | start => exact ⟨rfl, rfl, rfl⟩
  | @step log p mem index position token p1 mem1 index1 position1 ptr a val hr ht hd htg ha hv
      ih =>
    obtain ⟨ptr', a', val', h1, h2, h3, h4, h5, h6, h7⟩ :=
      dispatch_ok_full Pp Dp F Vp _ _ _ _ _ _ _ _ _ hd
    rw [htg] at h1
    simp only [Option.some.injEq] at h1
    subst h1
    rw [ha] at h2
    simp only [Option.some.injEq] at h2
    subst h2
    rw [hv] at h3
    simp only [Option.some.injEq] at h3
    subst h3
    obtain ⟨i1, i2, i3⟩ := ih
    refine ⟨?_, ?_, ?_⟩
    · rw [h5, i1]; simp [bound.replay, List.foldl_append]
    · rw [h4, i2]; simp [bound.marked, List.foldl_append]
    · rw [h7, positionals_append, i3]
      unfold parser.next_position
      simp only []
      split_ifs <;> rfl

/-- Every entry of the log of a walk records a dispatch: the token at its index was handled by
the method chosen by prefix, which found the record of the entry (for a positional token, the
positional whose number is the count of earlier positional entries), decoded the value of the
entry for it, and used the tokens up to `last`. -/
theorem trace_entry (Pp : prefix_policy) (Dp : delim_policy) (F : double_lib)
    (Vp : value_decoder) (p0 : parser) (mem0 : Store) (log : List bound) (p : parser)
    (mem : Store) (index position : Nat)
    (h : parser.Trace Pp Dp F Vp p0 mem0 log p mem index position) :
    ∀ (i : Nat) (b : bound), log[i]? = some b →
      ∃ token a0, p0.m_argv[b.index]? = some token
        ∧ b.path = parser.classify Pp token
        ∧ parser.target Pp Dp p0 token (bound.positionals (log.take i)) = some b.ptr
        ∧ p0.heap[b.ptr]? = some a0
        ∧ b.addr = a0.m_bind.bind
        ∧ parser.decoded_value Pp Dp Vp p0 token b.index a0 = some b.val
        ∧ b.last = parser.last_index Pp token b.index a0
        ∧ 1 ≤ b.index ∧ b.last < index := by
  induction h with
  | start => intro i b hb; simp at hb
  | @step log p mem index position token p1 mem1 index1 position1 ptr a val hr ht hd htg ha hv
      ih =>
    intro i b hb
    have hreach := trace_reaches Pp Dp F Vp p0 mem0 log p mem index position hr
    obtain ⟨f1, f2, f3, f4, f5⟩ := reaches_frame Pp Dp F Vp p0 mem0 p mem index position hreach
    obtain ⟨_, _, _, _, _, _, _, _, h6, _⟩ :=
      dispatch_ok_full Pp Dp F Vp _ _ _ _ _ _ _ _ _ hd
    have hle := (dispatch_ok_frame Pp Dp F Vp _ _ _ _ _ _ _ _ _ hd).2.2.2.2
    by_cases hi : i < log.length
    · rw [List.getElem?_append_left hi] at hb
      obtain ⟨tok, a0, e1, e2, e3, e4, e5, e6, e7, e8, e9⟩ := ih i b hb
      refine ⟨tok, a0, e1, e2, ?_, e4, e5, e6, e7, e8, by omega⟩
      rw [List.take_append_of_le_length (by omega)]
      exact e3
    · have hi' : i = log.length := by
        have := (List.getElem?_eq_some_iff.mp hb).1
        simp only [List.length_append, List.length_singleton] at this
        omega
      subst hi'
      simp only [List.getElem?_concat_length, Option.some.injEq] at hb
      subst hb
      simp only [List.take_left']
      obtain ⟨a0, g1, g2, _, g3, _⟩ :=
        reaches_heap_back Pp Dp F Vp p0 mem0 p mem index position hreach ptr a ha
      obtain ⟨_, _, s3⟩ := trace_state Pp Dp F Vp p0 mem0 log p mem index position hr
      refine ⟨token, a0, by rw [← f1]; exact ht, rfl, ?_, g1, by rw [g3], ?_, ?_, f5, by omega⟩
      · rw [← s3, ← target_congr Pp Dp p p0 f3 f2]; exact htg
      · rw [← decoded_value_congr Pp Dp Vp p p0 a a0 f1 g2]; exact hv
      · rw [← last_index_congr Pp a a0 g2]
        obtain ⟨ptr', a', val', h1, h2, _, _, _, h6', _⟩ :=
          dispatch_ok_full Pp Dp F Vp _ _ _ _ _ _ _ _ _ hd
        rw [htg] at h1
        simp only [Option.some.injEq] at h1
        subst h1
        rw [ha] at h2
        simp only [Option.some.injEq] at h2
        subst h2
        exact h6'

/-- The log of a walk covers the tokens that the walk has passed: each of them is the token of
an entry or the token that the entry before it used as its value. -/
theorem trace_cover (Pp : prefix_policy) (Dp : delim_policy) (F : double_lib)
    (Vp : value_decoder) (p0 : parser) (mem0 : Store) (log : List bound) (p : parser)
    (mem : Store) (index position : Nat)
    (h : parser.Trace Pp Dp F Vp p0 mem0 log p mem index position) :
    ∀ j, 1 ≤ j → j < index → ∃ b ∈ log, b.index = j ∨ (b.index + 1 = j ∧ b.last = j) := by
  induction h with
  | start => intro j h1 h2; omega
  | @step log p mem index position token p1 mem1 index1 position1 ptr a val hr ht hd htg ha hv
      ih =>
    intro j h1 h2
    obtain ⟨ptr', a', val', _, _, _, _, _, h6, _⟩ :=
      dispatch_ok_full Pp Dp F Vp _ _ _ _ _ _ _ _ _ hd
    have hb := last_index_bounds Pp a' token index
    by_cases hj : j < index
    · obtain ⟨b, hb, hc⟩ := ih j h1 hj
      exact ⟨b, List.mem_append_left _ hb, hc⟩
    · refine ⟨_, List.mem_append_right _ (List.mem_singleton_self _), ?_⟩
      simp only []
      by_cases hji : j = index
      · left; exact hji.symm
      · right; omega

/-! ## Errors stop the walk; a second run -/

/-- A dispatch that reports an error writes no variable, and changes the engine at most by
marking one record. -/
theorem dispatch_error_frame (Pp : prefix_policy) (Dp : delim_policy) (F : double_lib)
    (Vp : value_decoder) (p : parser) (mem : Store) (token : String) (index position : Nat)
    (error : String) (p1 : parser) (mem1 : Store) (index1 position1 : Nat)
    (h : parser.dispatch Pp Dp F Vp p mem token index position
      = some ((some error, p1, mem1), index1, position1)) :
    mem1 = mem ∧ (p1 = p ∨ ∃ it a, p.heap[it]? = some a ∧ p1 = p.set_provided it) := by
  rw [dispatch_eq_effect] at h
  cases he : parser.effect_of Pp Dp F Vp p token index position with
  | none => simp [he] at h
  | some e =>
    have hsh := effect_of_shape Pp Dp F Vp p token index position e he
    simp only [he, Option.map_some', effect.run, Option.some.injEq, Prod.mk.injEq] at h
    obtain ⟨⟨h1, h2, h3⟩, _, _⟩ := h
    have hw : e.write = none := hsh.2.2 (by rw [h1]; simp)
    refine ⟨?_, ?_⟩
    · rw [← h3]; unfold effect.store; rw [hw]
    · rw [← h2]
      unfold effect.engine
      cases hm : e.mark with
      | none => left; rfl
      | some it =>
        right
        obtain ⟨a, ha⟩ := hsh.1 it hm
        exact ⟨it, a, ha, rfl⟩

/-- C12: `parse` returns the first error and stops there.  If the walk of `parse` arrives at
the token at `index` (every earlier token was processed without error, leaving the store `mem`)
and the dispatch of that token reports `error`, then `parse` returns exactly `error`, whatever
the later tokens are and whatever the required sweep would report; and the store that `parse`
leaves is `mem`: neither the failing token nor any later token has written a variable, so every
variable holds what it held after the tokens before `index`.  The engine is as the walk left
it, except that the record of the failing token may have been marked provided. -/
theorem parse_stops_at_first_error (Pp : prefix_policy) (Dp : delim_policy)
    (F : double_lib) (Vp : value_decoder) (p0 : parser) (mem0 : Store) (p : parser)
    (mem : Store) (index position : Nat) (token error : String) (p1 : parser) (mem1 : Store)
    (index1 position1 : Nat)
    (hr : parser.Reaches Pp Dp F Vp p0 mem0 p mem index position)
    (ht : p.m_argv[index]? = some token)
    (hd : parser.dispatch Pp Dp F Vp p mem token index position
      = some ((some error, p1, mem1), index1, position1)) :
    parser.parse Pp Dp F Vp p0 mem0 = some (some error, p1, mem1)
      ∧ mem1 = mem
      ∧ (p1 = p ∨ ∃ it a, p.heap[it]? = some a ∧ p1 = p.set_provided it) := by
  obtain ⟨h1, h2⟩ := dispatch_error_frame Pp Dp F Vp p mem token index position error p1 mem1
    index1 position1 hd
  refine ⟨?_, h1, h2⟩
  rw [reaches_parse Pp Dp F Vp p0 mem0 p mem index position hr (p.m_argv.length + 1)
    (by omega)]
  exact parse_loop_error Pp Dp F Vp _ p mem index position token error p1 mem1 index1
    position1 ht hd

/-- C12 witness: in `[prog, in, --bogus, -o, out]` with the required positional `input` and
the required option `--output` or `-o`, the token `--bogus` is the first that fails: `parse`
returns `unknown option: --bogus`, not the missing required option; `input` holds `in` and the
variable of `--output` is untouched although `-o out` follows. -/
theorem parse_stops_at_first_error_witness :
    parser.parse default_prefix_policy default_delim_policy no_double
        (default_value_parser_parse no_double)
        (test_required_engine ["prog", "in", "--bogus", "-o", "out"]) test_store
      = some (some "unknown option: --bogus",
          (test_required_engine ["prog", "in", "--bogus", "-o", "out"]).set_provided 0,
          test_store.write 1 (.path ⟨"in"⟩))
    ∧ test_store.write 1 (.path ⟨"in"⟩) = test_store.write 1 (.path ⟨"in"⟩)
    ∧ ((test_required_engine ["prog", "in", "--bogus", "-o", "out"]).set_provided 0
          = (test_required_engine ["prog", "in", "--bogus", "-o", "out"]).set_provided 0
        ∨ ∃ it a,
          ((test_required_engine ["prog", "in", "--bogus", "-o", "out"]).set_provided 0).heap[it]?
            = some a
          ∧ (test_required_engine ["prog", "in", "--bogus", "-o", "out"]).set_provided 0
            = ((test_required_engine ["prog", "in", "--bogus", "-o", "out"]).set_provided
                0).set_provided it) :=
  parse_stops_at_first_error default_prefix_policy default_delim_policy no_double
    (default_value_parser_parse no_double)
    (test_required_engine ["prog", "in", "--bogus", "-o", "out"]) test_store
    ((test_required_engine ["prog", "in", "--bogus", "-o", "out"]).set_provided 0)
    (test_store.write 1 (.path ⟨"in"⟩)) 2 1 "--bogus" "unknown option: --bogus"
    ((test_required_engine ["prog", "in", "--bogus", "-o", "out"]).set_provided 0)
    (test_store.write 1 (.path ⟨"in"⟩)) 2 1
    (@parser.Reaches.step default_prefix_policy default_delim_policy no_double
      (default_value_parser_parse no_double)
      (test_required_engine ["prog", "in", "--bogus", "-o", "out"])
      test_store (test_required_engine ["prog", "in", "--bogus", "-o", "out"]) test_store 1 0
      "in" ((test_required_engine ["prog", "in", "--bogus", "-o", "out"]).set_provided 0)
      (test_store.write 1 (.path ⟨"in"⟩)) 1 1 parser.Reaches.start (by decide) rfl)
    (by decide) rfl

/-- C16: a second `parse` on the same engine is redundant.  If `parse` on the engine `p0` with
the variables `mem0` returns the result `r` and leaves the engine `p1` and the variables `mem1`,
then `parse` on `p1` with `mem1` returns the same `r` and leaves the same engine `p1` and the
same variables `mem1`: every variable has the value it had after the first call. -/
theorem second_parse_is_redundant (Pp : prefix_policy) (Dp : delim_policy)
    (F : double_lib) (Vp : value_decoder) (p0 : parser) (mem0 : Store)
    (r : Option String) (p1 : parser) (mem1 : Store)
    (h : parser.parse Pp Dp F Vp p0 mem0 = some (r, p1, mem1)) :
    parser.parse Pp Dp F Vp p1 mem1 = some (r, p1, mem1) := by
  unfold parser.parse at h ⊢
  obtain ⟨hs, _, hre⟩ := parse_loop_rerun Pp Dp F Vp _ p0 mem0 1 0 r p1 mem1 h
  obtain ⟨memf2, h1, h2⟩ := hre mem1
  rw [hs.1, h1]
  have : memf2 = mem1 := by
    funext addr
    rcases h2 addr with h3 | ⟨h3, _⟩ <;> exact h3
  rw [this]

/-- C16 witness: the stream `[prog, --do-thing, src/in, -o, dst/out]` of `full_happy_path` in
test.cpp parsed twice: the second call succeeds like the first and leaves the three variables
as the first call left them. -/
theorem second_parse_is_redundant_witness :
    parser.parse default_prefix_policy default_delim_policy no_double
        (default_value_parser_parse no_double)
        (((((test_full_engine ["prog", "--do-thing", "src/in", "-o", "dst/out"]).set_provided
          2).set_provided 0).set_provided 1))
        (((test_store.write 0 (.bool true)).write 1 (.path ⟨"src/in"⟩)).write 2
          (.path ⟨"dst/out"⟩))
      = some (none,
        (((((test_full_engine ["prog", "--do-thing", "src/in", "-o", "dst/out"]).set_provided
          2).set_provided 0).set_provided 1)),
        (((test_store.write 0 (.bool true)).write 1 (.path ⟨"src/in"⟩)).write 2
          (.path ⟨"dst/out"⟩))) :=
  second_parse_is_redundant default_prefix_policy default_delim_policy no_double
    (default_value_parser_parse no_double)
    (test_full_engine ["prog", "--do-thing", "src/in", "-o", "dst/out"]) test_store none
    (((((test_full_engine ["prog", "--do-thing", "src/in", "-o", "dst/out"]).set_provided
          2).set_provided 0).set_provided 1))
    (((test_store.write 0 (.bool true)).write 1 (.path ⟨"src/in"⟩)).write 2
          (.path ⟨"dst/out"⟩))
    rfl

/-! ## The type checks under the default decoder -/

theorem binder_effect_pass (a : argument) (val : value) (hT : a.m_bind.T = a.m_type)
    (hty : val.type = a.m_type) (it index position position1 : Nat) :
    a.decl.m_bind.effect val it index position position1
      = ⟨none, some it, some (a.m_bind.bind, val), index, position1⟩ := by
  unfold detail.binder.effect argument.decl
  simp [hT, hty]

/-- With the default decoder, an error of a dispatch on a well-formed engine is never the
error of `m_type_check` or of the write-back. -/
theorem dispatch_error_cause (Pp : prefix_policy) (Dp : delim_policy) (F : double_lib)
    (p : parser) (mem : Store) (token : String) (index position : Nat)
    (error : String) (p1 : parser) (mem1 : Store) (index1 position1 : Nat)
    (hwf : p.wf)
    (h : parser.dispatch Pp Dp F (default_value_parser_parse F) p mem token index position
      = some ((some error, p1, mem1), index1, position1)) :
    parser.failure_cause Pp Dp (default_value_parser_parse F) p token index position error := by
  rw [dispatch_eq_effect] at h
  cases he : parser.effect_of Pp Dp F (default_value_parser_parse F) p token index position with
  | none => simp [he] at h
  | some e =>
    simp only [he, Option.map_some', effect.run, Option.some.injEq, Prod.mk.injEq] at h
    obtain ⟨⟨h1, _, _⟩, _, _⟩ := h
    unfold parser.failure_cause parser.classify
    unfold parser.effect_of at he
    by_cases hl : starts_with token Pp.long_prefix = true
    · rw [if_pos hl] at he
      simp only [hl, if_true, true_and, false_and, false_or, or_false, reduceCtorEq]
      unfold parser.long_opt_effect parser.decl_at at he
      cases hf : map_find p.m_options (parser.long_opt_split Dp token).1 with
      | none =>
        simp only [hf, Option.some.injEq] at he
        rw [← he] at h1
        simp only [Option.some.injEq] at h1
        left; exact ⟨rfl, h1.symm⟩
      | some it =>
        cases hh : p.heap[it]? with
        | none => simp [hf, hh] at he
        | some opt0 =>
          have hT := (hwf.1 opt0 (List.getElem?_mem hh)).1
          simp only [hf, hh, Option.map_some'] at he
          have hdecl : opt0.decl.m_type = opt0.m_type := rfl
          rw [hdecl] at he
          cases hv : default_value_parser_parse F (parser.long_opt_split Dp token).2
              opt0.m_type with
          | none => simp [hv] at he
          | some r =>
            cases r with
            | error err =>
              simp only [hv] at he
              split_ifs at he with hb
              · rw [binder_effect_pass opt0 _ hT (by rw [hb]; rfl)] at he
                simp only [Option.some.injEq] at he
                rw [← he] at h1
                simp at h1
              · simp only [Option.some.injEq] at he
                rw [← he] at h1
                simp only [Option.some.injEq] at h1
                right
                exact ⟨it, opt0, err, rfl, hh, hb, hv, h1.symm⟩
            | ok val =>
              have hty := default_parse_type F _ _ _ hv
              simp only [hv, type_check_pass F token val opt0.decl hty] at he
              rw [binder_effect_pass opt0 _ hT hty] at he
              simp only [Option.some.injEq] at he
              rw [← he] at h1
              simp at h1
    · rw [if_neg hl] at he
      by_cases hs : starts_with token Pp.short_prefix = true
      · rw [if_pos hs] at he
        simp only [hl, hs, if_true, if_false, true_and, false_and, false_or, or_false,
          reduceCtorEq]
        unfold parser.short_opt_effect parser.decl_at at he
        cases hf : map_find p.m_options token with
        | none =>
          simp only [hf, Option.some.injEq] at he
          rw [← he] at h1
          simp only [Option.some.injEq] at h1
          left; exact ⟨rfl, h1.symm⟩
        | some it =>
          cases hh : p.heap[it]? with
          | none => simp [hf, hh] at he
          | some opt0 =>
            have hT := (hwf.1 opt0 (List.getElem?_mem hh)).1
            simp only [hf, hh, Option.map_some'] at he
            have hdecl : opt0.decl.m_type = opt0.m_type := rfl
            rw [hdecl] at he
            split_ifs at he with hb hlast
            · rw [binder_effect_pass opt0 _ hT (by rw [hb]; rfl)] at he
              simp only [Option.some.injEq] at he
              rw [← he] at h1
              simp at h1
            · simp only [Option.some.injEq] at he
              rw [← he] at h1
              simp only [Option.some.injEq] at h1
              right
              exact ⟨it, opt0, rfl, hh, hb, hlast, h1.symm⟩
            · cases hn : p.m_argv[index + 1]? with
              | none => simp [hn] at he
              | some next =>
                simp only [hn] at he
                cases hv : default_value_parser_parse F next opt0.m_type with
                | none => simp [hv] at he
                | some r =>
                  cases r with
                  | error err => simp [hv] at he
                  | ok val =>
                    have hty := default_parse_type F _ _ _ hv
                    simp only [hv, type_check_pass F token val opt0.decl hty] at he
                    rw [binder_effect_pass opt0 _ hT hty] at he
                    simp only [Option.some.injEq] at he
                    rw [← he] at h1
                    simp at h1
      · rw [if_neg hs] at he
        simp only [hl, hs, if_false, true_and, false_and, false_or, reduceCtorEq]
        unfold parser.positional_effect parser.decl_at at he
        split_ifs at he with hp
        · simp only [Option.some.injEq] at he
          rw [← he] at h1
          simp only [Option.some.injEq] at h1
          left; exact ⟨hp, h1.symm⟩
        · cases hq : p.m_positionals[position]? with
          | none => simp [hq] at he
          | some ptr =>
            cases hh : p.heap[ptr]? with
            | none => simp [hq, hh] at he
            | some a0 =>
              have hT := (hwf.1 a0 (List.getElem?_mem hh)).1
              simp only [hq, hh, Option.map_some'] at he
              have hdecl : a0.decl.m_type = a0.m_type := rfl
              rw [hdecl] at he
              cases hv : default_value_parser_parse F token a0.m_type with
              | none => simp [hv] at he
              | some r =>
                cases r with
                | error err =>
                  simp only [hv, Option.some.injEq] at he
                  rw [← he] at h1
                  simp only [Option.some.injEq] at h1
                  right
                  exact ⟨ptr, a0, rfl, hh, by rw [← h1]; exact hv⟩
                | ok val =>
                  have hty := default_parse_type F _ _ _ hv
                  simp only [hv, type_check_pass F token val a0.decl hty] at he
                  rw [binder_effect_pass a0 _ hT hty] at he
                  simp only [Option.some.injEq] at he
                  rw [← he] at h1
                  simp at h1

/-- C15: with the default decoder the type check can never fail.  (1) For every raw text and
expected type, a value that `default_value_parser::parse` returns has the expected type as its
alternative.  (2) Hence, for a record as registration creates it (the binder writes a variable
of the record's type) and any value the default decoder returns for the record's type,
`m_type_check` returns no error and the write-back returns no error; the same holds for the
`true` that the option methods bind to a boolean record without decoding.  (3) Hence every
error that a dispatch of `parse` with the default decoder reports on a well-formed engine has
one of the other causes: unknown option, undecodable value, missing value, or unexpected
positional; the errors of `m_type_check` and of the write-back are not reachable. -/
theorem default_decoder_never_fails_type_check (F : double_lib) :
    (∀ (raw : String) (ty : type_info) (val : value),
      default_value_parser_parse F raw ty = some (.ok val) → val.type = ty)
    ∧ (∀ (a : argument) (name raw : String) (val : value) (mem : Store),
      a.m_bind.T = a.m_type →
      default_value_parser_parse F raw a.m_type = some (.ok val) →
      parser.m_type_check F name val { a with m_provided := true } = none
        ∧ a.m_bind.call val mem = (none, mem.write a.m_bind.bind val))
    ∧ (∀ (a : argument) (mem : Store), a.m_bind.T = a.m_type → a.m_type = .bool →
      a.m_bind.call (.bool true) mem = (none, mem.write a.m_bind.bind (.bool true)))
    ∧ (∀ (Pp : prefix_policy) (Dp : delim_policy) (p : parser) (mem : Store)
        (token : String) (index position : Nat) (error : String) (p1 : parser) (mem1 : Store)
        (index1 position1 : Nat),
      p.wf →
      parser.dispatch Pp Dp F (default_value_parser_parse F) p mem token index position
        = some ((some error, p1, mem1), index1, position1) →
      parser.failure_cause Pp Dp (default_value_parser_parse F) p token index position
        error) := by
  refine ⟨default_parse_type F, ?_, ?_, ?_⟩
  · intro a name raw val mem hT hv
    have hty := default_parse_type F _ _ _ hv
    refine ⟨type_check_pass F name val _ hty, ?_⟩
    rw [binder_call_eq, if_pos (by rw [hT, hty])]
  · intro a mem hT hb
    rw [binder_call_eq, if_pos (by rw [hT, hb]; rfl)]
  · intro Pp Dp p mem token index position error p1 mem1 index1 position1 hwf h
    exact dispatch_error_cause Pp Dp F p mem token index position error p1 mem1 index1
      position1 hwf h

/-- C15 witness: the text `-7` decoded as `int64_t` is an `int64_t`; it passes both checks of
a record of that type; and the error of `--num=x` on the engine with the `int64_t` option
`--num` is the decode error of the inline value. -/
theorem default_decoder_never_fails_type_check_witness :
    (value.int64 (-7)).type = .int64_t
    ∧ (parser.m_type_check no_double "--num" (.int64 (-7))
          { m_type := .int64_t, m_names := ["--num", "-n"], m_bind := ⟨.int64_t, 0, "--num"⟩,
            m_provided := true } = none
        ∧ detail.binder.call ⟨.int64_t, 0, "--num"⟩ (.int64 (-7)) test_store
          = (none, test_store.write 0 (.int64 (-7))))
    ∧ parser.failure_cause default_prefix_policy default_delim_policy
        (default_value_parser_parse no_double) (test_number_engine ["prog", "--num=x"])
        "--num=x" 1 0 "--num=x: bad value (int64)" :=
  ⟨(default_decoder_never_fails_type_check no_double).1 "-7" .int64_t (.int64 (-7))
      (by decide),
    (default_decoder_never_fails_type_check no_double).2.1
      { m_type := .int64_t, m_names := ["--num", "-n"], m_bind := ⟨.int64_t, 0, "--num"⟩ }
      "--num" "-7" (.int64 (-7)) test_store rfl (by decide),
    (default_decoder_never_fails_type_check no_double).2.2.2 default_prefix_policy
      default_delim_policy (test_number_engine ["prog", "--num=x"]) test_store "--num=x" 1 0
      "--num=x: bad value (int64)" ((test_number_engine ["prog", "--num=x"]).set_provided 0)
      test_store 1 0 (by decide) rfl⟩

/-! ## Positionals in declaration order -/

theorem classify_positional (Pp : prefix_policy) (token : String) :
    parser.classify Pp token = .positional
      ↔ starts_with token Pp.long_prefix = false ∧ starts_with token Pp.short_prefix = false := by
  unfold parser.classify
  by_cases hl : starts_with token Pp.long_prefix = true
  · simp [hl]
  · by_cases hs : starts_with token Pp.short_prefix = true
    · simp [hl, hs]
    · simp [hl, hs]

theorem classify_long (Pp : prefix_policy) (token : String) :
    parser.classify Pp token = .long_opt ↔ starts_with token Pp.long_prefix = true := by
  unfold parser.classify
  by_cases hl : starts_with token Pp.long_prefix = true
  · simp [hl]
  · by_cases hs : starts_with token Pp.short_prefix = true
    · simp [hl, hs]
    · simp [hl, hs]

theorem classify_short (Pp : prefix_policy) (token : String) :
    parser.classify Pp token = .short_opt
      ↔ starts_with token Pp.long_prefix = false ∧ starts_with token Pp.short_prefix = true := by
  unfold parser.classify
  by_cases hl : starts_with token Pp.long_prefix = true
  · simp [hl]
  · by_cases hs : starts_with token Pp.short_prefix = true
    · simp [hl, hs]
    · simp [hl, hs]

/-- Dispatch of a positional token whose text does not decode. -/
theorem dispatch_positional_error (Pp : prefix_policy) (Dp : delim_policy) (F : double_lib)
    (Vp : value_decoder) (p : parser) (mem : Store) (token : String) (index position : Nat)
    (ptr : Nat) (a : argument) (e : String)
    (hc : parser.classify Pp token = .positional)
    (hq : p.m_positionals[position]? = some ptr)
    (ha : p.heap[ptr]? = some a)
    (hv : Vp token a.m_type = some (.error e)) :
    parser.dispatch Pp Dp F Vp p mem token index position
      = some ((some e, p.set_provided ptr, mem), index, position) := by
  obtain ⟨hl, hs⟩ := (classify_positional Pp token).mp hc
  have hlt : ¬ (position ≥ p.m_positionals.length) := by
    have := (List.getElem?_eq_some_iff.mp hq).1
    omega
  unfold parser.dispatch
  simp [hl, hs, parser.m_parse_positional, hlt, hq, ha, hv]

/-- Dispatch of a positional token when every registered positional has been filled. -/
theorem dispatch_positional_surplus (Pp : prefix_policy) (Dp : delim_policy) (F : double_lib)
    (Vp : value_decoder) (p : parser) (mem : Store) (token : String) (index position : Nat)
    (hc : parser.classify Pp token = .positional)
    (hn : p.m_positionals.length ≤ position) :
    parser.dispatch Pp Dp F Vp p mem token index position
      = some ((some ("unexpected positional argument #" ++ Nat.repr position), p, mem),
          index, position) := by
  obtain ⟨hl, hs⟩ := (classify_positional Pp token).mp hc
  unfold parser.dispatch
  simp [hl, hs, parser.m_parse_positional, hn]

/-- The option methods do not touch the position counter. -/
theorem dispatch_option_position (Pp : prefix_policy) (Dp : delim_policy) (F : double_lib)
    (Vp : value_decoder) (p : parser) (mem : Store) (token : String) (index position : Nat)
    (o : Outcome) (index1 position1 : Nat)
    (hc : parser.classify Pp token ≠ .positional)
    (h : parser.dispatch Pp Dp F Vp p mem token index position
      = some (o, index1, position1)) : position1 = position := by
  unfold parser.dispatch at h
  by_cases hl : starts_with token Pp.long_prefix = true
  · rw [if_pos hl] at h
    cases hm : parser.m_parse_long_opt Dp F Vp p mem token with
    | none => simp [hm] at h
    | some o1 =>
      simp only [hm, Option.some.injEq, Prod.mk.injEq] at h
      exact h.2.2.symm
  · rw [if_neg hl] at h
    by_cases hs : starts_with token Pp.short_prefix = true
    · rw [if_pos hs] at h
      cases hm : parser.m_parse_short_opt F Vp p mem token index with
      | none => simp [hm] at h
      | some o1 =>
        obtain ⟨o1, i1⟩ := o1
        simp only [hm, Option.some.injEq, Prod.mk.injEq] at h
        exact h.2.2.symm
    · exfalso
      apply hc
      rw [classify_positional]
      exact ⟨by simpa using hl, by simpa using hs⟩

/-- The position counter never passes the number of registered positionals. -/
theorem trace_position_le (Pp : prefix_policy) (Dp : delim_policy) (F : double_lib)
    (Vp : value_decoder) (p0 : parser) (mem0 : Store) (log : List bound) (p : parser)
    (mem : Store) (index position : Nat)
    (h : parser.Trace Pp Dp F Vp p0 mem0 log p mem index position) :
    position ≤ p0.m_positionals.length := by
  induction h with
  | start => exact Nat.zero_le _
  | @step log p mem index position token p1 mem1 index1 position1 ptr a val hr ht hd htg ha hv
      ih =>
    have hreach := trace_reaches Pp Dp F Vp p0 mem0 log p mem index position hr
    obtain ⟨_, f2, _⟩ := reaches_frame Pp Dp F Vp p0 mem0 p mem index position hreach
    obtain ⟨_, _, _, _, _, _, _, _, _, h7⟩ := dispatch_ok_full Pp Dp F Vp _ _ _ _ _ _ _ _ _ hd
    rw [h7]
    unfold parser.next_position
    split_ifs with hc
    · unfold parser.target at htg
      rw [hc] at htg
      simp only [] at htg
      have := (List.getElem?_eq_some_iff.mp htg).1
      rw [f2] at this
      omega
    · exact ih

/-- C11: positionals are filled strictly in declaration order.  Take a walk of `parse` on a
well-formed engine with its log, and let `k` be the number of tokens that the walk has
dispatched to the positional path.  Then the position counter is `k` (option tokens and the
tokens used as a short option's value are not counted) and `k` is at most the number `n` of
registered positionals; a dispatch through an option method leaves the counter as it is; a
positional entry of the log with `j` positional entries before it was decoded against the type
of, and written to the variable of, the positional number `j`, and nothing else was written for
it (the store is the initial store with the writes of the log, one per entry); the next
positional token, if `k < n`, is decoded against
the type of positional number `k`: a decode error is returned as it is and a decoded value of
that type is written to the variable of that positional, and to no other; and if `k = n`,
`parse` returns `unexpected positional argument #n` and leaves store and engine as they were
before that token. -/
theorem positionals_fill_in_declaration_order (Pp : prefix_policy) (Dp : delim_policy)
    (F : double_lib) (Vp : value_decoder) (p0 : parser) (mem0 : Store) (log : List bound)
    (p : parser) (mem : Store) (index position : Nat)
    (hwf : p0.wf)
    (h : parser.Trace Pp Dp F Vp p0 mem0 log p mem index position) :
    position = bound.positionals log
    ∧ position ≤ p0.m_positionals.length
    ∧ mem = bound.replay log mem0
    ∧ (∀ (token : String) (o : Outcome) (index1 position1 : Nat),
        parser.classify Pp token ≠ .positional →
        parser.dispatch Pp Dp F Vp p mem token index position = some (o, index1, position1) →
        position1 = position)
    ∧ (∀ (i : Nat) (b : bound), log[i]? = some b → b.path = .positional →
        ∃ token a, p0.m_argv[b.index]? = some token
          ∧ parser.classify Pp token = .positional
          ∧ p0.m_positionals[bound.positionals (log.take i)]? = some b.ptr
          ∧ p0.heap[b.ptr]? = some a
          ∧ Vp token a.m_type = some (.ok b.val)
          ∧ b.addr = a.m_bind.bind)
    ∧ (∀ (token : String) (ptr : Nat), p.m_argv[index]? = some token →
        parser.classify Pp token = .positional →
        p0.m_positionals[position]? = some ptr →
        ∃ a, p.heap[ptr]? = some a
          ∧ (∀ e, Vp token a.m_type = some (.error e) →
              parser.parse Pp Dp F Vp p0 mem0 = some (some e, p.set_provided ptr, mem))
          ∧ (∀ val, Vp token a.m_type = some (.ok val) → val.type = a.m_type →
              parser.dispatch Pp Dp F Vp p mem token index position
                = some ((none, p.set_provided ptr, mem.write a.m_bind.bind val),
                    index, position + 1)))
    ∧ (∀ (token : String), p.m_argv[index]? = some token →
        parser.classify Pp token = .positional →
        position = p0.m_positionals.length →
        parser.parse Pp Dp F Vp p0 mem0
          = some (some ("unexpected positional argument #"
              ++ Nat.repr p0.m_positionals.length), p, mem)) := by
  have hreach := trace_reaches Pp Dp F Vp p0 mem0 log p mem index position h
  obtain ⟨f1, f2, f3, f4, f5⟩ := reaches_frame Pp Dp F Vp p0 mem0 p mem index position hreach
  have hpwf := reaches_wf Pp Dp F Vp p0 mem0 p mem index position hreach hwf
  obtain ⟨s1, s2, s3⟩ := trace_state Pp Dp F Vp p0 mem0 log p mem index position h
  refine ⟨s3, trace_position_le Pp Dp F Vp p0 mem0 log p mem index position h, s1, ?_, ?_,
    ?_, ?_⟩
  · intro token o index1 position1 hc hd
    exact dispatch_option_position Pp Dp F Vp p mem token index position o index1 position1
      hc hd
  · intro i b hb hpath
    obtain ⟨token, a0, e1, e2, e3, e4, e5, e6, _⟩ :=
      trace_entry Pp Dp F Vp p0 mem0 log p mem index position h i b hb
    rw [hpath] at e2
    refine ⟨token, a0, e1, e2.symm, ?_, e4, ?_, e5⟩
    · unfold parser.target at e3
      rw [← e2] at e3
      exact e3
    · unfold parser.decoded_value at e6
      rw [← e2] at e6
      simp only [] at e6
      cases hv : Vp token a0.m_type with
      | none => simp [hv] at e6
      | some r =>
        cases r with
        | error e => simp [hv] at e6
        | ok val =>
          simp only [hv, Option.some.injEq] at e6
          rw [e6]
  · intro token ptr ht hc hq
    have hlt : ptr < p.heap.length := hpwf.2.1 ptr (by rw [f2]; exact List.getElem?_mem hq)
    refine ⟨p.heap[ptr], List.getElem?_eq_getElem hlt, ?_, ?_⟩
    · intro e hv
      have hd := dispatch_positional_error Pp Dp F Vp p mem token index position ptr _ e hc
        (by rw [f2]; exact hq) (List.getElem?_eq_getElem hlt) hv
      rw [reaches_parse Pp Dp F Vp p0 mem0 p mem index position hreach (p.m_argv.length + 1)
        (by omega)]
      exact parse_loop_error Pp Dp F Vp _ p mem index position token e _ _ _ _ ht hd
    · intro val hv hty
      obtain ⟨hl, hs⟩ := (classify_positional Pp token).mp hc
      exact dispatch_positional Pp Dp F Vp p mem token index position ptr _ val hl hs
        (by rw [f2]; exact hq) (List.getElem?_eq_getElem hlt) hv
        (hpwf.1 _ (List.getElem_mem _)).1 hty
  · intro token ht hc hn
    have hd := dispatch_positional_surplus Pp Dp F Vp p mem token index position hc
      (by rw [f2, hn])
    rw [reaches_parse Pp Dp F Vp p0 mem0 p mem index position hreach (p.m_argv.length + 1)
      (by omega)]
    rw [← hn]
    exact parse_loop_error Pp Dp F Vp _ p mem index position token _ _ _ _ _ ht hd

/-- C11 witness: in `[prog, a, -v, b, c]` with the positionals `src` and `dst` and the flag
`--verbose` or `-v`, the walk binds `a` to `src`, `-v` to the flag and `b` to `dst`; the
counter is 2, the flag token not counted; and the third positional token `c` makes `parse`
return `unexpected positional argument #2` with nothing written for it. -/
theorem positionals_fill_in_declaration_order_witness :
    2 = bound.positionals
        [⟨1, 1, .positional, 0, 1, .path ⟨"a"⟩⟩, ⟨2, 2, .short_opt, 2, 0, .bool true⟩,
          ⟨3, 3, .positional, 1, 2, .path ⟨"b"⟩⟩]
    ∧ parser.parse default_prefix_policy default_delim_policy no_double
        (default_value_parser_parse no_double)
        (test_pair_engine ["prog", "a", "-v", "b", "c"]) test_store
      = some (some ("unexpected positional argument #"
            ++ Nat.repr (test_pair_engine ["prog", "a", "-v", "b", "c"]).m_positionals.length),
          (((test_pair_engine ["prog", "a", "-v", "b", "c"]).set_provided 0).set_provided
            2).set_provided 1,
          ((test_store.write 1 (.path ⟨"a"⟩)).write 0 (.bool true)).write 2 (.path ⟨"b"⟩)) := by
  have t1 : parser.Trace default_prefix_policy default_delim_policy no_double
      (default_value_parser_parse no_double)
      (test_pair_engine ["prog", "a", "-v", "b", "c"]) test_store
      [⟨1, 1, .positional, 0, 1, .path ⟨"a"⟩⟩]
      ((test_pair_engine ["prog", "a", "-v", "b", "c"]).set_provided 0)
      (test_store.write 1 (.path ⟨"a"⟩)) 2 1 :=
    @parser.Trace.step default_prefix_policy default_delim_policy no_double
      (default_value_parser_parse no_double)
      (test_pair_engine ["prog", "a", "-v", "b", "c"]) test_store []
      (test_pair_engine ["prog", "a", "-v", "b", "c"]) test_store 1 0 "a"
      ((test_pair_engine ["prog", "a", "-v", "b", "c"]).set_provided 0)
      (test_store.write 1 (.path ⟨"a"⟩)) 1 1 0 test_src_record (.path ⟨"a"⟩)
      parser.Trace.start (by decide) rfl (by decide) (by decide) (by decide)
  have t2 : parser.Trace default_prefix_policy default_delim_policy no_double
      (default_value_parser_parse no_double)
      (test_pair_engine ["prog", "a", "-v", "b", "c"]) test_store
      [⟨1, 1, .positional, 0, 1, .path ⟨"a"⟩⟩, ⟨2, 2, .short_opt, 2, 0, .bool true⟩]
      (((test_pair_engine ["prog", "a", "-v", "b", "c"]).set_provided 0).set_provided 2)
      ((test_store.write 1 (.path ⟨"a"⟩)).write 0 (.bool true)) 3 1 :=
    @parser.Trace.step default_prefix_policy default_delim_policy no_double
      (default_value_parser_parse no_double)
      (test_pair_engine ["prog", "a", "-v", "b", "c"]) test_store
      [⟨1, 1, .positional, 0, 1, .path ⟨"a"⟩⟩]
      ((test_pair_engine ["prog", "a", "-v", "b", "c"]).set_provided 0)
      (test_store.write 1 (.path ⟨"a"⟩)) 2 1 "-v"
      (((test_pair_engine ["prog", "a", "-v", "b", "c"]).set_provided 0).set_provided 2)
      ((test_store.write 1 (.path ⟨"a"⟩)).write 0 (.bool true)) 2 1 2 test_verbose_record
      (.bool true) t1 (by decide) rfl (by decide) (by decide) (by decide)
  have t3 : parser.Trace default_prefix_policy default_delim_policy no_double
      (default_value_parser_parse no_double)
      (test_pair_engine ["prog", "a", "-v", "b", "c"]) test_store
      [⟨1, 1, .positional, 0, 1, .path ⟨"a"⟩⟩, ⟨2, 2, .short_opt, 2, 0, .bool true⟩,
        ⟨3, 3, .positional, 1, 2, .path ⟨"b"⟩⟩]
      ((((test_pair_engine ["prog", "a", "-v", "b", "c"]).set_provided 0).set_provided
        2).set_provided 1)
      (((test_store.write 1 (.path ⟨"a"⟩)).write 0 (.bool true)).write 2 (.path ⟨"b"⟩)) 4 2 :=
    @parser.Trace.step default_prefix_policy default_delim_policy no_double
      (default_value_parser_parse no_double)
      (test_pair_engine ["prog", "a", "-v", "b", "c"]) test_store
      [⟨1, 1, .positional, 0, 1, .path ⟨"a"⟩⟩, ⟨2, 2, .short_opt, 2, 0, .bool true⟩]
      (((test_pair_engine ["prog", "a", "-v", "b", "c"]).set_provided 0).set_provided 2)
      ((test_store.write 1 (.path ⟨"a"⟩)).write 0 (.bool true)) 3 1 "b"
      ((((test_pair_engine ["prog", "a", "-v", "b", "c"]).set_provided 0).set_provided
        2).set_provided 1)
      (((test_store.write 1 (.path ⟨"a"⟩)).write 0 (.bool true)).write 2 (.path ⟨"b"⟩)) 3 2 1
      test_dst_record (.path ⟨"b"⟩) t2 (by decide) rfl (by decide) (by decide) (by decide)
  have h := positionals_fill_in_declaration_order default_prefix_policy default_delim_policy
    no_double (default_value_parser_parse no_double)
    (test_pair_engine ["prog", "a", "-v", "b", "c"]) test_store _ _ _ _ _ (by decide) t3
  exact ⟨h.1, h.2.2.2.2.2.2 "c" (by decide) (by decide) (by decide)⟩

/-! ## Repeated options -/

theorem replay_skip (l : List bound) (addr : Nat) (h : ∀ c ∈ l, c.addr ≠ addr) :
    ∀ mem : Store, bound.replay l mem addr = mem addr := by
  induction l with
  | nil => intro mem; rfl
  | cons c l ih =>
    intro mem
    have hc := h c (List.mem_cons_self _ _)
    simp only [bound.replay, List.foldl_cons] at ih ⊢
    rw [ih (fun d hd => h d (List.mem_cons_of_mem _ hd))]
    simp only [Store.write]
    rw [if_neg (fun he => hc he.symm)]

/-- The last write of a log to a variable decides what the variable holds. -/
theorem replay_last (log : List bound) (mem0 : Store) (i : Nat) (b : bound)
    (hb : log[i]? = some b)
    (hlast : ∀ (j : Nat) (c : bound), i < j → log[j]? = some c → c.addr ≠ b.addr) :
    bound.replay log mem0 b.addr = b.val := by
  have hi : i < log.length := (List.getElem?_eq_some_iff.mp hb).1
  have hget : log[i] = b := (List.getElem?_eq_some_iff.mp hb).2
  have hsplit : log = log.take i ++ b :: log.drop (i + 1) := by
    rw [← hget, ← List.drop_eq_getElem_cons hi, List.take_append_drop]
  have hskip : ∀ c ∈ log.drop (i + 1), c.addr ≠ b.addr := by
    intro c hc
    obtain ⟨j, hj⟩ := List.mem_iff_getElem?.mp hc
    rw [List.getElem?_drop] at hj
    exact hlast (i + 1 + j) c (by omega) hj
  rw [hsplit]
  simp only [bound.replay, List.foldl_append, List.foldl_cons]
  have := replay_skip (log.drop (i + 1)) b.addr hskip
    ((List.foldl (fun m b => m.write b.addr b.val) mem0 (log.take i)).write b.addr b.val)
  simp only [bound.replay] at this
  rw [this]
  simp [Store.write]

/-- C14 (amended): last write wins for a repeated option, as long as no later token is bound
to another argument that shares the variable.  Take a walk of `parse` that passes the last
token without an error, and an entry `b` of its log on an option path (the token of `b` matched
the option record `b.ptr` through its long or its short name, and `b.val` is the value decoded
from that occurrence).  If `b` is the last occurrence of that option (no later entry matched
the same record) and no later entry matched a different argument bound to the same variable,
then after `parse` the variable of the option holds `b.val`; and `parse` returns what the
required sweep returns on the engine that the walk left, so no error is reported for the
repetition. -/
theorem last_write_wins (Pp : prefix_policy) (Dp : delim_policy)
    (F : double_lib) (Vp : value_decoder) (p0 : parser) (mem0 : Store) (log : List bound)
    (p : parser) (mem : Store) (index position : Nat) (i : Nat) (b : bound)
    (h : parser.Trace Pp Dp F Vp p0 mem0 log p mem index position)
    (hend : p0.m_argv.length ≤ index)
    (hb : log[i]? = some b)
    (hopt : b.path ≠ .positional)
    (hlast : ∀ (j : Nat) (c : bound), i < j → log[j]? = some c → c.ptr ≠ b.ptr)
    (hshare : ∀ (j : Nat) (c : bound), i < j → log[j]? = some c → c.ptr ≠ b.ptr →
      c.addr ≠ b.addr) :
    ∃ token a, p0.m_argv[b.index]? = some token
      ∧ b.path = parser.classify Pp token
      ∧ (map_find p0.m_options (parser.long_opt_split Dp token).1 = some b.ptr
          ∨ map_find p0.m_options token = some b.ptr)
      ∧ p0.heap[b.ptr]? = some a
      ∧ parser.decoded_value Pp Dp Vp p0 token b.index a = some b.val
      ∧ parser.parse Pp Dp F Vp p0 mem0 = (p.m_check_required).map (fun r => (r, p, mem))
      ∧ mem a.m_bind.bind = b.val := by
  have hreach := trace_reaches Pp Dp F Vp p0 mem0 log p mem index position h
  obtain ⟨f1, _, _, _, _⟩ := reaches_frame Pp Dp F Vp p0 mem0 p mem index position hreach
  obtain ⟨s1, _, _⟩ := trace_state Pp Dp F Vp p0 mem0 log p mem index position h
  obtain ⟨token, a0, e1, e2, e3, e4, e5, e6, _⟩ :=
    trace_entry Pp Dp F Vp p0 mem0 log p mem index position h i b hb
  refine ⟨token, a0, e1, e2, ?_, e4, e6, ?_, ?_⟩
  · unfold parser.target at e3
    rw [← e2] at e3
    cases hp : b.path with
    | long_opt => rw [hp] at e3; left; exact e3
    | short_opt => rw [hp] at e3; right; exact e3
    | positional => exact absurd hp hopt
  · rw [reaches_parse Pp Dp F Vp p0 mem0 p mem index position hreach 0 (by rw [f1]; omega),
      parse_loop_end Pp Dp F Vp 0 p mem index position (by rw [f1]; exact hend)]
  · rw [s1, ← e5]
    exact replay_last log mem0 i b hb (fun j c hj hc => hshare j c hj hc (hlast j c hj hc))

/-- C14 witness: in `[prog, --num=1, -n, 2]` the `int64_t` option `--num` or `-n` is matched
twice, first through its long and then through its short name; `parse` reports no error and
the variable holds 2, the value of the last occurrence. -/
theorem last_write_wins_witness :
    ∃ token a,
      (test_number_engine ["prog", "--num=1", "-n", "2"]).m_argv[2]? = some token
      ∧ path_kind.short_opt = parser.classify default_prefix_policy token
      ∧ (map_find (test_number_engine ["prog", "--num=1", "-n", "2"]).m_options
            (parser.long_opt_split default_delim_policy token).1 = some 0
          ∨ map_find (test_number_engine ["prog", "--num=1", "-n", "2"]).m_options token
            = some 0)
      ∧ (test_number_engine ["prog", "--num=1", "-n", "2"]).heap[0]? = some a
      ∧ parser.decoded_value default_prefix_policy default_delim_policy
          (default_value_parser_parse no_double)
          (test_number_engine ["prog", "--num=1", "-n", "2"]) token 2 a = some (.int64 2)
      ∧ parser.parse default_prefix_policy default_delim_policy no_double
          (default_value_parser_parse no_double)
          (test_number_engine ["prog", "--num=1", "-n", "2"]) test_zero_store
        = (parser.m_check_required
            (((test_number_engine ["prog", "--num=1", "-n", "2"]).set_provided 0).set_provided
              0)).map
            (fun r => (r,
              ((test_number_engine ["prog", "--num=1", "-n", "2"]).set_provided 0).set_provided
                0,
              (test_zero_store.write 0 (.int64 1)).write 0 (.int64 2)))
      ∧ ((test_zero_store.write 0 (.int64 1)).write 0 (.int64 2)) a.m_bind.bind
        = .int64 2 := by
  have t1 : parser.Trace default_prefix_policy default_delim_policy no_double
      (default_value_parser_parse no_double)
      (test_number_engine ["prog", "--num=1", "-n", "2"]) test_zero_store
      [⟨1, 1, .long_opt, 0, 0, .int64 1⟩]
      ((test_number_engine ["prog", "--num=1", "-n", "2"]).set_provided 0)
      (test_zero_store.write 0 (.int64 1)) 2 0 :=
    @parser.Trace.step default_prefix_policy default_delim_policy no_double
      (default_value_parser_parse no_double)
      (test_number_engine ["prog", "--num=1", "-n", "2"]) test_zero_store []
      (test_number_engine ["prog", "--num=1", "-n", "2"]) test_zero_store 1 0 "--num=1"
      ((test_number_engine ["prog", "--num=1", "-n", "2"]).set_provided 0)
      (test_zero_store.write 0 (.int64 1)) 1 0 0 test_num_record (.int64 1)
      parser.Trace.start (by decide) rfl (by decide) (by decide) (by decide)
  have t2 : parser.Trace default_prefix_policy default_delim_policy no_double
      (default_value_parser_parse no_double)
      (test_number_engine ["prog", "--num=1", "-n", "2"]) test_zero_store
      [⟨1, 1, .long_opt, 0, 0, .int64 1⟩, ⟨2, 3, .short_opt, 0, 0, .int64 2⟩]
      (((test_number_engine ["prog", "--num=1", "-n", "2"]).set_provided 0).set_provided 0)
      ((test_zero_store.write 0 (.int64 1)).write 0 (.int64 2)) 4 0 :=
    @parser.Trace.step default_prefix_policy default_delim_policy no_double
      (default_value_parser_parse no_double)
      (test_number_engine ["prog", "--num=1", "-n", "2"]) test_zero_store
      [⟨1, 1, .long_opt, 0, 0, .int64 1⟩]
      ((test_number_engine ["prog", "--num=1", "-n", "2"]).set_provided 0)
      (test_zero_store.write 0 (.int64 1)) 2 0 "-n"
      (((test_number_engine ["prog", "--num=1", "-n", "2"]).set_provided 0).set_provided 0)
      ((test_zero_store.write 0 (.int64 1)).write 0 (.int64 2)) 3 0 0
      { test_num_record with m_provided := true } (.int64 2)
      t1 (by decide) rfl (by decide) (by decide) (by decide)
  exact last_write_wins default_prefix_policy default_delim_policy no_double
    (default_value_parser_parse no_double)
    (test_number_engine ["prog", "--num=1", "-n", "2"]) test_zero_store _ _ _ 4 0 1
    ⟨2, 3, .short_opt, 0, 0, .int64 2⟩ t2 (by decide) rfl (by decide)
    (fun j c hj hc => by
      cases j with
      | zero => omega
      | succ j =>
        cases j with
        | zero => omega
        | succ j => simp at hc)
    (fun j c hj hc => by
      cases j with
      | zero => omega
      | succ j =>
        cases j with
        | zero => omega
        | succ j => simp at hc)

/-- C14 (as stated) fails: in `[prog, --a=1, --a=2, --b=3]` with the options `--a` and `--b`
bound to the same `int64_t` variable, `--a` is matched twice and `parse` reports no error, yet
afterwards the variable holds 3 and not 2, the value decoded from the last occurrence of
`--a`. -/
theorem repeated_option_overwritten_by_alias :
    parser.parse_result default_prefix_policy default_delim_policy no_double
        (default_value_parser_parse no_double)
        (test_alias_engine ["prog", "--a=1", "--a=2", "--b=3"]) test_zero_store = some none
    ∧ parser.parse_var default_prefix_policy default_delim_policy no_double
        (default_value_parser_parse no_double)
        (test_alias_engine ["prog", "--a=1", "--a=2", "--b=3"]) test_zero_store 0
      = some (.int64 3)
    ∧ default_value_parser_parse no_double "2" .int64_t = some (.ok (.int64 2))
    ∧ (test_alias_engine ["prog", "--a=1", "--a=2", "--b=3"]).m_options
      = [("--a", 0), ("--b", 1)]
    ∧ ((test_alias_engine ["prog", "--a=1", "--a=2", "--b=3"]).heap.map
        (fun a => (a.m_names, a.m_bind.bind))) = [(["--a"], 0), (["--b"], 0)] := by
  decide

/-! ## Classification by prefix -/

/-- The body of the loop is the method that the classification chooses. -/
theorem dispatch_by_class (Pp : prefix_policy) (Dp : delim_policy) (F : double_lib)
    (Vp : value_decoder) (p : parser) (mem : Store) (token : String) (index position : Nat) :
    parser.dispatch Pp Dp F Vp p mem token index position
      = match parser.classify Pp token with
        | .long_opt =>
          (parser.m_parse_long_opt Dp F Vp p mem token).map (fun o => (o, index, position))
        | .short_opt =>
          (parser.m_parse_short_opt F Vp p mem token index).map
            (fun r => (r.1, r.2, position))
        | .positional =>
          (parser.m_parse_positional F Vp p mem token position).map
            (fun r => (r.1, index, r.2)) := by
  unfold parser.dispatch parser.classify
  by_cases hl : starts_with token Pp.long_prefix = true
  · simp only [hl, if_true]
    cases parser.m_parse_long_opt Dp F Vp p mem token <;> rfl
  · by_cases hs : starts_with token Pp.short_prefix = true
    · simp only [hl, hs, if_true, if_false]
      cases parser.m_parse_short_opt F Vp p mem token index <;> rfl
    · simp only [hl, hs, if_false]
      cases parser.m_parse_positional F Vp p mem token position <;> rfl

/-- An entry of a log that is not on the positional path matched a record that is not a
positional. -/
theorem entry_option_record (Pp : prefix_policy) (Dp : delim_policy) (p0 : parser)
    (hwf : p0.wf) (token : String) (k ptr : Nat)
    (hc : parser.classify Pp token ≠ .positional)
    (ht : parser.target Pp Dp p0 token k = some ptr) : ptr ∉ p0.m_positionals := by
  unfold parser.target at ht
  cases hcl : parser.classify Pp token with
  | long_opt =>
    rw [hcl] at ht
    exact hwf.2.2.2.2 _ (map_find_mem _ _ _ ht)
  | short_opt =>
    rw [hcl] at ht
    exact hwf.2.2.2.2 _ (map_find_mem _ _ _ ht)
  | positional => exact absurd hcl hc

theorem starts_with_dash_class (token : String) (h : starts_with token "-" = true) :
    parser.classify default_prefix_policy token ≠ .positional := by
  intro hc
  have := ((classify_positional default_prefix_policy token).mp hc).2
  rw [show default_prefix_policy.short_prefix = "-" from rfl, h] at this
  exact Bool.noConfusion this

/-- C17: tokens are classified by prefix, the long prefix first.  (1) The body of the loop of
`parse` runs the long-option method on a token that starts with the long prefix, otherwise the
short-option method on a token that starts with the short prefix, otherwise the positional
method.  (2) In a walk of `parse`, every token at an index from 1 up to the point that the walk
has reached is either the token of a log entry, handled by the method that this classification
chooses for it, or the token that the short-option entry before it used as its value.
(3) Consequently, under the default policy (`--`, `-`) and on a well-formed engine, the record
that a token beginning with `-` is bound to, whether the token was dispatched or used as a
value, is never a positional. -/
theorem tokens_are_classified_by_prefix (Pp : prefix_policy) (Dp : delim_policy)
    (F : double_lib) (Vp : value_decoder) (p0 : parser) (mem0 : Store) (log : List bound)
    (p : parser) (mem : Store) (index position : Nat)
    (hwf : p0.wf)
    (h : parser.Trace Pp Dp F Vp p0 mem0 log p mem index position) :
    (∀ (q : parser) (m : Store) (token : String) (i pos : Nat),
      (starts_with token Pp.long_prefix = true →
        parser.dispatch Pp Dp F Vp q m token i pos
          = (parser.m_parse_long_opt Dp F Vp q m token).map (fun o => (o, i, pos)))
      ∧ (starts_with token Pp.long_prefix = false → starts_with token Pp.short_prefix = true →
        parser.dispatch Pp Dp F Vp q m token i pos
          = (parser.m_parse_short_opt F Vp q m token i).map (fun r => (r.1, r.2, pos)))
      ∧ (starts_with token Pp.long_prefix = false → starts_with token Pp.short_prefix = false →
        parser.dispatch Pp Dp F Vp q m token i pos
          = (parser.m_parse_positional F Vp q m token pos).map (fun r => (r.1, i, r.2))))
    ∧ (∀ j, 1 ≤ j → j < index →
        (∃ b ∈ log, ∃ token, b.index = j ∧ p0.m_argv[j]? = some token
          ∧ b.path = parser.classify Pp token)
        ∨ (∃ b ∈ log, b.path = .short_opt ∧ b.index + 1 = j ∧ b.last = j))
    ∧ (Pp = default_prefix_policy →
        ∀ b ∈ log, ∀ (j : Nat) (token : String), b.index ≤ j → j ≤ b.last →
          p0.m_argv[j]? = some token → starts_with token "-" = true →
          b.path ≠ .positional ∧ b.ptr ∉ p0.m_positionals) := by
  have hentry := trace_entry Pp Dp F Vp p0 mem0 log p mem index position h
  have hshort : ∀ b ∈ log, b.index ≠ b.last → b.path = .short_opt ∧ b.last = b.index + 1 := by
    intro b hb hne
    obtain ⟨i, hi⟩ := List.mem_iff_getElem?.mp hb
    obtain ⟨token, a0, _, e2, _, _, _, _, e7, _⟩ := hentry i b hi
    unfold parser.last_index at e7
    split_ifs at e7 with hc
    · exact ⟨by rw [e2]; exact hc.1, e7⟩
    · exact absurd e7.symm hne
  refine ⟨?_, ?_, ?_⟩
  · intro q m token i pos
    refine ⟨?_, ?_, ?_⟩
    · intro hl
      rw [dispatch_by_class, (classify_long Pp token).mpr hl]
    · intro hl hs
      rw [dispatch_by_class, (classify_short Pp token).mpr ⟨hl, hs⟩]
    · intro hl hs
      rw [dispatch_by_class, (classify_positional Pp token).mpr ⟨hl, hs⟩]
  · intro j h1 h2
    obtain ⟨b, hb, hc⟩ := trace_cover Pp Dp F Vp p0 mem0 log p mem index position h j h1 h2
    rcases hc with hc | ⟨hc1, hc2⟩
    · left
      obtain ⟨i, hi⟩ := List.mem_iff_getElem?.mp hb
      obtain ⟨token, a0, e1, e2, _⟩ := hentry i b hi
      exact ⟨b, hb, token, hc, by rw [← hc]; exact e1, e2⟩
    · right
      exact ⟨b, hb, (hshort b hb (by omega)).1, hc1, hc2⟩
  · intro hPp b hb j token hj1 hj2 ht hdash
    obtain ⟨i, hi⟩ := List.mem_iff_getElem?.mp hb
    obtain ⟨token', a0, e1, e2, e3, _⟩ := hentry i b hi
    have hpath : b.path ≠ .positional := by
      by_cases hjb : b.index = j
      · rw [hjb, ht] at e1
        simp only [Option.some.injEq] at e1
        subst e1
        rw [e2, hPp]
        exact starts_with_dash_class token hdash
      · rw [(hshort b hb (by omega)).1]
        exact fun hq => path_kind.noConfusion hq
    exact ⟨hpath, entry_option_record Pp Dp p0 hwf token' _ b.ptr (by rw [← e2]; exact hpath) e3⟩

/-- C17 witness: in `[prog, -n, -5]` with the `int64_t` option `--num` or `-n` and the
`int64_t` positional `count`, the token `-n` goes to the short-option path and takes `-5` as its
value; the token `-5`, which begins with `-`, is bound to the option and not to the
positional. -/
theorem tokens_are_classified_by_prefix_witness :
    ((∃ b ∈ [bound.mk 1 2 .short_opt 0 0 (.int64 (-5))], ∃ token, b.index = 2
        ∧ (test_number_engine ["prog", "-n", "-5"]).m_argv[2]? = some token
        ∧ b.path = parser.classify default_prefix_policy token)
      ∨ (∃ b ∈ [bound.mk 1 2 .short_opt 0 0 (.int64 (-5))],
          b.path = .short_opt ∧ b.index + 1 = 2 ∧ b.last = 2))
    ∧ (path_kind.short_opt ≠ .positional
      ∧ 0 ∉ (test_number_engine ["prog", "-n", "-5"]).m_positionals) := by
  have t1 : parser.Trace default_prefix_policy default_delim_policy no_double
      (default_value_parser_parse no_double)
      (test_number_engine ["prog", "-n", "-5"]) test_zero_store
      [⟨1, 2, .short_opt, 0, 0, .int64 (-5)⟩]
      ((test_number_engine ["prog", "-n", "-5"]).set_provided 0)
      (test_zero_store.write 0 (.int64 (-5))) 3 0 :=
    @parser.Trace.step default_prefix_policy default_delim_policy no_double
      (default_value_parser_parse no_double)
      (test_number_engine ["prog", "-n", "-5"]) test_zero_store []
      (test_number_engine ["prog", "-n", "-5"]) test_zero_store 1 0 "-n"
      ((test_number_engine ["prog", "-n", "-5"]).set_provided 0)
      (test_zero_store.write 0 (.int64 (-5))) 2 0 0 test_num_record (.int64 (-5))
      parser.Trace.start (by decide) rfl (by decide) (by decide) (by decide)
  have h := tokens_are_classified_by_prefix default_prefix_policy default_delim_policy
    no_double (default_value_parser_parse no_double)
    (test_number_engine ["prog", "-n", "-5"]) test_zero_store _ _ _ _ _ (by decide) t1
  exact ⟨h.2.1 2 (by decide) (by decide),
    h.2.2 rfl ⟨1, 2, .short_opt, 0, 0, .int64 (-5)⟩ (List.mem_singleton_self _) 2 "-5"
      (by decide) (by decide) (by decide) (by decide)⟩

/-! ## The required sweep after a clean walk -/

theorem marked_eq_mark_all (log : List bound) : ∀ p : parser,
    bound.marked log p = p.mark_all (log.map (fun b => (b.ptr, b.val))) := by
  induction log with
  | nil => intro p; rfl
  | cons b log ih =>
    intro p
    simp only [bound.marked, List.foldl_cons, List.map_cons, parser.mark_all] at ih ⊢
    exact ih _

/-- After a walk on a fresh engine, a record is marked provided exactly when an entry of the
log matched it. -/
theorem trace_provided (Pp : prefix_policy) (Dp : delim_policy) (F : double_lib)
    (Vp : value_decoder) (p0 : parser) (mem0 : Store) (log : List bound) (p : parser)
    (mem : Store) (index position : Nat)
    (h : parser.Trace Pp Dp F Vp p0 mem0 log p mem index position)
    (hfresh : p0.fresh) (q : Nat) (a0 : argument) (ha0 : p0.heap[q]? = some a0) :
    ∃ a, p.heap[q]? = some a ∧ a.m_required = a0.m_required ∧ a.m_names = a0.m_names
      ∧ (a.m_provided = true ↔ q ∈ log.map (fun b => b.ptr)) := by
  obtain ⟨_, s2, _⟩ := trace_state Pp Dp F Vp p0 mem0 log p mem index position h
  have hp0 : a0.m_provided = false := hfresh a0 (List.getElem?_mem ha0)
  have hmap : (log.map (fun b => (b.ptr, b.val))).map Prod.fst = log.map (fun b => b.ptr) := by
    rw [List.map_map]; rfl
  rw [s2, marked_eq_mark_all, mark_all_heap, ha0, hmap]
  by_cases hq : q ∈ log.map (fun b => b.ptr)
  · exact ⟨{ a0 with m_provided := true }, by simp [hq], rfl, rfl, by simp [hq]⟩
  · exact ⟨a0, by simp [hq], rfl, rfl, by simp [hq, hp0]⟩

theorem sweep_positionals_cases (p : parser) (l : List Nat)
    (hlive : ∀ ptr ∈ l, ∃ a, p.heap[ptr]? = some a ∧ a.m_names ≠ []) :
    (p.m_check_required_positionals l = some none
      ∧ ∀ ptr ∈ l, ∃ a, p.heap[ptr]? = some a ∧ (a.m_required && !a.m_provided) = false)
    ∨ (∃ l1 ptr l2 a name, l = l1 ++ ptr :: l2
      ∧ (∀ q ∈ l1, ∃ b, p.heap[q]? = some b ∧ (b.m_required && !b.m_provided) = false)
      ∧ p.heap[ptr]? = some a ∧ a.m_required = true ∧ a.m_provided = false
      ∧ a.name = some name
      ∧ p.m_check_required_positionals l
        = some (some ("missing required positional: " ++ name))) := by
  induction l with
  | nil => left; exact ⟨rfl, fun ptr hp => by simp at hp⟩
  | cons ptr l ih =>
    obtain ⟨a, ha, hn⟩ := hlive ptr (List.mem_cons_self _ _)
    by_cases hm : (a.m_required && !a.m_provided) = true
    · right
      obtain ⟨name, hname⟩ : ∃ n, a.name = some n := by
        cases hnm : a.m_names with
        | nil => exact absurd hnm hn
        | cons n ns => exact ⟨n, by simp [argument.name, hnm]⟩
      simp only [Bool.and_eq_true, Bool.not_eq_eq_eq_not, Bool.not_true] at hm
      refine ⟨[], ptr, l, a, name, rfl, fun q hq => by simp at hq, ha, hm.1, hm.2, hname, ?_⟩
      simp [parser.m_check_required_positionals, ha, hm.1, hm.2, hname]
    · have hm' : (a.m_required && !a.m_provided) = false := by simpa using hm
      rcases ih (fun q hq => hlive q (List.mem_cons_of_mem _ hq)) with ⟨h1, h2⟩ | h3
      · left
        refine ⟨?_, ?_⟩
        · simp only [parser.m_check_required_positionals, ha, hm']
          exact h1
        · intro q hq
          rcases List.mem_cons.mp hq with heq | hin
          · subst heq; exact ⟨a, ha, hm'⟩
          · exact h2 q hin
      · right
        obtain ⟨l1, ptr2, l2, a2, name, e1, e2, e3, e4, e5, e6, e7⟩ := h3
        refine ⟨ptr :: l1, ptr2, l2, a2, name, by rw [e1]; rfl, ?_, e3, e4, e5, e6, ?_⟩
        · intro q hq
          rcases List.mem_cons.mp hq with heq | hin
          · subst heq; exact ⟨a, ha, hm'⟩
          · exact e2 q hin
        · simp only [parser.m_check_required_positionals, ha, hm']
          exact e7

theorem sweep_options_cases (p : parser) (l : List (String × Nat))
    (hlive : ∀ e ∈ l, ∃ a, p.heap[e.2]? = some a ∧ a.m_names ≠ []) :
    (p.m_check_required_options l = some none
      ∧ ∀ e ∈ l, ∃ a, p.heap[e.2]? = some a ∧ (a.m_required && !a.m_provided) = false)
    ∨ (∃ e a name, e ∈ l ∧ p.heap[e.2]? = some a ∧ a.m_required = true
      ∧ a.m_provided = false ∧ a.name = some name
      ∧ p.m_check_required_options l = some (some ("missing required option: " ++ name))) := by
  by_cases hex : ∃ e ∈ l, ∃ a, p.heap[e.2]? = some a ∧ a.m_required = true
      ∧ a.m_provided = false
  · right
    obtain ⟨e, a, n, h1, h2, h3, h4, h5, h6⟩ := sweep_options_some p l hlive hex
    exact ⟨e, a, n, h1, h2, h3, h4, h5, h6⟩
  · left
    have hall : ∀ e ∈ l, ∃ a, p.heap[e.2]? = some a
        ∧ (a.m_required && !a.m_provided) = false := by
      intro e he
      obtain ⟨a, ha, _⟩ := hlive e he
      refine ⟨a, ha, ?_⟩
      by_contra hc
      have hc' : (a.m_required && !a.m_provided) = true := by simpa using hc
      simp only [Bool.and_eq_true, Bool.not_eq_eq_eq_not, Bool.not_true] at hc'
      exact hex ⟨e, he, a, ha, hc'.1, hc'.2⟩
    exact ⟨sweep_options_none p l hall, hall⟩

/-- C18: the required sweep.  On a fresh, well-formed engine, let the walk of `parse` pass the
last token without an error, and call an argument matched when an entry of the log of the walk
matched its record.  Then `parse` returns a result `r`, which is success exactly when every
required argument of the engine (every required record that the positional list or the name
table refers to) was matched.  If a required positional was not matched, `r` is
`missing required positional: <name>` for the first such positional in declaration order,
whatever options are missing.  If every required positional was matched and some required
option was not, `r` is `missing required option: <name>` with the canonical name of a required
option that was not matched. -/
theorem required_sweep_after_clean_walk (Pp : prefix_policy) (Dp : delim_policy)
    (F : double_lib) (Vp : value_decoder) (p0 : parser) (mem0 : Store) (log : List bound)
    (p : parser) (mem : Store) (index position : Nat)
    (hwf : p0.wf) (hfresh : p0.fresh)
    (h : parser.Trace Pp Dp F Vp p0 mem0 log p mem index position)
    (hend : p0.m_argv.length ≤ index) :
    ∃ r, parser.parse Pp Dp F Vp p0 mem0 = some (r, p, mem)
      ∧ (r = none ↔
          (∀ (ptr : Nat) (a : argument), ptr ∈ p0.m_positionals → p0.heap[ptr]? = some a →
            a.m_required = true →
            ptr ∈ log.map (fun b => b.ptr))
          ∧ (∀ (e : String × Nat) (a : argument), e ∈ p0.m_options → p0.heap[e.2]? = some a →
            a.m_required = true →
            e.2 ∈ log.map (fun b => b.ptr)))
      ∧ (∀ (k ptr : Nat) (a : argument), p0.m_positionals[k]? = some ptr →
          p0.heap[ptr]? = some a →
          a.m_required = true → ptr ∉ log.map (fun b => b.ptr) →
          (∀ (j ptr1 : Nat) (a1 : argument), j < k → p0.m_positionals[j]? = some ptr1 →
            p0.heap[ptr1]? = some a1 → a1.m_required = true →
            ptr1 ∈ log.map (fun b => b.ptr)) →
          ∃ name, a.name = some name ∧ r = some ("missing required positional: " ++ name))
      ∧ ((∀ (ptr : Nat) (a : argument), ptr ∈ p0.m_positionals → p0.heap[ptr]? = some a →
            a.m_required = true →
            ptr ∈ log.map (fun b => b.ptr)) →
          (∃ e a, e ∈ p0.m_options ∧ p0.heap[e.2]? = some a ∧ a.m_required = true
            ∧ e.2 ∉ log.map (fun b => b.ptr)) →
          ∃ e a name, e ∈ p0.m_options ∧ p0.heap[e.2]? = some a ∧ a.m_required = true
            ∧ e.2 ∉ log.map (fun b => b.ptr) ∧ a.name = some name
            ∧ r = some ("missing required option: " ++ name)) := by
  have hreach := trace_reaches Pp Dp F Vp p0 mem0 log p mem index position h
  obtain ⟨f1, f2, f3, f4, _⟩ := reaches_frame Pp Dp F Vp p0 mem0 p mem index position hreach
  have hpwf := reaches_wf Pp Dp F Vp p0 mem0 p mem index position hreach hwf
  have hprov := trace_provided Pp Dp F Vp p0 mem0 log p mem index position h hfresh
  have hparse : parser.parse Pp Dp F Vp p0 mem0
      = (p.m_check_required).map (fun r => (r, p, mem)) := by
    rw [reaches_parse Pp Dp F Vp p0 mem0 p mem index position hreach 0 (by rw [f1]; omega),
      parse_loop_end Pp Dp F Vp 0 p mem index position (by rw [f1]; exact hend)]
  -- a record of the reached engine fails the sweep exactly when it is required and unmatched
  have hlink : ∀ (q : Nat) (a0 a : argument), p0.heap[q]? = some a0 → p.heap[q]? = some a →
      a.m_names = a0.m_names
      ∧ ((a.m_required && !a.m_provided) = false ↔
        (a0.m_required = true → q ∈ log.map (fun b => b.ptr))) := by
    intro q a0 a ha0 ha
    obtain ⟨a', ha', h1, h2, h3⟩ := hprov q a0 ha0
    rw [ha] at ha'
    simp only [Option.some.injEq] at ha'
    subst ha'
    refine ⟨h2, ?_⟩
    rw [← h3, ← h1]
    cases a.m_required <;> cases a.m_provided <;> simp
  have hlive0 : ∀ q, q < p0.heap.length → ∃ a0 a, p0.heap[q]? = some a0
      ∧ p.heap[q]? = some a ∧ a.m_names ≠ [] := by
    intro q hq
    have hq' : q < p.heap.length := by rw [f4]; exact hq
    exact ⟨p0.heap[q], p.heap[q], List.getElem?_eq_getElem hq, List.getElem?_eq_getElem hq',
      (hpwf.1 _ (List.getElem_mem _)).2⟩
  have hlivep : ∀ ptr ∈ p.m_positionals, ∃ a, p.heap[ptr]? = some a ∧ a.m_names ≠ [] := by
    intro ptr hptr
    obtain ⟨_, a, _, ha, hn⟩ := hlive0 ptr (hwf.2.1 ptr (by rw [← f2]; exact hptr))
    exact ⟨a, ha, hn⟩
  have hliveo : ∀ e ∈ p.m_options, ∃ a, p.heap[e.2]? = some a ∧ a.m_names ≠ [] := by
    intro e he
    obtain ⟨_, a, _, ha, hn⟩ := hlive0 e.2 (hwf.2.2.1 e (by rw [← f3]; exact he))
    exact ⟨a, ha, hn⟩
  rcases sweep_positionals_cases p p.m_positionals hlivep with ⟨hs1, hall1⟩ | hfail1
  · -- every positional passes
    have hposok : ∀ (ptr : Nat) (a : argument), ptr ∈ p0.m_positionals →
        p0.heap[ptr]? = some a → a.m_required = true → ptr ∈ log.map (fun b => b.ptr) := by
      intro ptr a0 hptr ha0 hreq
      obtain ⟨a, ha, hm⟩ := hall1 ptr (by rw [f2]; exact hptr)
      exact ((hlink ptr a0 a ha0 ha).2.mp hm) hreq
    rcases sweep_options_cases p p.m_options hliveo with ⟨hs2, hall2⟩ | hfail2
    · refine ⟨none, ?_, ?_, ?_, ?_⟩
      · rw [hparse]
        simp [parser.m_check_required, hs1, hs2]
      · refine ⟨fun _ => ⟨hposok, ?_⟩, fun _ => rfl⟩
        intro e a0 he ha0 hreq
        obtain ⟨a, ha, hm⟩ := hall2 e (by rw [f3]; exact he)
        exact ((hlink e.2 a0 a ha0 ha).2.mp hm) hreq
      · intro k ptr a0 hk ha0 hreq hno _
        exact absurd (hposok ptr a0 (List.getElem?_mem hk) ha0 hreq) hno
      · intro _ hex
        obtain ⟨e, a0, he, ha0, hreq, hno⟩ := hex
        obtain ⟨a, ha, hm⟩ := hall2 e (by rw [f3]; exact he)
        exact absurd (((hlink e.2 a0 a ha0 ha).2.mp hm) hreq) hno
    · obtain ⟨e, a, name, he, ha, hreq, hnp, hname, hres⟩ := hfail2
      have he0 : e ∈ p0.m_options := by rw [← f3]; exact he
      obtain ⟨a0, a', ha0, ha', _⟩ := hlive0 e.2 (hwf.2.2.1 e he0)
      rw [ha] at ha'
      simp only [Option.some.injEq] at ha'
      subst ha'
      obtain ⟨a'', ha'', hr1, hn1, hp1⟩ := hprov e.2 a0 ha0
      rw [ha] at ha''
      simp only [Option.some.injEq] at ha''
      subst ha''
      have hunm : e.2 ∉ log.map (fun b => b.ptr) := by
        intro hin
        have := hp1.mpr hin
        rw [hnp] at this
        exact Bool.noConfusion this
      have hname0 : a0.name = some name := by
        simp only [argument.name, ← hn1]; exact hname
      refine ⟨some ("missing required option: " ++ name), ?_, ?_, ?_, ?_⟩
      · rw [hparse]
        simp [parser.m_check_required, hs1, hres]
      · refine ⟨fun hc => Option.noConfusion hc, fun hc => ?_⟩
        exact absurd (hc.2 e a0 he0 ha0 (by rw [← hr1]; exact hreq)) hunm
      · intro k ptr b0 hk hb0 hreq0 hno _
        exact absurd (hposok ptr b0 (List.getElem?_mem hk) hb0 hreq0) hno
      · intro _ _
        exact ⟨e, a0, name, he0, ha0, by rw [← hr1]; exact hreq, hunm, hname0, rfl⟩
  · -- a positional fails: the first one is reported
    obtain ⟨l1, ptr, l2, a, name, hsplit, hl1, ha, hreq, hnp, hname, hres⟩ := hfail1
    have hptr0 : ptr ∈ p0.m_positionals := by rw [← f2, hsplit]; simp
    obtain ⟨a0, a', ha0, ha', _⟩ := hlive0 ptr (hwf.2.1 ptr hptr0)
    rw [ha] at ha'
    simp only [Option.some.injEq] at ha'
    subst ha'
    obtain ⟨a'', ha'', hr1, hn1, hp1⟩ := hprov ptr a0 ha0
    rw [ha] at ha''
    simp only [Option.some.injEq] at ha''
    subst ha''
    have hunm : ptr ∉ log.map (fun b => b.ptr) := by
      intro hin
      have := hp1.mpr hin
      rw [hnp] at this
      exact Bool.noConfusion this
    have hname0 : a0.name = some name := by
      simp only [argument.name, ← hn1]; exact hname
    have hreq0 : a0.m_required = true := by rw [← hr1]; exact hreq
    have hlen : l1.length < p0.m_positionals.length := by
      rw [← f2, hsplit]; simp
    have hat : p0.m_positionals[l1.length]? = some ptr := by
      rw [← f2, hsplit, List.getElem?_append_right (le_refl _)]
      simp
    refine ⟨some ("missing required positional: " ++ name), ?_, ?_, ?_, ?_⟩
    · rw [hparse]
      simp [parser.m_check_required, hres]
    · refine ⟨fun hc => Option.noConfusion hc, fun hc => ?_⟩
      exact absurd (hc.1 ptr a0 hptr0 ha0 hreq0) hunm
    · intro k ptr2 b0 hk hb0 hreqb hno hfirst
      -- the first unmatched required positional is the one the sweep met
      have hk2 : p.m_positionals[k]? = some ptr2 := by rw [f2]; exact hk
      have hkl : k = l1.length := by
        rcases Nat.lt_trichotomy k l1.length with hlt | heq | hgt
        · exfalso
          have hq : ptr2 ∈ l1 := by
            rw [hsplit, List.getElem?_append_left hlt] at hk2
            exact List.getElem?_mem hk2
          obtain ⟨b, hb, hm⟩ := hl1 ptr2 hq
          exact hno (((hlink ptr2 b0 b hb0 hb).2.mp hm) hreqb)
        · exact heq
        · exfalso
          exact hunm (hfirst l1.length ptr a0 hgt hat ha0 hreq0)
      subst hkl
      rw [hat] at hk
      simp only [Option.some.injEq] at hk
      subst hk
      rw [ha0] at hb0
      simp only [Option.some.injEq] at hb0
      subst hb0
      exact ⟨name, hname0, rfl⟩
    · intro hallpos _
      exact absurd (hallpos ptr a0 hptr0 ha0 hreq0) hunm

/-- C18 witness: in `[prog, in]` with the required positional `input` and the required option
`--output` or `-o`, the walk binds `in` to `input` and passes the last token; the positional was
matched, the option was not, and `parse` returns a missing-required-option error with the
canonical name of an unmatched required option. -/
theorem required_sweep_after_clean_walk_witness :
    ∃ r, parser.parse default_prefix_policy default_delim_policy no_double
          (default_value_parser_parse no_double) (test_required_engine ["prog", "in"])
          test_store
        = some (r, (test_required_engine ["prog", "in"]).set_provided 0,
            test_store.write 1 (.path ⟨"in"⟩))
      ∧ ∃ e a name, e ∈ (test_required_engine ["prog", "in"]).m_options
        ∧ (test_required_engine ["prog", "in"]).heap[e.2]? = some a ∧ a.m_required = true
        ∧ e.2 ∉ [bound.mk 1 1 .positional 0 1 (.path ⟨"in"⟩)].map (fun b => b.ptr)
        ∧ a.name = some name
        ∧ r = some ("missing required option: " ++ name) := by
  have t1 : parser.Trace default_prefix_policy default_delim_policy no_double
      (default_value_parser_parse no_double)
      (test_required_engine ["prog", "in"]) test_store
      [⟨1, 1, .positional, 0, 1, .path ⟨"in"⟩⟩]
      ((test_required_engine ["prog", "in"]).set_provided 0)
      (test_store.write 1 (.path ⟨"in"⟩)) 2 1 :=
    @parser.Trace.step default_prefix_policy default_delim_policy no_double
      (default_value_parser_parse no_double)
      (test_required_engine ["prog", "in"]) test_store []
      (test_required_engine ["prog", "in"]) test_store 1 0 "in"
      ((test_required_engine ["prog", "in"]).set_provided 0)
      (test_store.write 1 (.path ⟨"in"⟩)) 1 1 0 test_input_record (.path ⟨"in"⟩)
      parser.Trace.start (by decide) rfl (by decide) (by decide) (by decide)
  obtain ⟨r, h1, _, _, h4⟩ := required_sweep_after_clean_walk default_prefix_policy
    default_delim_policy no_double (default_value_parser_parse no_double)
    (test_required_engine ["prog", "in"]) test_store _ _ _ _ _ (by decide) (by decide) t1
    (by decide)
  refine ⟨r, h1, h4 ?_ ⟨("--output", 1), test_output_record, by decide, by decide, by decide,
    by decide⟩⟩
  intro ptr a hptr _ _
  have hp : (test_required_engine ["prog", "in"]).m_positionals = [0] := by decide
  rw [hp] at hptr
  simp only [List.mem_singleton] at hptr
  subst hptr
  decide

/-! ## The frame of `parse` -/

theorem mark_none (e : effect) (t : Option Nat) (hm : e.mark = none) :
    ∀ it, e.mark = some it → t = some it := by
  intro it h
  rw [hm] at h
  exact Option.noConfusion h

theorem mark_is (e : effect) (it : Nat) (t : Option Nat) (ht : t = some it)
    (hm : e.mark = some it) : ∀ it2, e.mark = some it2 → t = some it2 := by
  intro it2 h
  rw [hm] at h
  rw [ht, h]

theorem binder_effect_mark (b : detail.binder) (val : value) (it index position position1 : Nat) :
    (b.effect val it index position position1).mark = some it := by
  unfold detail.binder.effect
  split_ifs <;> rfl

/-- The record that a decision marks is the record that the chosen method looked up. -/
theorem effect_of_mark (Pp : prefix_policy) (Dp : delim_policy) (F : double_lib)
    (Vp : value_decoder) (p : parser) (token : String) (index position : Nat) (e : effect)
    (h : parser.effect_of Pp Dp F Vp p token index position = some e) :
    ∀ it, e.mark = some it → parser.target Pp Dp p token position = some it := by
  unfold parser.effect_of at h
  by_cases hl : starts_with token Pp.long_prefix = true
  · rw [if_pos hl] at h
    unfold parser.long_opt_effect parser.decl_at at h
    cases hf : map_find p.m_options (parser.long_opt_split Dp token).1 with
    | none =>
      simp only [hf, Option.some.injEq] at h
      rw [← h]; exact mark_none _ _ rfl
    | some it =>
      have htg : parser.target Pp Dp p token position = some it := by
        unfold parser.target
        rw [(classify_long Pp token).mpr hl]
        exact hf
      cases hh : p.heap[it]? with
      | none => simp [hf, hh] at h
      | some opt0 =>
        simp only [hf, hh, Option.map_some'] at h
        cases hv : Vp (parser.long_opt_split Dp token).2 opt0.decl.m_type with
        | none => simp [hv] at h
        | some r =>
          cases r with
          | error err =>
            simp only [hv] at h
            split_ifs at h
            · simp only [Option.some.injEq] at h
              rw [← h]; exact mark_is _ it _ htg (binder_effect_mark _ _ _ _ _ _)
            · simp only [Option.some.injEq] at h
              rw [← h]; exact mark_is _ it _ htg rfl
          | ok val =>
            simp only [hv] at h
            split at h
            · simp only [Option.some.injEq] at h
              rw [← h]; exact mark_is _ it _ htg rfl
            · simp only [Option.some.injEq] at h
              rw [← h]; exact mark_is _ it _ htg (binder_effect_mark _ _ _ _ _ _)
  · rw [if_neg hl] at h
    have hl2 : starts_with token Pp.long_prefix = false := by simpa using hl
    by_cases hs : starts_with token Pp.short_prefix = true
    · rw [if_pos hs] at h
      unfold parser.short_opt_effect parser.decl_at at h
      cases hf : map_find p.m_options token with
      | none =>
        simp only [hf, Option.some.injEq] at h
        rw [← h]; exact mark_none _ _ rfl
      | some it =>
        have htg : parser.target Pp Dp p token position = some it := by
          unfold parser.target
          rw [(classify_short Pp token).mpr ⟨hl2, hs⟩]
          exact hf
        cases hh : p.heap[it]? with
        | none => simp [hf, hh] at h
        | some opt0 =>
          simp only [hf, hh, Option.map_some'] at h
          split_ifs at h
          · simp only [Option.some.injEq] at h
            rw [← h]; exact mark_is _ it _ htg (binder_effect_mark _ _ _ _ _ _)
          · simp only [Option.some.injEq] at h
            rw [← h]; exact mark_is _ it _ htg rfl
          · cases hn : p.m_argv[index + 1]? with
            | none => simp [hn] at h
            | some next =>
              simp only [hn] at h
              cases hv : Vp next opt0.decl.m_type with
              | none => simp [hv] at h
              | some r =>
                cases r with
                | error err => simp [hv] at h
                | ok val =>
                  simp only [hv] at h
                  split at h
                  · simp only [Option.some.injEq] at h
                    rw [← h]; exact mark_is _ it _ htg rfl
                  · simp only [Option.some.injEq] at h
                    rw [← h]; exact mark_is _ it _ htg (binder_effect_mark _ _ _ _ _ _)
    · rw [if_neg hs] at h
      have hs2 : starts_with token Pp.short_prefix = false := by simpa using hs
      unfold parser.positional_effect parser.decl_at at h
      split_ifs at h
      · simp only [Option.some.injEq] at h
        rw [← h]; exact mark_none _ _ rfl
      · cases hq : p.m_positionals[position]? with
        | none => simp [hq] at h
        | some ptr =>
          have htg : parser.target Pp Dp p token position = some ptr := by
            unfold parser.target
            rw [(classify_positional Pp token).mpr ⟨hl2, hs2⟩]
            exact hq
          cases hh : p.heap[ptr]? with
          | none => simp [hq, hh] at h
          | some a0 =>
            simp only [hq, hh, Option.map_some'] at h
            cases hv : Vp token a0.decl.m_type with
            | none => simp [hv] at h
            | some r =>
              cases r with
              | error err =>
                simp only [hv, Option.some.injEq] at h
                rw [← h]; exact mark_is _ ptr _ htg rfl
              | ok val =>
                simp only [hv] at h
                split at h
                · simp only [Option.some.injEq] at h
                  rw [← h]; exact mark_is _ ptr _ htg rfl
                · simp only [Option.some.injEq] at h
                  rw [← h]; exact mark_is _ ptr _ htg (binder_effect_mark _ _ _ _ _ _)

/-- A dispatch that reports an error writes no variable and marks at most the record that the
chosen method looked up for the token. -/
theorem dispatch_error_target (Pp : prefix_policy) (Dp : delim_policy) (F : double_lib)
    (Vp : value_decoder) (p : parser) (mem : Store) (token : String) (index position : Nat)
    (error : String) (p1 : parser) (mem1 : Store) (index1 position1 : Nat)
    (h : parser.dispatch Pp Dp F Vp p mem token index position
      = some ((some error, p1, mem1), index1, position1)) :
    mem1 = mem
      ∧ (p1 = p ∨ ∃ it, parser.target Pp Dp p token position = some it
          ∧ p1 = p.set_provided it) := by
  obtain ⟨h1, _⟩ := dispatch_error_frame Pp Dp F Vp p mem token index position error p1 mem1
    index1 position1 h
  refine ⟨h1, ?_⟩
  rw [dispatch_eq_effect] at h
  cases he : parser.effect_of Pp Dp F Vp p token index position with
  | none => simp [he] at h
  | some e =>
    have hmk := effect_of_mark Pp Dp F Vp p token index position e he
    simp only [he, Option.map_some', effect.run, Option.some.injEq, Prod.mk.injEq] at h
    obtain ⟨⟨_, h2, _⟩, _, _⟩ := h
    rw [← h2]
    unfold effect.engine
    cases hm : e.mark with
    | none => left; rfl
    | some it => right; exact ⟨it, hmk it hm, rfl⟩

/-- A run of the loop that returns is a walk that either passes the last token and ends with
the required sweep, or arrives at a token whose dispatch reports the error returned. -/
theorem parse_loop_cases (Pp : prefix_policy) (Dp : delim_policy) (F : double_lib)
    (Vp : value_decoder) (p0 : parser) (mem0 : Store) : ∀ (fuel : Nat) (log : List bound)
    (p : parser) (mem : Store) (index position : Nat) (r : Option String) (p1 : parser)
    (mem1 : Store),
    parser.Trace Pp Dp F Vp p0 mem0 log p mem index position →
    parser.parse_loop Pp Dp F Vp fuel p mem index position = some (r, p1, mem1) →
    ∃ (log2 : List bound) (p2 : parser) (mem2 : Store) (index2 position2 : Nat),
      parser.Trace Pp Dp F Vp p0 mem0 log2 p2 mem2 index2 position2
      ∧ ((p2.m_argv.length ≤ index2 ∧ p2.m_check_required = some r ∧ p1 = p2 ∧ mem1 = mem2)
        ∨ (∃ (token error : String) (i1 pos1 : Nat), p2.m_argv[index2]? = some token
            ∧ r = some error
            ∧ parser.dispatch Pp Dp F Vp p2 mem2 token index2 position2
              = some ((some error, p1, mem1), i1, pos1))) := by
  intro fuel
  induction fuel with
  | zero =>
    intro log p mem index position r p1 mem1 ht h
    rw [parser.parse_loop.eq_def] at h
    by_cases hlt : index < p.m_argv.length
    · simp [hlt] at h
    · simp only [hlt, if_false] at h
      cases hc : p.m_check_required with
      | none => simp [hc] at h
      | some r0 =>
        simp only [hc, Option.some.injEq, Prod.mk.injEq] at h
        obtain ⟨h1, h2, h3⟩ := h
        subst h1
        exact ⟨log, p, mem, index, position, ht, Or.inl ⟨by omega, hc, h2.symm, h3.symm⟩⟩
  | succ fuel ih =>
    intro log p mem index position r p1 mem1 ht h
    by_cases hlt : index < p.m_argv.length
    · have htok : p.m_argv[index]? = some (p.m_argv[index]) := List.getElem?_eq_getElem hlt
      generalize p.m_argv[index] = token at htok
      cases hd : parser.dispatch Pp Dp F Vp p mem token index position with
      | none =>
        rw [parser.parse_loop.eq_def] at h
        simp [hlt, htok, hd] at h
      | some res =>
        obtain ⟨⟨e, q, m⟩, i1, pos1⟩ := res
        cases e with
        | some error =>
          rw [parse_loop_error Pp Dp F Vp fuel p mem index position token error q m i1 pos1
            htok hd] at h
          simp only [Option.some.injEq, Prod.mk.injEq] at h
          obtain ⟨h1, h2, h3⟩ := h
          subst h1 h2 h3
          exact ⟨log, p, mem, index, position, ht,
            Or.inr ⟨token, error, i1, pos1, htok, rfl, hd⟩⟩
        | none =>
          rw [parse_loop_step Pp Dp F Vp fuel p mem index position token q m i1 pos1 htok hd]
            at h
          obtain ⟨ptr, a, val, g1, g2, g3, _⟩ :=
            dispatch_ok_full Pp Dp F Vp p mem token index position q m i1 pos1 hd
          exact ih _ q m (i1 + 1) pos1 r p1 mem1 (parser.Trace.step ht htok hd g1 g2 g3) h
    · rw [parser.parse_loop.eq_def] at h
      simp only [hlt, if_false] at h
      cases hc : p.m_check_required with
      | none => simp [hc] at h
      | some r0 =>
        simp only [hc, Option.some.injEq, Prod.mk.injEq] at h
        obtain ⟨h1, h2, h3⟩ := h
        subst h1
        exact ⟨log, p, mem, index, position, ht, Or.inl ⟨by omega, hc, h2.symm, h3.symm⟩⟩

/-- The heap after the records of a log have been marked. -/
theorem marked_heap (log : List bound) (p : parser) (q : Nat) :
    (bound.marked log p).heap[q]?
      = (p.heap[q]?).map (fun a =>
          if q ∈ log.map (fun b => b.ptr) then { a with m_provided := true } else a) := by
  have hmap : (log.map (fun b => (b.ptr, b.val))).map Prod.fst = log.map (fun b => b.ptr) := by
    rw [List.map_map]; rfl
  rw [marked_eq_mark_all, mark_all_heap, hmap]

/-- A variable that no entry of a log writes keeps its value through the log. -/
theorem replay_frame (log : List bound) (mem0 : Store) (addr : Nat)
    (h : ∀ b ∈ log, b.addr ≠ addr) : bound.replay log mem0 addr = mem0 addr :=
  replay_skip log addr h mem0

/-- Equal declarations are equal in every field but the provided mark. -/
theorem decl_fields (a b : argument) (h : a.decl = b.decl) :
    a.m_names = b.m_names ∧ a.m_type = b.m_type ∧ a.m_required = b.m_required
      ∧ a.m_bind = b.m_bind ∧ a.m_help = b.m_help := by
  cases a
  cases b
  simp only [argument.decl, argument.mk.injEq] at h
  simp only []
  obtain ⟨h1, h2, h3, _, h5, h6⟩ := h
  exact ⟨h2, h1, h5, h3, h6⟩

/-- C22 (amended): the frame of `parse`.  Let `parse` return, with success or with an error,
leaving the engine `p1` and the variables `mem1`.  Then `parse` has changed neither the token
vector, nor the positional order, nor the name table, nor the names, expected type, required
flag, write-back or help text of any record.  Moreover there is a walk with a log that accounts
for the run: either the walk passed the last token and the result is that of the required
sweep, or it arrived at the token whose dispatch reported the returned error; call a record
matched when an entry of the log matched it or when it is the record that the method chosen for
that failing token looked up.  Every entry of the log is a token of the stream bound to its
record and written to the variable of that record, and the variables after `parse` are the
variables before it with exactly the writes of the log: a variable that is not the variable of
an entry of the log is unchanged, and a record that is not matched is unchanged, its provided
flag included. -/
theorem parse_frame (Pp : prefix_policy) (Dp : delim_policy)
    (F : double_lib) (Vp : value_decoder) (p0 : parser) (mem0 : Store)
    (r : Option String) (p1 : parser) (mem1 : Store)
    (h : parser.parse Pp Dp F Vp p0 mem0 = some (r, p1, mem1)) :
    p1.m_argv = p0.m_argv ∧ p1.m_positionals = p0.m_positionals
    ∧ p1.m_options = p0.m_options ∧ p1.heap.length = p0.heap.length
    ∧ (∀ (j : Nat) (a0 : argument), p0.heap[j]? = some a0 →
        ∃ a1 : argument, p1.heap[j]? = some a1 ∧ a1.m_names = a0.m_names
          ∧ a1.m_type = a0.m_type ∧ a1.m_required = a0.m_required
          ∧ a1.m_bind = a0.m_bind ∧ a1.m_help = a0.m_help)
    ∧ ∃ (log : List bound) (p : parser) (mem : Store) (index position : Nat)
        (last : Option Nat),
        parser.Trace Pp Dp F Vp p0 mem0 log p mem index position
        ∧ ((p0.m_argv.length ≤ index ∧ last = none ∧ p.m_check_required = some r)
          ∨ (∃ token error : String, p0.m_argv[index]? = some token ∧ r = some error
              ∧ last = parser.target Pp Dp p0 token position))
        ∧ (∀ b ∈ log, ∃ (token : String) (a : argument), p0.m_argv[b.index]? = some token
            ∧ p0.heap[b.ptr]? = some a ∧ b.addr = a.m_bind.bind)
        ∧ mem1 = bound.replay log mem0
        ∧ (∀ addr : Nat, (∀ b ∈ log, b.addr ≠ addr) → mem1 addr = mem0 addr)
        ∧ (∀ q : Nat, q ∉ log.map (fun b => b.ptr) → last ≠ some q →
            p1.heap[q]? = p0.heap[q]?) := by
  unfold parser.parse at h
  obtain ⟨hs, _, _⟩ := parse_loop_rerun Pp Dp F Vp _ p0 mem0 1 0 r p1 mem1 h
  have hlen : p1.heap.length = p0.heap.length := by
    have := congrArg List.length hs.2.2.2
    simpa using this
  refine ⟨hs.1, hs.2.1, hs.2.2.1, hlen, ?_, ?_⟩
  · intro j a0 ha0
    have hj : j < p1.heap.length := by
      rw [hlen]; exact (List.getElem?_eq_some_iff.mp ha0).1
    have ha1 : p1.heap[j]? = some p1.heap[j] := List.getElem?_eq_getElem hj
    have hd : (p1.heap.map argument.decl)[j]? = (p0.heap.map argument.decl)[j]? := by
      rw [hs.2.2.2]
    rw [List.getElem?_map, List.getElem?_map, ha1, ha0] at hd
    simp only [Option.map_some', Option.some.injEq] at hd
    exact ⟨p1.heap[j], ha1, decl_fields _ _ hd⟩
  · obtain ⟨log, p, mem, index, position, ht, hcase⟩ :=
      parse_loop_cases Pp Dp F Vp p0 mem0 _ [] p0 mem0 1 0 r p1 mem1 parser.Trace.start h
    have hreach := trace_reaches Pp Dp F Vp p0 mem0 log p mem index position ht
    obtain ⟨f1, f2, f3, _, _⟩ := reaches_frame Pp Dp F Vp p0 mem0 p mem index position hreach
    obtain ⟨s1, s2, _⟩ := trace_state Pp Dp F Vp p0 mem0 log p mem index position ht
    have hentry : ∀ b ∈ log, ∃ (token : String) (a : argument),
        p0.m_argv[b.index]? = some token ∧ p0.heap[b.ptr]? = some a
        ∧ b.addr = a.m_bind.bind := by
      intro b hb
      obtain ⟨i, hi⟩ := List.mem_iff_getElem?.mp hb
      obtain ⟨token, a0, e1, _, _, e4, e5, _⟩ :=
        trace_entry Pp Dp F Vp p0 mem0 log p mem index position ht i b hi
      exact ⟨token, a0, e1, e4, e5⟩
    have hkeep : ∀ q : Nat, q ∉ log.map (fun b => b.ptr) → p.heap[q]? = p0.heap[q]? := by
      intro q hq
      rw [s2, marked_heap]
      cases p0.heap[q]? <;> simp [hq]
    rcases hcase with ⟨h1, h2, h3, h4⟩ | ⟨token, error, i1, pos1, h1, h2, h3⟩
    · refine ⟨log, p, mem, index, position, none, ht, Or.inl ⟨by rw [← f1]; exact h1, rfl, h2⟩,
        hentry, by rw [h4, s1], ?_, ?_⟩
      · intro addr ha
        rw [h4, s1]
        exact replay_frame log mem0 addr ha
      · intro q hq _
        rw [h3]
        exact hkeep q hq
    · obtain ⟨g1, g2⟩ := dispatch_error_target Pp Dp F Vp p mem token index position error
        p1 mem1 i1 pos1 h3
      refine ⟨log, p, mem, index, position, parser.target Pp Dp p0 token position, ht,
        Or.inr ⟨token, error, by rw [← f1]; exact h1, h2, rfl⟩, hentry, by rw [g1, s1], ?_, ?_⟩
      · intro addr ha
        rw [g1, s1]
        exact replay_frame log mem0 addr ha
      · intro q hq hlast
        rcases g2 with g2 | ⟨it, g3, g4⟩
        · rw [g2]; exact hkeep q hq
        · rw [target_congr Pp Dp p p0 f3 f2] at g3
          have hne : it ≠ q := by
            intro he
            apply hlast
            rw [g3, he]
          rw [g4, set_provided_heap_ne _ _ _ hne]
          exact hkeep q hq

/-- C22 witness: `[prog, 5, --num=abc]` with the `int64_t` option `--num` or `-n` (address 0)
and the `int64_t` positional `count` (address 1) fails at the third token; the tables are as
before, and the variables are the initial ones with the writes of a log of the walk. -/
theorem parse_frame_witness :
    (((test_number_engine ["prog", "5", "--num=abc"]).set_provided 1).set_provided
        0).m_positionals = (test_number_engine ["prog", "5", "--num=abc"]).m_positionals
    ∧ (((test_number_engine ["prog", "5", "--num=abc"]).set_provided 1).set_provided
        0).m_options = (test_number_engine ["prog", "5", "--num=abc"]).m_options
    ∧ ∃ (log : List bound) (p : parser) (mem : Store) (index position : Nat),
        parser.Trace default_prefix_policy default_delim_policy no_double
          (default_value_parser_parse no_double)
          (test_number_engine ["prog", "5", "--num=abc"]) test_zero_store log p mem index
          position
        ∧ test_zero_store.write 1 (.int64 5) = bound.replay log test_zero_store
        ∧ (∀ addr : Nat, (∀ b ∈ log, b.addr ≠ addr) →
            (test_zero_store.write 1 (.int64 5)) addr = test_zero_store addr) := by
  obtain ⟨_, h2, h3, _, _, log, p, mem, index, position, _, ht, _, _, h7, h8, _⟩ :=
    parse_frame default_prefix_policy default_delim_policy no_double
      (default_value_parser_parse no_double)
      (test_number_engine ["prog", "5", "--num=abc"]) test_zero_store
      (some "--num=abc: bad value (int64)")
      (((test_number_engine ["prog", "5", "--num=abc"]).set_provided 1).set_provided 0)
      (test_zero_store.write 1 (.int64 5)) rfl
  exact ⟨h2, h3, log, p, mem, index, position, ht, h7, h8⟩

/-- C22 (as stated) fails: in `[prog, --b=3]` with the options `--a` and `--b` bound to the
same `int64_t` variable, no token matches `--a` (the only token resolves to the record of
`--b`, and the record of `--a` is not marked provided), `parse` succeeds, and yet the bound
variable of `--a` has changed from 0 to 3. -/
theorem unmatched_argument_variable_changed :
    parser.parse_result default_prefix_policy default_delim_policy no_double
        (default_value_parser_parse no_double)
        (test_alias_engine ["prog", "--b=3"]) test_zero_store = some none
    ∧ ((test_alias_engine ["prog", "--b=3"]).heap.map
        (fun a => (a.m_names, a.m_bind.bind))) = [(["--a"], 0), (["--b"], 0)]
    ∧ parser.target default_prefix_policy default_delim_policy
        (test_alias_engine ["prog", "--b=3"]) "--b=3" 0 = some 1
    ∧ (parser.parse default_prefix_policy default_delim_policy no_double
        (default_value_parser_parse no_double)
        (test_alias_engine ["prog", "--b=3"]) test_zero_store).map
        (fun o => o.2.1.heap.map (fun a => a.m_provided)) = some [false, true]
    ∧ test_zero_store 0 = .int64 0
    ∧ parser.parse_var default_prefix_policy default_delim_policy no_double
        (default_value_parser_parse no_double)
        (test_alias_engine ["prog", "--b=3"]) test_zero_store 0 = some (.int64 3) := by
  decide

/-! ## Target types that registration accepts -/

/-- The default decoder is defined exactly on the six alternatives of `value`. -/
theorem default_parse_defined_iff (F : double_lib) (sv : String) (ty : type_info) :
    (∃ r, default_value_parser_parse F sv ty = some r)
      ↔ (ty = .bool ∨ ty = .int64_t ∨ ty = .uint64_t ∨ ty = .double ∨ ty = .string
          ∨ ty = .path) := by
  constructor
  · rintro ⟨r, h⟩
    cases ty <;> simp [default_value_parser_parse] at h ⊢
  · intro h
    unfold default_value_parser_parse
    rcases h with h | h | h | h | h | h <;> subst h <;> simp
    · cases default_value_parser_parse_as_bool sv <;> simp
    · cases default_value_parser_parse_as_int64 sv <;> simp
    · cases default_value_parser_parse_as_uint64 sv <;> simp
    · cases default_value_parser_parse_as_double F sv <;> simp

/-- C21: registration accepts target types that the default decoder does not handle.  The
default decoder is defined exactly for the six tags `bool`, `int64_t`, `uint64_t`, `double`,
`std::string` and path, and reaches `std::unreachable()` (undefined behaviour, `none`) for
every other tag.  `positional` and `option` accept an `int` or a `float` variable and store
`typeid(int)` or `typeid(float)` in the record, not the tag of the value alternative; so a
token dispatched to such an argument (`[prog, 5]`, `[prog, --level=5]`, `[prog, -l, 5]`,
`[prog, 0.5]`) drives `default_value_parser::parse` into its unreachable branch during
`parse`.  With an `int64_t` variable the same token is decoded. -/
theorem registration_accepts_undecodable_type :
    (∀ (F : double_lib) (sv : String) (ty : type_info),
      (∃ r, default_value_parser_parse F sv ty = some r)
        ↔ (ty = .bool ∨ ty = .int64_t ∨ ty = .uint64_t ∨ ty = .double ∨ ty = .string
            ∨ ty = .path))
    ∧ (test_int_engine ["prog", "5"]).m_argv = ["prog", "5"]
    ∧ (test_int_engine ["prog", "5"]).m_positionals = [0]
    ∧ (test_int_engine ["prog", "5"]).m_options = [("--level", 1), ("-l", 1)]
    ∧ (test_int_engine ["prog", "5"]).heap.map (fun a => (a.m_names, a.m_type))
      = [(["count"], .integral true "i"), (["--level", "-l"], .integral true "i")]
    ∧ default_value_parser_parse no_double "5" (.integral true "i") = none
    ∧ parser.parse_result default_prefix_policy default_delim_policy no_double
        (default_value_parser_parse no_double) (test_int_engine ["prog", "5"])
        test_zero_store = none
    ∧ parser.parse_result default_prefix_policy default_delim_policy no_double
        (default_value_parser_parse no_double) (test_int_engine ["prog", "--level=5"])
        test_zero_store = none
    ∧ parser.parse_result default_prefix_policy default_delim_policy no_double
        (default_value_parser_parse no_double) (test_int_engine ["prog", "-l", "5"])
        test_zero_store = none
    ∧ (test_float_engine ["prog", "0.5"]).heap.map (fun a => (a.m_names, a.m_type))
      = [(["ratio"], .floating_point "f")]
    ∧ parser.parse_result default_prefix_policy default_delim_policy no_double
        (default_value_parser_parse no_double) (test_float_engine ["prog", "0.5"])
        test_zero_store = none
    ∧ parser.parse_result default_prefix_policy default_delim_policy no_double
        (default_value_parser_parse no_double) (test_int_engine ["prog"])
        test_zero_store = some none
    ∧ parser.parse_var default_prefix_policy default_delim_policy no_double
        (default_value_parser_parse no_double) (test_number_engine ["prog", "5"])
        test_zero_store 1 = some (.int64 5) := by
  refine ⟨default_parse_defined_iff, ?_⟩
  decide

end argvx
